import Mathlib

/-!
# `baofit`: binned dataset, packed covariance and likelihood objective

A shallow embedding of the data/likelihood machinery of `src/src/baofit.cc`
(classes `UniformBinning`, `VariableBinning`, `TwoStepBinning`, `LyaData`,
`LyaBaoModel`, `LyaBaoLikelihood`, and the loading block and the contour
requests of `main`).

Conventions of the embedding.

* A C++ `double` is an exact rational number (`ℚ`): unless it says otherwise,
  a statement below is a statement about the program in exact arithmetic.
  Where the last bits of a quotient decide (the floor lookup of
  `UniformBinning`, C14 and C16), the member functions are given a second time
  with every operation rounded to IEEE 754 binary64 (`roundDouble`, namespace
  `Binary64`), and the statements are about those.
* A C++ `int` is a mathematical integer (`ℤ`); `/` and `%` on `int` are the
  truncating `Int.tdiv` and `Int.tmod`.  Signed overflow is undefined in C++
  and is not modelled.
* `std::vector<T>` is `List T`; `v[k]` is `List.getD` with the element type's
  zero, `v.push_back x` is `v ++ [x]`, `v[k] = x` is `List.set`.
* `assert(e)` is checked (the program is built without `NDEBUG`): a member
  function that can trip an assertion returns an `Outcome` whose `failed` case
  carries the object state at the moment the assertion fired, or an `Option`
  when it only computes a value.  Reading a vector outside its bounds, which
  is undefined in C++, reads the default value; the statements below only
  concern states in which no such read happens.
* The `<cmath>` functions, the cosmology object and the correlation functions
  are parameters (`Libm`, `Cosmology`, `LyaBaoModel`); where a statement about
  `TwoStepBinning` needs more of `exp` and `log` than their types, it assumes
  `Libm.ExpLogLike`.  The BLAS/LAPACK routines
  `dspmv`, `dpptrf`, `dpptri` are modelled in exact arithmetic from their
  reference documentation.
-/

set_option autoImplicit false

namespace BaoFit

/-! ## Outcomes of checked member functions -/

/-- Why a member function stopped: a failed contract `assert`, or a failed
`assert(0 == info)` after one of the two LAPACK calls of `finalizeCovariance`
(with the status that was printed). -/
inductive Failure where
  | contract : Failure
  | cholesky (info : ℤ) : Failure
  | inverse (info : ℤ) : Failure
deriving DecidableEq

/-- Result of a state-changing member function: it ran to completion leaving
state `s`, or an assertion fired while the object was in state `s`. -/
inductive Outcome (σ : Type) where
  | done (s : σ) : Outcome σ
  | failed (why : Failure) (s : σ) : Outcome σ

/-- Sequencing: nothing runs after a fired assertion. -/
def Outcome.bind {σ : Type} (o : Outcome σ) (f : σ → Outcome σ) : Outcome σ :=
  match o with
  | .done s => f s
  | .failed why s => .failed why s

/-- The `<cmath>` functions used by the program. -/
structure Libm where
  exp : ℚ → ℚ
  log : ℚ → ℚ
  sqrt : ℚ → ℚ
  atan : ℚ → ℚ
  pow : ℚ → ℚ → ℚ

/-! ## Binning classes (`baofit.cc` lines 73-181) -/

/-- Data members of `UniformBinning`. -/
structure UniformBinning where
  nBins : ℤ
  lowEdge : ℚ
  binSize : ℚ

namespace UniformBinning

/-- Constructor: `assert(nBins > 0); assert(binSize > 0);`. -/
def create (nBins : ℤ) (lowEdge binSize : ℚ) : Option UniformBinning :=
  if nBins > 0 ∧ binSize > 0 then some ⟨nBins, lowEdge, binSize⟩ else none

/-- `int bin = std::floor((value - _lowEdge)/_binSize); assert(bin >= 0 && bin < _nBins);`
in exact arithmetic; `Binary64.getBinIndex` below is the same line with the
subtraction and the division rounded to binary64. -/
def getBinIndex (b : UniformBinning) (value : ℚ) : Option ℤ :=
  let bin : ℤ := ⌊(value - b.lowEdge) / b.binSize⌋
  if bin ≥ 0 ∧ bin < b.nBins then some bin else none

def getNBins (b : UniformBinning) : ℤ := b.nBins

def getBinSize (b : UniformBinning) (_index : ℤ) : Option ℚ := some b.binSize

/-- `assert(index >= 0 && index <= _nBins); return _lowEdge + index*_binSize;` -/
def getBinLowEdge (b : UniformBinning) (index : ℤ) : Option ℚ :=
  if index ≥ 0 ∧ index ≤ b.nBins then some (b.lowEdge + index * b.binSize) else none

/-- Inherited `AbsBinning::getBinCenter`: `getBinLowEdge(index) + 0.5*getBinSize(index)`. -/
def getBinCenter (b : UniformBinning) (index : ℤ) : Option ℚ :=
  match b.getBinLowEdge index, b.getBinSize index with
  | some lo, some size => some (lo + (1/2) * size)
  | _, _ => none

end UniformBinning

/-- Data members of `VariableBinning`. -/
structure VariableBinning where
  binEdge : List ℚ

namespace VariableBinning

/-- The loop `for(bin = ..; bin < _binEdge.size(); ++bin) if(value < _binEdge[bin]) return bin-1;`
followed by `return -1`, run over the edges that are still ahead. -/
def scan (value : ℚ) : List ℚ → ℤ → ℤ
  | [], _ => -1
  | e :: rest, bin => if value < e then bin - 1 else scan value rest (bin + 1)

/-- Linear search; `-1` signals underflow or overflow.  Reading `_binEdge[0]`
of an empty vector is undefined and is reported as `none`. -/
def getBinIndex (b : VariableBinning) (value : ℚ) : Option ℤ :=
  match b.binEdge with
  | [] => none
  | e0 :: rest => if value < e0 then some (-1) else some (scan value rest 1)

/-- `_binEdge.size()-1` converted to `int`. -/
def getNBins (b : VariableBinning) : ℤ := (b.binEdge.length : ℤ) - 1

/-- `assert(index >= 0 && index < _binEdge.size()-1); return _binEdge[index+1] - _binEdge[index];` -/
def getBinSize (b : VariableBinning) (index : ℤ) : Option ℚ :=
  if index ≥ 0 ∧ index.toNat + 1 < b.binEdge.length then
    some (b.binEdge.getD (index.toNat + 1) 0 - b.binEdge.getD index.toNat 0)
  else none

/-- `assert(index >= 0 && index < _binEdge.size()); return _binEdge[index];` -/
def getBinLowEdge (b : VariableBinning) (index : ℤ) : Option ℚ :=
  if index ≥ 0 ∧ index.toNat < b.binEdge.length then some (b.binEdge.getD index.toNat 0) else none

/-- Inherited `AbsBinning::getBinCenter`. -/
def getBinCenter (b : VariableBinning) (index : ℤ) : Option ℚ :=
  match b.getBinLowEdge index, b.getBinSize index with
  | some lo, some size => some (lo + (1/2) * size)
  | _, _ => none

end VariableBinning

/-- Data members of `TwoStepBinning`: the inherited edges and its own centers. -/
structure TwoStepBinning where
  binEdge : List ℚ
  binCenter : List ℚ

namespace TwoStepBinning

/-- Default value of the constructor argument `eps`. -/
def defaultEps : ℚ := 1 / 1000

/-- Constructor.  The two loops run `k = 1 .. nUniform` and
`k = 1 .. nBins-nUniform-1`; `k` is `i + 1` for `i` in a `List.range`. -/
def create (m : Libm) (nBins : ℤ) (breakpoint dlog dlin eps : ℚ) : Option TwoStepBinning :=
  if breakpoint > 0 ∧ dlog > 0 ∧ dlin > 0 ∧ eps > 0 then
    let nUniform : ℤ := ⌊breakpoint / dlin⌋
    let ratio : ℚ := m.log ((breakpoint + dlog) / breakpoint)
    let uniformK : List ℚ := (List.range nUniform.toNat).map (fun (i : ℕ) => (i : ℚ) + 1)
    let logK : List ℚ :=
      (List.range (nBins - nUniform - 1).toNat).map (fun (i : ℕ) => (i : ℚ) + 1)
    some
      { binEdge := [-eps * dlin, eps * dlin]
          ++ uniformK.map (fun k => k * dlin)
          ++ logK.map (fun k => breakpoint * m.exp (ratio * k))
        binCenter := [0]
          ++ uniformK.map (fun k => (k - 1/2) * dlin)
          ++ logK.map (fun k => breakpoint * m.exp (ratio * (k - 1/2))) }
  else none

def toVariable (b : TwoStepBinning) : VariableBinning := ⟨b.binEdge⟩

/-- `assert(index >= 0 && index < _binCenter.size()); return _binCenter[index];` -/
def getBinCenter (b : TwoStepBinning) (index : ℤ) : Option ℚ :=
  if index ≥ 0 ∧ index.toNat < b.binCenter.length then some (b.binCenter.getD index.toNat 0) else none

end TwoStepBinning

/-- The closed set of classes behind an `AbsBinningPtr`. -/
inductive AbsBinning where
  | ofUniform (b : UniformBinning) : AbsBinning
  | ofVariable (b : VariableBinning) : AbsBinning
  | ofTwoStep (b : TwoStepBinning) : AbsBinning

namespace AbsBinning

def getBinIndex : AbsBinning → ℚ → Option ℤ
  | ofUniform b, value => b.getBinIndex value
  | ofVariable b, value => b.getBinIndex value
  | ofTwoStep b, value => b.toVariable.getBinIndex value

def getNBins : AbsBinning → ℤ
  | ofUniform b => b.getNBins
  | ofVariable b => b.getNBins
  | ofTwoStep b => b.toVariable.getNBins

def getBinSize : AbsBinning → ℤ → Option ℚ
  | ofUniform b, index => b.getBinSize index
  | ofVariable b, index => b.getBinSize index
  | ofTwoStep b, index => b.toVariable.getBinSize index

def getBinLowEdge : AbsBinning → ℤ → Option ℚ
  | ofUniform b, index => b.getBinLowEdge index
  | ofVariable b, index => b.getBinLowEdge index
  | ofTwoStep b, index => b.toVariable.getBinLowEdge index

def getBinCenter : AbsBinning → ℤ → Option ℚ
  | ofUniform b, index => b.getBinCenter index
  | ofVariable b, index => b.getBinCenter index
  | ofTwoStep b, index => b.getBinCenter index

end AbsBinning

/-! ## Packed symmetric matrices and the BLAS/LAPACK routines -/

/-- Position of element `(row, col)`, `row ≤ col`, of an upper triangle packed
by columns (LAPACK `UPLO = 'U'`, zero-based). -/
def packedIndex (row col : ℕ) : ℕ := row + col * (col + 1) / 2

/-- Element `(i, j)` of the symmetric matrix whose upper triangle is packed in `ap`. -/
def symAt (ap : List ℚ) (i j : ℕ) : ℚ := ap.getD (packedIndex (min i j) (max i j)) 0

/-- The `n × n` symmetric matrix whose upper triangle is packed in `ap`. -/
def unpackU (n : ℕ) (ap : List ℚ) : Matrix (Fin n) (Fin n) ℚ := fun i j => symAt ap i j

/-- Upper triangle of the first `n` columns of `f`, packed by columns. -/
def packU (f : ℕ → ℕ → ℚ) : ℕ → List ℚ
  | 0 => []
  | n + 1 => packU f n ++ (List.range (n + 1)).map (fun row => f row n)

/-- Positive definiteness of a (symmetric) matrix: `xᵀ A x > 0` for every `x ≠ 0`. -/
def IsPosDef {n : ℕ} (A : Matrix (Fin n) (Fin n) ℚ) : Prop :=
  ∀ x : Fin n → ℚ, x ≠ 0 → 0 < Matrix.dotProduct x (A.mulVec x)

/-- What is left of a symmetric matrix after eliminating its first row and
column with the pivot `A 0 0` (one step of the Cholesky recurrence). -/
def schurStep {n : ℕ} (A : Matrix (Fin (n + 1)) (Fin (n + 1)) ℚ) : Matrix (Fin n) (Fin n) ℚ :=
  fun i j => A i.succ j.succ - A i.succ 0 * A 0 j.succ / A 0 0

/-- Status of a Cholesky factorization in exact arithmetic: `0` when every
pivot is positive, otherwise the (one-based) order of the first pivot that is
not, which is the first leading minor that is not positive definite. -/
def choleskyInfo : (n : ℕ) → Matrix (Fin n) (Fin n) ℚ → ℕ
  | 0, _ => 0
  | n + 1, A =>
    if A 0 0 ≤ 0 then 1
    else match choleskyInfo n (schurStep A) with
      | 0 => 0
      | k + 1 => k + 2

/-- Inverse of a square matrix with non-zero determinant, by Cramer's rule. -/
def cramerInverse {n : ℕ} (A : Matrix (Fin n) (Fin n) ℚ) : Matrix (Fin n) (Fin n) ℚ :=
  (A.det)⁻¹ • A.adjugate

/-- Modelled from the spec: the LAPACK routine `dpptrf` (external library, only
declared in `baofit.cc`), `UPLO = 'U'`, in exact arithmetic.  It "computes the
Cholesky factorization" and reports `INFO = i > 0` when "the leading minor of
order i is not positive definite".  The factor holds square roots and has no
exact rational form; the program never reads it and only hands it on to
`dpptri`, so the factored form of `A` is represented by the entries of `A`. -/
def dpptrf (n : ℕ) (ap : List ℚ) : List ℚ × ℤ :=
  (ap, (choleskyInfo n (unpackU n ap) : ℤ))

/-- Modelled from the spec: the LAPACK routine `dpptri` (external library),
`UPLO = 'U'`, in exact arithmetic: given the factored form of `A` it overwrites
the packed storage with the upper triangle of the inverse of `A`, and reports a
positive `INFO` when the factor is singular and no inverse exists. -/
def dpptri (n : ℕ) (ap : List ℚ) : List ℚ × ℤ :=
  if (unpackU n ap).det = 0 then (ap, 1)
  else (packU (fun i j => if h : i < n ∧ j < n then
      cramerInverse (unpackU n ap) ⟨i, h.1⟩ ⟨j, h.2⟩ else 0) n ++ ap.drop (n * (n + 1) / 2), 0)

/-- Modelled from the spec: the BLAS routine `dspmv` (external library) with
`UPLO = 'U'` and unit strides: `y := alpha*A*x + beta*y` for the symmetric
matrix `A` of order `n` packed in `ap`. -/
def dspmv (n : ℕ) (alpha : ℚ) (ap x : List ℚ) (beta : ℚ) (y : List ℚ) : List ℚ :=
  (List.range n).map (fun i =>
      alpha * ((List.range n).map (fun j => symAt ap i j * x.getD j 0)).sum + beta * y.getD i 0)
    ++ y.drop n

/-! ## `LyaData` (`baofit.cc` lines 183-306) -/

/-- The two methods of `cosmo::AbsHomogeneousUniverse` that the program calls. -/
structure Cosmology where
  getLineOfSightComovingDistance : ℚ → ℚ
  getTransverseComovingScale : ℚ → ℚ

/-- Data members of `LyaData`; `cmath` carries the `<cmath>` functions its
methods call. -/
structure LyaData where
  cmath : Libm
  logLambdaBinning : AbsBinning
  separationBinning : AbsBinning
  redshiftBinning : AbsBinning
  cosmology : Cosmology
  data : List ℚ
  cov : List ℚ
  icov : List ℚ
  r3d : List ℚ
  mu : List ℚ
  icovDelta : List ℚ
  initialized : List Bool
  hasCov : List Bool
  index : List ℤ
  nsep : ℤ
  nz : ℤ
  nBinsTotal : ℤ
  arcminToRad : ℚ
  dataFinalized : Bool
  covarianceFinalized : Bool

/-- `std::vector::resize(n, v)`. -/
def vectorResize {α : Type} (l : List α) (n : ℕ) (v : α) : List α :=
  l.take n ++ List.replicate (n - l.length) v

namespace LyaData

/-- Constructor (lines 185-199). -/
def create (m : Libm) (logLambdaBinning separationBinning redshiftBinning : AbsBinning)
    (cosmology : Cosmology) : LyaData :=
  let nsep := separationBinning.getNBins
  let nz := redshiftBinning.getNBins
  let nBinsTotal := logLambdaBinning.getNBins * nsep * nz
  { cmath := m
    logLambdaBinning := logLambdaBinning
    separationBinning := separationBinning
    redshiftBinning := redshiftBinning
    cosmology := cosmology
    data := [], cov := [], icov := [], r3d := [], mu := [], icovDelta := []
    initialized := vectorResize [] nBinsTotal.toNat false
    hasCov := []
    index := []
    nsep := nsep
    nz := nz
    nBinsTotal := nBinsTotal
    arcminToRad := 4 * m.atan 1 / (60 * 180)
    dataFinalized := false
    covarianceFinalized := false }

def getSize (s : LyaData) : ℤ := s.nBinsTotal
def getNData (s : LyaData) : ℤ := (s.data.length : ℤ)
def getNCov (s : LyaData) : ℤ := ((s.hasCov.count true : ℕ) : ℤ)
def getIndex (s : LyaData) (k : ℕ) : ℤ := s.index.getD k 0
def getData (s : LyaData) (k : ℕ) : ℚ := s.data.getD k 0
/-- `_cov[(k*(k+3))/2]`. -/
def getVariance (s : LyaData) (k : ℕ) : ℚ := s.cov.getD (k * (k + 3) / 2) 0
def getRadius (s : LyaData) (k : ℕ) : ℚ := s.r3d.getD k 0
def getCosAngle (s : LyaData) (k : ℕ) : ℚ := s.mu.getD k 0
/-- `_redshiftBinning->getBinCenter(_index[k] % _nz)`. -/
def getRedshift (s : LyaData) (k : ℕ) : Option ℚ :=
  s.redshiftBinning.getBinCenter ((s.getIndex k).tmod s.nz)

/-- Method `transform` (lines 229-241); the two output arguments are returned
as the pair `(r3d, mu)`. -/
def transform (s : LyaData) (ll sep z ds : ℚ) : ℚ × ℚ :=
  let ratio := s.cmath.exp ((1/2) * ll)
  let zp1 := z + 1
  let z1 := zp1 / ratio - 1
  let z2 := zp1 * ratio - 1
  let drLos := s.cosmology.getLineOfSightComovingDistance z2
    - s.cosmology.getLineOfSightComovingDistance z1
  let swgt := sep + (ds * ds / 12) / sep
  let drPerp := s.cosmology.getTransverseComovingScale z * (swgt * s.arcminToRad)
  let rsq := drLos * drLos + drPerp * drPerp
  let r3d := s.cmath.sqrt rsq
  let mu := |drLos| / r3d
  (r3d, mu)

/-- Flat index of a bin triple: `(logLambdaBin*_nsep + separationBin)*_nz + redshiftBin`. -/
def flatIndex (s : LyaData) (logLambdaBin separationBin redshiftBin : ℤ) : ℤ :=
  (logLambdaBin * s.nsep + separationBin) * s.nz + redshiftBin

/-- Method `addData` (lines 200-221). -/
def addData (s : LyaData) (value logLambda separation redshift : ℚ) : Outcome LyaData :=
  match s.logLambdaBinning.getBinIndex logLambda, s.separationBinning.getBinIndex separation,
      s.redshiftBinning.getBinIndex redshift with
  | some logLambdaBin, some separationBin, some redshiftBin =>
    let index := s.flatIndex logLambdaBin separationBin redshiftBin
    match s.logLambdaBinning.getBinCenter logLambdaBin,
        s.separationBinning.getBinCenter separationBin,
        s.redshiftBinning.getBinCenter redshiftBin with
    | some llCenter, some sepCenter, some zCenter =>
      if ¬ (|logLambda - llCenter| < 1e-6) then .failed .contract s
      else if ¬ (|separation - sepCenter| < 1e-6) then .failed .contract s
      else if ¬ (|redshift - zCenter| < 1e-6) then .failed .contract s
      else if s.initialized.getD index.toNat false then .failed .contract s
      else
        let s1 := { s with
          data := s.data ++ [value]
          initialized := s.initialized.set index.toNat true
          index := s.index ++ [index] }
        match s1.separationBinning.getBinSize separationBin with
        | none => .failed .contract s1
        | some ds =>
          let rm := s1.transform logLambda separation redshift ds
          .done { s1 with r3d := s1.r3d ++ [rm.1], mu := s1.mu ++ [rm.2] }
    | _, _, _ => .failed .contract s
  | _, _, _ => .failed .contract s

/-- Method `finalizeData` (lines 222-228). -/
def finalizeData (s : LyaData) : LyaData :=
  let nData := s.getNData
  let nCov := (nData * (nData + 1)).tdiv 2
  { s with
    cov := vectorResize s.cov nCov.toNat 0
    hasCov := vectorResize s.hasCov nCov.toNat false
    dataFinalized := true }

/-- Method `addCovariance` (lines 242-258). -/
def addCovariance (s : LyaData) (i j : ℤ) (value : ℚ) : Outcome LyaData :=
  let col := if i ≥ j then i else j
  let row := if i ≥ j then j else i
  if ¬ s.dataFinalized then .failed .contract s
  else if ¬ (row ≥ 0 ∧ col ≥ 0 ∧ col < s.getNData) then .failed .contract s
  else if ¬ (col > row ∨ value > 0) then .failed .contract s
  else
    let index := row + (col * (col + 1)).tdiv 2
    if ¬ (s.hasCov.getD index.toNat false = false) then .failed .contract s
    else .done { s with
      cov := s.cov.set index.toNat value
      hasCov := s.hasCov.set index.toNat true }

/-- Method `finalizeCovariance` (lines 259-271). -/
def finalizeCovariance (s : LyaData) : Outcome LyaData :=
  if ¬ s.dataFinalized then .failed .contract s
  else
    let s1 := { s with icov := s.cov }
    let ndata := s1.getNData
    let f := dpptrf ndata.toNat s1.icov
    let s2 := { s1 with icov := f.1 }
    if ¬ (0 = f.2) then .failed (.cholesky f.2) s2
    else
      let g := dpptri ndata.toNat s2.icov
      let s3 := { s2 with icov := g.1 }
      if ¬ (0 = g.2) then .failed (.inverse g.2) s3
      else .done { s3 with covarianceFinalized := true }

/-- Method `calculateChiSquare` (lines 284-296): the value returned and the
object state afterwards (`_icovDelta` is overwritten). -/
def calculateChiSquare (s : LyaData) (delta : List ℚ) : ℚ × LyaData :=
  let s1 := { s with icovDelta := List.replicate delta.length 0 }
  let ndata := s1.getNData
  let s2 := { s1 with icovDelta := dspmv ndata.toNat 1 s1.icov delta 0 s1.icovDelta }
  let chi2 := (List.range ndata.toNat).foldl
    (fun chi2 k => chi2 + delta.getD k 0 * s2.icovDelta.getD k 0) 0
  (chi2, s2)

end LyaData

/-! ## `LyaBaoModel`, `Parameter`, `LyaBaoLikelihood` (lines 310-504) -/

/-- Data members of `LyaBaoModel`.  `fid` and `nw` are the two
`cosmo::RsdCorrelationFunction` objects: `fid beta r mu` is the value of
`(*_fid)(r,mu)` after `_fid->setDistortion(beta)`. -/
structure LyaBaoModel where
  cmath : Libm
  zref : ℚ
  fid : ℚ → ℚ → ℚ → ℚ
  nw : ℚ → ℚ → ℚ → ℚ

/-- Method `LyaBaoModel::evaluate` (lines 336-346); `p` is `lk::Parameters`. -/
def LyaBaoModel.evaluate (m : LyaBaoModel) (r mu z : ℚ) (p : List ℚ) : ℚ :=
  let alpha := p.getD 0 0
  let bias := p.getD 1 0
  let beta := p.getD 2 0
  let ampl := p.getD 3 0
  let scale := p.getD 4 0
  let a1 := p.getD 5 0
  let a2 := p.getD 6 0
  let a3 := p.getD 7 0
  let zfactor := m.cmath.pow ((1 + z) / (1 + m.zref)) alpha
  let fid := m.fid beta (r * scale) mu
  let nw := m.nw beta (r * scale) mu
  let xi := ampl * (fid - nw) + nw
  let broadband := 1e-1 * a1 / (r * r) + 1e-3 * a2 / r + 1e-5 * a3
  bias * bias * zfactor * xi + broadband

/-- Class `Parameter`. -/
structure Parameter where
  name : String
  value : ℚ
  floating : Bool

/-- Data members of `LyaBaoLikelihood`; the dataset behind the shared pointer
`_data` is passed to the methods explicitly. -/
structure LyaBaoLikelihood where
  model : LyaBaoModel
  params : List Parameter
  rmin : ℚ
  rmax : ℚ
  errorScale : ℚ

namespace LyaBaoLikelihood

/-- Constructor (lines 387-401): `assert(rmax > rmin)`, `_errorScale(1)`, and
the eight parameters. -/
def create (model : LyaBaoModel) (rmin rmax : ℚ) (fixBao noBBand : Bool) :
    Option LyaBaoLikelihood :=
  if rmax > rmin then
    some
      { model := model
        rmin := rmin
        rmax := rmax
        errorScale := 1
        params :=
          [ ⟨"Alpha", 3.8, true⟩, ⟨"Bias", 0.17, true⟩, ⟨"Beta", 1.0, true⟩,
            ⟨"BAO Ampl", 1, !fixBao⟩, ⟨"BAO Scale", 1, !fixBao⟩,
            ⟨"BB a1", 0, !noBBand⟩, ⟨"BB a2", 0, false⟩, ⟨"BB a3", 0, false⟩ ] }
  else none

/-- Method `setErrorScale`: `assert(scale > 0)`. -/
def setErrorScale (lik : LyaBaoLikelihood) (scale : ℚ) : Option LyaBaoLikelihood :=
  if scale > 0 then some { lik with errorScale := scale } else none

/-- The loop of `operator()` (lines 410-418) over the observation numbers
still to visit; `delta` is the residual vector filled so far.  `none` when an
assertion fires inside `getRedshift`. -/
def fillDelta (lik : LyaBaoLikelihood) (s : LyaData) (params : List ℚ) :
    List ℕ → List ℚ → Option (List ℚ)
  | [], delta => some delta
  | k :: rest, delta =>
    let r := s.getRadius k
    if r < lik.rmin ∨ r > lik.rmax then fillDelta lik s params rest delta
    else
      let mu := s.getCosAngle k
      match s.getRedshift k with
      | none => none
      | some z =>
        let obs := s.getData k
        let pred := lik.model.evaluate r mu z params
        fillDelta lik s params rest (delta.set k (obs - pred))

/-- Method `operator()` (lines 406-423): the value returned and the state of
the dataset afterwards. -/
def operatorCall (lik : LyaBaoLikelihood) (s : LyaData) (params : List ℚ) : Option (ℚ × LyaData) :=
  let ndata := s.getNData
  match lik.fillDelta s params (List.range s.getNData.toNat) (List.replicate ndata.toNat 0) with
  | none => none
  | some delta =>
    let c := s.calculateChiSquare delta
    some ((1/2) * c.1 / lik.errorScale, c.2)

end LyaBaoLikelihood

/-! ## The loading block of `main` (lines 617-700) -/

/-- One parsed line of the `.params` file, as passed to `addData`:
`token[0], token[2], token[3], token[4]`. -/
structure DataRecord where
  value : ℚ
  logLambda : ℚ
  separation : ℚ
  redshift : ℚ

/-- One parsed line of the `.cov` file. -/
structure CovRecord where
  index1 : ℤ
  index2 : ℤ
  value : ℚ

/-- The loop `data->addData(token[0],token[2],token[3],token[4])` over the lines. -/
def addDataAll (s : LyaData) : List DataRecord → Outcome LyaData
  | [] => .done s
  | r :: rest =>
    (s.addData r.value r.logLambda r.separation r.redshift).bind (fun s1 => addDataAll s1 rest)

/-- The loop `data->addCovariance(index1,index2,value)` over the lines. -/
def addCovarianceAll (s : LyaData) : List CovRecord → Outcome LyaData
  | [] => .done s
  | r :: rest => (s.addCovariance r.index1 r.index2 r.value).bind (fun s1 => addCovarianceAll s1 rest)

/-- The dataset as `main` builds it: construct, add every data record,
`finalizeData`, add every covariance record, `finalizeCovariance`. -/
def loadData (m : Libm) (llBins sepBins zBins : AbsBinning) (cosmology : Cosmology)
    (records : List DataRecord) (covRecords : List CovRecord) : Outcome LyaData :=
  ((addDataAll (LyaData.create m llBins sepBins zBins cosmology) records).bind
    (fun s => addCovarianceAll s.finalizeData covRecords)).bind LyaData.finalizeCovariance

/-! ## `initialize` and `dump` of `LyaBaoLikelihood`, the contour requests of `main` -/

/-- One parameter of the `ROOT::Minuit2::MnUserParameterState` that `initialize`
fills, as far as `initialize` sets it. -/
structure MinuitParameter where
  name : String
  value : ℚ
  error : ℚ
  fixed : Bool
deriving DecidableEq

/-- The parameters registered with a `MnUserParameterState`, in the order of
registration. -/
structure MinuitState where
  parameters : List MinuitParameter

namespace MinuitState

/-- Modelled from the spec: `MnUserParameterState::Add(name, value, error)`
(external library): the parameter is registered with the minimizer's state,
after the parameters registered before, with its starting value and step. -/
def Add (st : MinuitState) (name : String) (value error : ℚ) : MinuitState :=
  ⟨st.parameters ++ [⟨name, value, error, false⟩]⟩

/-- Modelled from the spec: `MnUserParameterState::Fix(name)` (external
library): the parameter of that name is marked non-floating. -/
def Fix (st : MinuitState) (name : String) : MinuitState :=
  ⟨st.parameters.map (fun p => if p.name = name then { p with fixed := true } else p)⟩

end MinuitState

namespace LyaBaoLikelihood

/-- Method `getNPar`. -/
def getNPar (lik : LyaBaoLikelihood) : ℤ := (lik.params.length : ℤ)

/-- Method `initialize` (lines 425-437): the `BOOST_FOREACH` over `_params`.
(The source name is a reserved word of Lean, hence the spelling.) -/
def initialise (lik : LyaBaoLikelihood) (initialState : MinuitState) : MinuitState :=
  lik.params.foldl (fun st param =>
    let value := param.value
    if param.floating then
      let error := if 0 = value then 0.1 else 0.1 * |value|
      st.Add param.name value error
    else (st.Add param.name value 0).Fix param.name) initialState

/-- The loop of `dump` over the observations (lines 454-468): the rows
`index obs pull` it writes for the observation numbers still to visit.  `m`
carries `std::sqrt`; `none` when an assertion fires inside `getRedshift`. -/
def dumpRows (lik : LyaBaoLikelihood) (m : Libm) (s : LyaData) (params : List ℚ) :
    List ℕ → Option (List (ℤ × ℚ × ℚ))
  | [] => some []
  | k :: rest =>
    let r := s.getRadius k
    let mu := s.getCosAngle k
    match s.getRedshift k with
    | none => none
    | some z =>
      let obs := s.getData k
      let pull :=
        if r ≥ lik.rmin ∧ r ≤ lik.rmax then
          let var := s.getVariance k
          let pred := lik.model.evaluate r mu z params
          (obs - pred) / m.sqrt var
        else 0
      let index := s.getIndex k
      match dumpRows lik m s params rest with
      | none => none
      | some rows => some ((index, obs, pull) :: rows)

/-- The per-observation block of `dump`: one row for `k = 0 .. getNData()-1`. -/
def dumpData (lik : LyaBaoLikelihood) (m : Libm) (s : LyaData) (params : List ℚ) :
    Option (List (ℤ × ℚ × ℚ)) :=
  lik.dumpRows m s params (List.range s.getNData.toNat)

/-- The model binning `dump` builds for one axis (lines 471-474):
`UniformBinning(modelBins, min, (max-min)/(modelBins-1.))`, where `min` and
`max` are `getBinLowEdge(0)` and `getBinLowEdge(getNBins())` of the data
binning of that axis. -/
def modelBinning (bins : AbsBinning) (modelBins : ℤ) : Option UniformBinning :=
  match bins.getBinLowEdge 0, bins.getBinLowEdge bins.getNBins with
  | some lo, some hi => UniformBinning.create modelBins lo ((hi - lo) / ((modelBins : ℚ) - 1))
  | _, _ => none

end LyaBaoLikelihood

/-- The parameter pairs for which `main` requests a contour, in the order of
the calls; the same nine pairs at the 95% and at the 68% level (lines 748-756
and 761-769). -/
def contourPairs : List (ℕ × ℕ) :=
  [(5, 6), (4, 6), (1, 6), (5, 3), (4, 3), (1, 3), (5, 2), (4, 2), (1, 2)]

/-! ## Vocabulary of the statements -/

/-- The sizes fixed by the constructor: `_nsep`, `_nz`, `_nBinsTotal` are the
bin counts of the three axes and `_initialized` has one flag per bin.  No
method changes any of them. -/
def LyaData.WellSized (s : LyaData) : Prop :=
  s.nsep = s.separationBinning.getNBins ∧ s.nz = s.redshiftBinning.getNBins ∧
  s.nBinsTotal = s.logLambdaBinning.getNBins * s.nsep * s.nz ∧
  s.initialized.length = s.nBinsTotal.toNat

/-- The covariance store has the size `finalizeData` gives it for the current
number of observations. -/
def LyaData.CovSized (s : LyaData) : Prop :=
  s.cov.length = s.data.length * (s.data.length + 1) / 2 ∧
  s.hasCov.length = s.data.length * (s.data.length + 1) / 2

/-- Packed slot of the unordered pair of observation numbers `{i, j}`. -/
def covSlot (i j : ℤ) : ℕ := packedIndex (min i j).toNat (max i j).toNat

/-- The three bins a data record falls in, when all three lookups return. -/
def LyaData.binsOf (s : LyaData) (r : DataRecord) : Option (ℤ × ℤ × ℤ) :=
  match s.logLambdaBinning.getBinIndex r.logLambda, s.separationBinning.getBinIndex r.separation,
      s.redshiftBinning.getBinIndex r.redshift with
  | some a, some b, some c => some (a, b, c)
  | _, _, _ => none

/-! ## Concrete objects for the worked instances -/

/-- Stand-ins for the `<cmath>` functions: chosen so that the worked instances
evaluate to small rationals (`sqrt` is the identity, `atan` makes
`_arcminToRad` equal to one). -/
def demoLibm : Libm := ⟨fun _ => 1, fun _ => 0, fun x => x, fun _ => 2700, fun _ _ => 1⟩

def demoCosmology : Cosmology := ⟨fun _ => 0, fun _ => 1⟩

/-- `UniformBinning(n, 0, 1)`: bins `[k, k+1)` with centers `k + 1/2`. -/
def demoBinning (n : ℤ) : AbsBinning := .ofUniform ⟨n, 0, 1⟩

/-- A freshly constructed dataset over a `2 × 3 × 2` grid of bins. -/
def demoEmpty : LyaData :=
  LyaData.create demoLibm (demoBinning 2) (demoBinning 3) (demoBinning 2) demoCosmology

/-- The state an accepted `addData` call leaves: one more entry in `_data`,
`_index`, `_r3d`, `_mu` and the bin flag raised. -/
def LyaData.stored (s : LyaData) (value : ℚ) (index : ℤ) (r3d mu : ℚ) : LyaData :=
  { s with
    data := s.data ++ [value]
    initialized := s.initialized.set index.toNat true
    index := s.index ++ [index]
    r3d := s.r3d ++ [r3d]
    mu := s.mu ++ [mu] }

/-- Three records at the centers of the separation bins `0, 1, 2` of the bin
`(0, ·, 0)`, each with observed value `1`. -/
def demoRecords : List DataRecord :=
  [⟨1, 1/2, 1/2, 1/2⟩, ⟨1, 1/2, 3/2, 1/2⟩, ⟨1, 1/2, 5/2, 1/2⟩]

/-- The dataset after the three records have been added. -/
def demoFilled : LyaData :=
  ((demoEmpty.stored 1 0 (4/9) 0).stored 1 2 (196/81) 0).stored 1 4 (1444/225) 0

/-- The state an accepted `addCovariance` call leaves: the value written to
the packed slot and the slot flagged as filled. -/
def LyaData.filled (s : LyaData) (slot : ℕ) (value : ℚ) : LyaData :=
  { s with cov := s.cov.set slot value, hasCov := s.hasCov.set slot true }

/-- The demonstration dataset after `finalizeData`. -/
def demoFinal : LyaData := demoFilled.finalizeData

/-- The residual `d[k]` of observation `k` as the objective defines it: observed
minus predicted when `rmin ≤ getRadius(k) ≤ rmax`, zero otherwise. -/
def LyaBaoLikelihood.residual (lik : LyaBaoLikelihood) (s : LyaData) (p : List ℚ) (k : ℕ) : ℚ :=
  if lik.rmin ≤ s.getRadius k ∧ s.getRadius k ≤ lik.rmax then
    s.getData k
      - lik.model.evaluate (s.getRadius k) (s.getCosAngle k) ((s.getRedshift k).getD 0) p
  else 0

/-- What `addData` would store for a record, apart from its value, when every
check except the bin-flag check passes: the flat index and the pair
`(r3d, mu)`.  It depends only on members that no method changes. -/
def LyaData.entryOf (s : LyaData) (r : DataRecord) : Option (ℤ × ℚ × ℚ) :=
  match s.binsOf r with
  | some (llBin, sepBin, zBin) =>
    match s.logLambdaBinning.getBinCenter llBin, s.separationBinning.getBinCenter sepBin,
        s.redshiftBinning.getBinCenter zBin, s.separationBinning.getBinSize sepBin with
    | some llCenter, some sepCenter, some zCenter, some ds =>
      if |r.logLambda - llCenter| < 1e-6 ∧ |r.separation - sepCenter| < 1e-6 ∧
          |r.redshift - zCenter| < 1e-6 then
        some (s.flatIndex llBin sepBin zBin,
          (s.transform r.logLambda r.separation r.redshift ds).1,
          (s.transform r.logLambda r.separation r.redshift ds).2)
      else none
    | _, _, _, _ => none
  | none => none

/-- The entry of a record, with a dummy for records that have none. -/
def LyaData.entry (s : LyaData) (r : DataRecord) : ℤ × ℚ × ℚ := (s.entryOf r).getD (0, 0, 0)

/-- The state after a list of records has been stored one after the other. -/
def LyaData.storedAll (s : LyaData) (records : List DataRecord) : LyaData :=
  records.foldl (fun u r => u.stored r.value (s.entry r).1 (s.entry r).2.1 (s.entry r).2.2) s

/-- Two states of one dataset object: the members that no method changes agree. -/
def LyaData.SameConfig (u s : LyaData) : Prop :=
  u.cmath = s.cmath ∧ u.logLambdaBinning = s.logLambdaBinning ∧
  u.separationBinning = s.separationBinning ∧ u.redshiftBinning = s.redshiftBinning ∧
  u.cosmology = s.cosmology ∧ u.nsep = s.nsep ∧ u.nz = s.nz ∧ u.nBinsTotal = s.nBinsTotal ∧
  u.arcminToRad = s.arcminToRad ∧ u.initialized.length = s.initialized.length

/-- The covariance entry that a list of covariance records supplies for the
observation numbers `i` and `j`: the value of the record for `(i, j)` or
`(j, i)`, and zero when there is none. -/
def suppliedAt (covRecords : List CovRecord) (i j : ℕ) : ℚ :=
  match covRecords.find? (fun r =>
      (r.index1 = (i : ℤ) ∧ r.index2 = (j : ℤ)) ∨ (r.index1 = (j : ℤ) ∧ r.index2 = (i : ℤ))) with
  | some r => r.value
  | none => 0

/-- The covariance matrix that a list of covariance records supplies for `n`
observations. -/
def suppliedCov (n : ℕ) (covRecords : List CovRecord) : Matrix (Fin n) (Fin n) ℚ :=
  fun i j => suppliedAt covRecords i j

/-- The packed slot a covariance record is written to. -/
def CovRecord.slot (r : CovRecord) : ℕ := covSlot r.index1 r.index2

/-- Covariance records of the demonstration dataset: variances `1, 4, 9`. -/
def demoCovRecords : List CovRecord := [⟨0, 0, 1⟩, ⟨1, 1, 4⟩, ⟨2, 2, 9⟩]

/-- The same with the extra entry `C[0][1] = 3`, which makes the matrix
indefinite (`1*4 - 3*3 < 0`). -/
def demoBadCovRecords : List CovRecord := [⟨0, 0, 1⟩, ⟨1, 1, 4⟩, ⟨2, 2, 9⟩, ⟨0, 1, 3⟩]

/-- The demonstration dataset after the records of `demoCovRecords`. -/
def demoCov : LyaData := demoCovRecords.foldl (fun v r => v.filled r.slot r.value) demoFinal

/-- The demonstration dataset after the records of `demoBadCovRecords`. -/
def demoBadCov : LyaData :=
  demoBadCovRecords.foldl (fun v r => v.filled r.slot r.value) demoFinal

/-- The state a completed `finalizeCovariance` call leaves: `_icov` holds what
`dpptri` returned and the flag is set. -/
def LyaData.inverted (s : LyaData) : LyaData :=
  { s with icov := (dpptri s.data.length s.cov).1, covarianceFinalized := true }

/-- The demonstration dataset as `loadData` returns it. -/
def demoLoaded : LyaData := demoCov.inverted

/-- A model whose two correlation functions vanish. -/
def demoModel : LyaBaoModel := ⟨demoLibm, 9/4, fun _ _ _ => 0, fun _ _ _ => 0⟩

/-- Parameter vector with bias `1` and no broadband term: the prediction of
`demoModel` is zero everywhere. -/
def demoParams : List ℚ := [1, 1, 1, 1, 1, 0, 0, 0]

/-- Likelihood whose window ends exactly at the smallest and the largest `r3d`
of the demonstration dataset, with the default error scale. -/
def demoLik : LyaBaoLikelihood :=
  { model := demoModel, rmin := 4/9, rmax := 1444/225, errorScale := 1,
    params :=
      [ ⟨"Alpha", 3.8, true⟩, ⟨"Bias", 0.17, true⟩, ⟨"Beta", 1.0, true⟩,
        ⟨"BAO Ampl", 1, true⟩, ⟨"BAO Scale", 1, true⟩,
        ⟨"BB a1", 0, true⟩, ⟨"BB a2", 0, false⟩, ⟨"BB a3", 0, false⟩ ] }

/-- A renumbering of the observations applied to an observation number taken
from a covariance record; numbers outside `[0, n)` are left alone. -/
def permIndex {n : ℕ} (σ : Equiv.Perm (Fin n)) (i : ℤ) : ℤ :=
  if h : 0 ≤ i ∧ i < (n : ℤ) then ((σ ⟨i.toNat, by omega⟩ : Fin n) : ℕ) else i

/-- The outcome of a call seen through a change `f` of the final state. -/
def Outcome.map {σ : Type} (f : σ → σ) : Outcome σ → Outcome σ
  | .done s => .done (f s)
  | .failed why s => .failed why (f s)

/-- The dataset with its covariance store and its two flags replaced. -/
def LyaData.withStore (s : LyaData) (cov : List ℚ) (hasCov : List Bool) (fd fc : Bool) : LyaData :=
  { s with cov := cov, hasCov := hasCov, dataFinalized := fd, covarianceFinalized := fc }

/-- The coordinate `x` is located by the axis binning `b` at the center of a
bin: `getBinIndex(x)` returns a bin of the axis and `x` differs from
`getBinCenter` of that bin by less than `1e-6`. -/
def AbsBinning.AtBinCenter (b : AbsBinning) (x : ℚ) : Prop :=
  ∃ bin center, b.getBinIndex x = some bin ∧ 0 ≤ bin ∧ bin < b.getNBins ∧
    b.getBinCenter bin = some center ∧ |x - center| < 1e-6

/-- The coordinate `x` is outside the axis binning `b`: `getBinIndex(x)` trips
its range assertion or returns the sentinel `-1`. -/
def AbsBinning.OutOfRange (b : AbsBinning) (x : ℚ) : Prop :=
  b.getBinIndex x = none ∨ b.getBinIndex x = some (-1)

/-- The coordinate `x` falls in a bin of `b` but is `1e-6` or more away from
the center of that bin. -/
def AbsBinning.OffCenter (b : AbsBinning) (x : ℚ) : Prop :=
  ∃ bin center, b.getBinIndex x = some bin ∧ b.getBinCenter bin = some center ∧
    1e-6 ≤ |x - center|

/-- The properties of the mathematical `exp` and `log` that the two-step
binning relies on: `exp` is strictly increasing with `exp 0 = 1`, and `log`
is positive above `1`. -/
def Libm.ExpLogLike (m : Libm) : Prop :=
  StrictMono m.exp ∧ m.exp 0 = 1 ∧ ∀ x, 1 < x → 0 < m.log x

/-- Stand-ins for `exp` and `log` with rational values that share the
properties in `Libm.ExpLogLike`: `exp x = 1 + x`, `log x = x - 1`. -/
def demoExpLog : Libm := ⟨fun x => 1 + x, fun x => x - 1, fun x => x, fun _ => 0, fun _ _ => 1⟩

/-- A freshly constructed dataset whose log-lambda axis has the explicit edges
`0, 1, 3`; the two other axes are those of `demoEmpty`. -/
def demoVariableEmpty : LyaData :=
  LyaData.create demoLibm (.ofVariable ⟨[0, 1, 3]⟩) (demoBinning 3) (demoBinning 2) demoCosmology

/-- The body of `transform` with the weighted separation `swgt` as an argument:
`s.transform ll sep z ds` is `s.transformAt ll z (sep + (ds*ds/12)/sep)`. -/
def LyaData.transformAt (s : LyaData) (ll z swgt : ℚ) : ℚ × ℚ :=
  let ratio := s.cmath.exp ((1/2) * ll)
  let zp1 := z + 1
  let z1 := zp1 / ratio - 1
  let z2 := zp1 * ratio - 1
  let drLos := s.cosmology.getLineOfSightComovingDistance z2
    - s.cosmology.getLineOfSightComovingDistance z1
  let drPerp := s.cosmology.getTransverseComovingScale z * (swgt * s.arcminToRad)
  let rsq := drLos * drLos + drPerp * drPerp
  let r3d := s.cmath.sqrt rsq
  let mu := |drLos| / r3d
  (r3d, mu)

/-- The dataset after a sequence of `addData` calls, accepted or rejected: a
rejected call leaves the state in which its assertion fired. -/
def LyaData.afterCalls (s : LyaData) : List DataRecord → LyaData
  | [] => s
  | r :: rest =>
    match s.addData r.value r.logLambda r.separation r.redshift with
    | .done s1 => LyaData.afterCalls s1 rest
    | .failed _ s1 => LyaData.afterCalls s1 rest

/-- The binning object is one the constructor of its class builds, with at
least one bin (for explicit edges: at least two edges). -/
def AbsBinning.WellFormed : AbsBinning → Prop
  | .ofUniform b => ∃ nBins lowEdge binSize, UniformBinning.create nBins lowEdge binSize = some b
  | .ofVariable b => 2 ≤ b.binEdge.length
  | .ofTwoStep b => ∃ m nBins breakpoint dlog dlin eps,
      TwoStepBinning.create m nBins breakpoint dlog dlin eps = some b

/-- The bookkeeping of the observation list: the four per-observation vectors
have one entry per observation, the stored flat indices are pairwise distinct
and inside the grid, and the flag of a bin is raised exactly when its flat
index is stored. -/
def LyaData.Consistent (s : LyaData) : Prop :=
  s.index.length = s.data.length ∧ s.r3d.length = s.data.length ∧
  s.mu.length = s.data.length ∧ s.index.Nodup ∧
  (∀ i ∈ s.index, 0 ≤ i ∧ i < s.getSize) ∧
  (∀ i : ℤ, 0 ≤ i → i < s.getSize → (s.initialized.getD i.toNat false = true ↔ i ∈ s.index))

/-! ## Binary64 arithmetic and `UniformBinning` with rounded operations

The floor lookup of `UniformBinning` is decided by the last bits of a quotient,
so for the statements about it (C14, C16) the three member functions are given
a second time with every operation on `double` rounded as IEEE 754 binary64
arithmetic rounds it: to the nearest representable number, ties to the one with
an even significand, each operation on its own (no fused multiply-add, no
extended precision).  Overflow to infinity is not modelled: the exponent is
unbounded above.  `std::floor` is exact, and the conversions between `int` and
`double` are exact for every `int`. -/

/-- Nearest integer, ties to the even one. -/
def roundHalfEven (q : ℚ) : ℤ :=
  let f : ℤ := ⌊q⌋
  if q - f < 1/2 then f
  else if 1/2 < q - f then f + 1
  else if f % 2 = 0 then f else f + 1

/-- Exponent of the spacing of the binary64 numbers around `x`: for
`2^e ≤ |x| < 2^(e+1)` the 53-bit significand gives the spacing `2^(e-52)`, and
below `2^-1022` (subnormal numbers) the spacing stays `2^-1074`. -/
def ulpExponent (x : ℚ) : ℤ := max (Int.log 2 |x|) (-1022) - 52

/-- The binary64 result of an operation whose exact result is `x`. -/
def roundDouble (x : ℚ) : ℚ :=
  (roundHalfEven (x / (2 : ℚ) ^ ulpExponent x) : ℚ) * (2 : ℚ) ^ ulpExponent x

/-- The rational `x` is a binary64 number: rounding leaves it as it is. -/
def IsDouble (x : ℚ) : Prop := roundDouble x = x

namespace Binary64

/-- `UniformBinning::getBinIndex` in binary64:
`int bin = std::floor((value - _lowEdge)/_binSize); assert(bin >= 0 && bin < _nBins);`
with the subtraction and the division rounded. -/
def getBinIndex (b : UniformBinning) (value : ℚ) : Option ℤ :=
  let bin : ℤ := ⌊roundDouble (roundDouble (value - b.lowEdge) / b.binSize)⌋
  if bin ≥ 0 ∧ bin < b.nBins then some bin else none

/-- `UniformBinning::getBinLowEdge` in binary64:
`assert(index >= 0 && index <= _nBins); return _lowEdge + index*_binSize;`
with the product and the sum rounded. -/
def getBinLowEdge (b : UniformBinning) (index : ℤ) : Option ℚ :=
  if index ≥ 0 ∧ index ≤ b.nBins then
    some (roundDouble (b.lowEdge + roundDouble ((index : ℚ) * b.binSize)))
  else none

/-- Inherited `AbsBinning::getBinCenter` in binary64:
`getBinLowEdge(index) + 0.5*getBinSize(index)` with the product and the sum
rounded. -/
def getBinCenter (b : UniformBinning) (index : ℤ) : Option ℚ :=
  match getBinLowEdge b index, b.getBinSize index with
  | some lo, some size => some (roundDouble (lo + roundDouble ((1/2) * size)))
  | _, _ => none

end Binary64

/-- Vocabulary: a bound on what the two rounded operations of
`getBinIndex` (the subtraction and the division) can move the value, seen from
the bin edges: `2^-51 * |value - lowEdge| + 2^-1074 * (1 + binSize)`. -/
def Binary64.slack (b : UniformBinning) (value : ℚ) : ℚ :=
  (2 : ℚ) ^ (-51 : ℤ) * |value - b.lowEdge| + (2 : ℚ) ^ (-1074 : ℤ) * (1 + b.binSize)

/-! ## Binnings for the worked instances in binary64 -/

/-- `UniformBinning(14, 0.0002, 0.004)`, the default wavelength axis of `main`
(`minll`, `dll`, `nll`): the members are the binary64 numbers nearest to
`0.0002` and `0.004`. -/
def demoAxis64 : UniformBinning :=
  ⟨14, 7378697629483821 / 36893488147419103232, 1152921504606847 / 288230376151711744⟩

/-- `UniformBinning(5, -1.0, 0.7)`: the binary64 number nearest to `0.7`. -/
def demoSeventh64 : UniformBinning := ⟨5, -1, 3152519739159347 / 4503599627370496⟩

/-- `UniformBinning(3, 2^53, 1.0)`. -/
def demoHuge64 : UniformBinning := ⟨3, 9007199254740992, 1⟩

/-! ## Auxiliary facts -/

theorem getD_set_self {α : Type} (l : List α) (i : ℕ) (a d : α) (h : i < l.length) :
    (l.set i a).getD i d = a := by
  simp [List.getD, List.getElem?_set, h]

theorem getD_set_other {α : Type} (l : List α) (i j : ℕ) (a d : α) (h : i ≠ j) :
    (l.set i a).getD j d = l.getD j d := by
  simp [List.getD, List.getElem?_set, h]

theorem length_vectorResize {α : Type} (l : List α) (n : ℕ) (v : α) :
    (vectorResize l n v).length = n := by
  simp [vectorResize]; omega

theorem vectorResize_nil {α : Type} (n : ℕ) (v : α) :
    vectorResize ([] : List α) n v = List.replicate n v := by
  simp [vectorResize]

theorem tri_succ (c : ℕ) : (c + 1) * (c + 1 + 1) / 2 = c * (c + 1) / 2 + (c + 1) := by
  have h : (c + 1) * (c + 1 + 1) = c * (c + 1) + 2 * (c + 1) := by ring
  rw [h, Nat.add_mul_div_left _ _ (by norm_num : 0 < 2)]

theorem tri_mono {a b : ℕ} (h : a ≤ b) : a * (a + 1) / 2 ≤ b * (b + 1) / 2 := by
  apply Nat.div_le_div_right
  exact Nat.mul_le_mul h (by omega)

theorem tri_step {a b : ℕ} (h : a < b) : a * (a + 1) / 2 + (a + 1) ≤ b * (b + 1) / 2 := by
  rw [← tri_succ]
  exact tri_mono h

theorem packedIndex_lt {row col n : ℕ} (hrc : row ≤ col) (hcn : col < n) :
    packedIndex row col < n * (n + 1) / 2 := by
  have := tri_step hcn
  unfold packedIndex
  omega

theorem packedIndex_inj {row col row' col' : ℕ} (h : row ≤ col) (h' : row' ≤ col')
    (he : packedIndex row col = packedIndex row' col') : row = row' ∧ col = col' := by
  unfold packedIndex at he
  have hc : col = col' := by
    rcases Nat.lt_trichotomy col col' with hlt | heq | hgt
    · have := tri_step hlt; omega
    · exact heq
    · have := tri_step hgt; omega
  subst hc
  exact ⟨by omega, rfl⟩

theorem packedIndex_int {row col : ℤ} (hr : 0 ≤ row) (hc : 0 ≤ col) :
    (row + (col * (col + 1)).tdiv 2).toNat = packedIndex row.toNat col.toNat := by
  obtain ⟨r, rfl⟩ := Int.eq_ofNat_of_zero_le hr
  obtain ⟨c, rfl⟩ := Int.eq_ofNat_of_zero_le hc
  unfold packedIndex
  have h1 : ((c : ℤ) * ((c : ℤ) + 1)).tdiv 2 = ((c * (c + 1) / 2 : ℕ) : ℤ) := by
    rw [Int.tdiv_eq_ediv (by positivity) (by norm_num)]
    push_cast
    rfl
  rw [h1]
  simp only [Int.toNat_ofNat]
  omega

/-- What an accepted `addData` call established and what it stored. -/
theorem addData_done {s s' : LyaData} {value logLambda separation redshift : ℚ}
    (h : s.addData value logLambda separation redshift = .done s') :
    ∃ llBin sepBin zBin llCenter sepCenter zCenter ds,
      s.logLambdaBinning.getBinIndex logLambda = some llBin ∧
      s.separationBinning.getBinIndex separation = some sepBin ∧
      s.redshiftBinning.getBinIndex redshift = some zBin ∧
      s.logLambdaBinning.getBinCenter llBin = some llCenter ∧
      s.separationBinning.getBinCenter sepBin = some sepCenter ∧
      s.redshiftBinning.getBinCenter zBin = some zCenter ∧
      |logLambda - llCenter| < 1e-6 ∧ |separation - sepCenter| < 1e-6 ∧
      |redshift - zCenter| < 1e-6 ∧
      s.initialized.getD (s.flatIndex llBin sepBin zBin).toNat false = false ∧
      s.separationBinning.getBinSize sepBin = some ds ∧
      s' = { s with
        data := s.data ++ [value]
        initialized := s.initialized.set (s.flatIndex llBin sepBin zBin).toNat true
        index := s.index ++ [s.flatIndex llBin sepBin zBin]
        r3d := s.r3d ++ [(s.transform logLambda separation redshift ds).1]
        mu := s.mu ++ [(s.transform logLambda separation redshift ds).2] } := by
  unfold LyaData.addData at h
  split at h
  · rename_i llBin sepBin zBin h1 h2 h3
    simp only at h
    split at h
    · rename_i llC sepC zC h4 h5 h6
      split_ifs at h with c1 c2 c3 c4
      split at h
      · cases h
      · rename_i ds h7
        refine ⟨llBin, sepBin, zBin, llC, sepC, zC, ds, h1, h2, h3, h4, h5, h6, c1, c2, c3, ?_, h7, ?_⟩
        · simpa using c4
        · cases h; rfl
    · cases h
  · cases h

theorem VariableBinning.scan_range (value : ℚ) (rest : List ℚ) (bin : ℤ) :
    VariableBinning.scan value rest bin = -1 ∨
      (bin - 1 ≤ VariableBinning.scan value rest bin ∧
        VariableBinning.scan value rest bin < bin - 1 + rest.length) := by
  induction rest generalizing bin with
  | nil => left; rfl
  | cons e rest ih =>
    unfold VariableBinning.scan
    split_ifs with hv
    · right; simp only [List.length_cons]; push_cast; omega
    · rcases ih (bin + 1) with h | h
      · left; exact h
      · right; simp only [List.length_cons]; push_cast; omega

/-- A bin number that a lookup returned and whose center can be read is a
valid bin number, for each of the three binning classes. -/
theorem AbsBinning.bin_in_range {b : AbsBinning} {value center : ℚ} {i : ℤ}
    (hi : b.getBinIndex value = some i) (hc : b.getBinCenter i = some center) :
    0 ≤ i ∧ i < b.getNBins := by
  cases b with
  | ofUniform u =>
    simp only [AbsBinning.getBinIndex, UniformBinning.getBinIndex] at hi
    split_ifs at hi with h
    cases hi
    exact ⟨h.1, h.2⟩
  | ofVariable v =>
    simp only [AbsBinning.getBinCenter, VariableBinning.getBinCenter,
      VariableBinning.getBinLowEdge, VariableBinning.getBinSize] at hc
    simp only [AbsBinning.getNBins, VariableBinning.getNBins]
    split at hc
    · rename_i h1 h2
      split_ifs at h2 with h
      omega
    · cases hc
  | ofTwoStep t =>
    simp only [AbsBinning.getBinCenter, TwoStepBinning.getBinCenter] at hc
    simp only [AbsBinning.getBinIndex, VariableBinning.getBinIndex,
      TwoStepBinning.toVariable] at hi
    simp only [AbsBinning.getNBins, VariableBinning.getNBins, TwoStepBinning.toVariable]
    split_ifs at hc with h
    split at hi
    · cases hi
    · rename_i e0 rest he
      rw [he]
      simp only [List.length_cons]
      split_ifs at hi with hv
      · cases hi; omega
      · cases hi
        rcases VariableBinning.scan_range value rest 1 with h1 | h1
        · omega
        · push_cast; omega

theorem create_wellSized (m : Libm) (llBins sepBins zBins : AbsBinning) (c : Cosmology) :
    (LyaData.create m llBins sepBins zBins c).WellSized := by
  simp [LyaData.WellSized, LyaData.create, vectorResize]

theorem flatIndex_range {nLL nSep nZ a b c : ℤ} (ha : 0 ≤ a) (ha' : a < nLL) (hb : 0 ≤ b)
    (hb' : b < nSep) (hc : 0 ≤ c) (hc' : c < nZ) :
    0 ≤ (a * nSep + b) * nZ + c ∧ (a * nSep + b) * nZ + c < nLL * nSep * nZ := by
  have h1 : 0 ≤ a * nSep + b := add_nonneg (mul_nonneg ha (by omega)) hb
  have h2 : a * nSep + b + 1 ≤ nLL * nSep := by
    have : (a + 1) * nSep ≤ nLL * nSep := Int.mul_le_mul_of_nonneg_right (by omega) (by omega)
    linarith
  constructor
  · exact add_nonneg (mul_nonneg h1 (by omega)) hc
  · have : (a * nSep + b + 1) * nZ ≤ nLL * nSep * nZ :=
      Int.mul_le_mul_of_nonneg_right h2 (by omega)
    linarith

theorem flatIndex_decode {nSep nZ a b c : ℤ} (ha : 0 ≤ a) (hb : 0 ≤ b)
    (hb' : b < nSep) (hc : 0 ≤ c) (hc' : c < nZ) :
    ((a * nSep + b) * nZ + c).tmod nZ = c ∧
    (((a * nSep + b) * nZ + c).tdiv nZ).tmod nSep = b ∧
    ((a * nSep + b) * nZ + c).tdiv (nZ * nSep) = a := by
  have h1 : 0 ≤ a * nSep + b := add_nonneg (mul_nonneg ha (by omega)) hb
  have h0 : 0 ≤ (a * nSep + b) * nZ + c := add_nonneg (mul_nonneg h1 (by omega)) hc
  have hz : 0 < nZ := by omega
  have hs : 0 < nSep := by omega
  have e1 : ((a * nSep + b) * nZ + c) % nZ = c := by
    rw [add_comm, Int.add_mul_emod_self]
    exact Int.emod_eq_of_lt hc hc'
  have e2 : ((a * nSep + b) * nZ + c) / nZ = a * nSep + b := by
    rw [add_comm, Int.add_mul_ediv_right _ _ (by omega), Int.ediv_eq_zero_of_lt hc hc']
    ring
  have e3 : (a * nSep + b) % nSep = b := by
    rw [add_comm, Int.add_mul_emod_self]
    exact Int.emod_eq_of_lt hb hb'
  have e4 : (a * nSep + b) / nSep = a := by
    rw [add_comm, Int.add_mul_ediv_right _ _ (by omega), Int.ediv_eq_zero_of_lt hb hb']
    ring
  refine ⟨?_, ?_, ?_⟩
  · rw [Int.tmod_eq_emod h0 hz.le, e1]
  · rw [Int.tdiv_eq_ediv h0 hz.le, e2, Int.tmod_eq_emod h1 hs.le, e3]
  · rw [Int.tdiv_eq_ediv h0 (mul_nonneg hz.le hs.le)]
    have hb2 : (b + 1) * nZ ≤ nSep * nZ := Int.mul_le_mul_of_nonneg_right (by omega) hz.le
    have key := (Int.ediv_emod_unique (a := (a * nSep + b) * nZ + c) (b := nZ * nSep)
      (r := b * nZ + c) (q := a) (mul_pos hz hs)).2
      ⟨by ring, add_nonneg (mul_nonneg hb hz.le) hc, by linarith⟩
    exact key.1

/-! ## C7: the flat bin index -/

/-- C7. An accepted `addData` call stores the flat index
`(llBin*nSep + sepBin)*nZ + zBin` of the three bins its coordinates fall in.
For every bin triple inside the three axes this index lies in `[0, getSize())`,
where `getSize() = nLL*nSep*nZ`; `index % nZ`, `(index / nZ) % nSep` and
`index / (nZ*nSep)` (also reduced `% nLL`, as the plotting reader does) give
back the three bins, and two triples with the same index are the same triple. -/
theorem flatIndex_layout (s : LyaData) (hs : s.WellSized) :
    (∀ (value logLambda separation redshift : ℚ) (s' : LyaData),
      s.addData value logLambda separation redshift = .done s' →
      ∃ llBin sepBin zBin,
        s.logLambdaBinning.getBinIndex logLambda = some llBin ∧
        s.separationBinning.getBinIndex separation = some sepBin ∧
        s.redshiftBinning.getBinIndex redshift = some zBin ∧
        s'.index = s.index ++ [(llBin * s.nsep + sepBin) * s.nz + zBin]) ∧
    (s.getSize = s.logLambdaBinning.getNBins * s.separationBinning.getNBins
        * s.redshiftBinning.getNBins) ∧
    (∀ llBin sepBin zBin : ℤ,
      0 ≤ llBin → llBin < s.logLambdaBinning.getNBins →
      0 ≤ sepBin → sepBin < s.separationBinning.getNBins →
      0 ≤ zBin → zBin < s.redshiftBinning.getNBins →
      0 ≤ s.flatIndex llBin sepBin zBin ∧ s.flatIndex llBin sepBin zBin < s.getSize ∧
      s.flatIndex llBin sepBin zBin = (llBin * s.nsep + sepBin) * s.nz + zBin ∧
      (s.flatIndex llBin sepBin zBin).tmod s.nz = zBin ∧
      ((s.flatIndex llBin sepBin zBin).tdiv s.nz).tmod s.nsep = sepBin ∧
      (s.flatIndex llBin sepBin zBin).tdiv (s.nz * s.nsep) = llBin ∧
      ((s.flatIndex llBin sepBin zBin).tdiv (s.nz * s.nsep)).tmod
        s.logLambdaBinning.getNBins = llBin ∧
      ∀ llBin' sepBin' zBin' : ℤ,
        0 ≤ llBin' → llBin' < s.logLambdaBinning.getNBins →
        0 ≤ sepBin' → sepBin' < s.separationBinning.getNBins →
        0 ≤ zBin' → zBin' < s.redshiftBinning.getNBins →
        s.flatIndex llBin' sepBin' zBin' = s.flatIndex llBin sepBin zBin →
        llBin' = llBin ∧ sepBin' = sepBin ∧ zBin' = zBin) := by
  obtain ⟨h1, h2, h3, -⟩ := hs
  refine ⟨?_, ?_, ?_⟩
  · intro value logLambda separation redshift s' h
    obtain ⟨a, b, c, _, _, _, d, ha, hb, hc, -, -, -, -, -, -, -, -, rfl⟩ := addData_done h
    exact ⟨a, b, c, ha, hb, hc, rfl⟩
  · rw [LyaData.getSize, h3, h1, h2]
  · intro a b c ha ha' hb hb' hc hc'
    rw [← h1] at hb'
    rw [← h2] at hc'
    have hr := flatIndex_range ha ha' hb hb' hc hc'
    have hd := flatIndex_decode ha hb hb' hc hc'
    simp only [LyaData.flatIndex, LyaData.getSize, h3]
    refine ⟨hr.1, hr.2, trivial, hd.1, hd.2.1, hd.2.2, ?_, ?_⟩
    · rw [hd.2.2, Int.tmod_eq_emod ha (by omega)]
      exact Int.emod_eq_of_lt ha ha'
    · intro a' b' c' ha2 _ hb2 hb2' hc2 hc2' he
      rw [← h1] at hb2'
      rw [← h2] at hc2'
      have hd' := flatIndex_decode ha2 hb2 hb2' hc2 hc2'
      rw [he] at hd'
      exact ⟨hd'.2.2.symm.trans hd.2.2, hd'.2.1.symm.trans hd.2.1, hd'.1.symm.trans hd.1⟩

/-- C7, worked instance: on the `2 × 3 × 2` grid the triple `(1, 2, 1)` has flat
index `11`, the last of the `12` bins, and `11 % 2 = 1`. -/
theorem flatIndex_layout_witness :
    demoEmpty.WellSized ∧ demoEmpty.getSize = 12 ∧ demoEmpty.flatIndex 1 2 1 = 11 ∧
      (demoEmpty.flatIndex 1 2 1).tmod demoEmpty.nz = 1 := by
  have hw : demoEmpty.WellSized := create_wellSized _ _ _ _ _
  have h := (flatIndex_layout demoEmpty hw).2.2 1 2 1 (by decide) (by decide) (by decide)
    (by decide) (by decide) (by decide)
  exact ⟨hw, by decide, by decide, h.2.2.2.1⟩

/-! ## Facts about `addDataAll`, `finalizeData` and `addCovariance` -/

/-- An accepted `addData` call touches only `_data`, `_initialized`, `_index`,
`_r3d` and `_mu`, appending exactly one entry to each vector. -/
theorem addData_frame {s s' : LyaData} {value logLambda separation redshift : ℚ}
    (h : s.addData value logLambda separation redshift = .done s') :
    s'.cmath = s.cmath ∧ s'.logLambdaBinning = s.logLambdaBinning ∧
    s'.separationBinning = s.separationBinning ∧ s'.redshiftBinning = s.redshiftBinning ∧
    s'.cosmology = s.cosmology ∧ s'.cov = s.cov ∧ s'.icov = s.icov ∧
    s'.icovDelta = s.icovDelta ∧ s'.hasCov = s.hasCov ∧ s'.nsep = s.nsep ∧ s'.nz = s.nz ∧
    s'.nBinsTotal = s.nBinsTotal ∧ s'.arcminToRad = s.arcminToRad ∧
    s'.dataFinalized = s.dataFinalized ∧ s'.covarianceFinalized = s.covarianceFinalized ∧
    s'.data.length = s.data.length + 1 ∧ s'.initialized.length = s.initialized.length := by
  obtain ⟨a, b, c, _, _, _, d, -, -, -, -, -, -, -, -, -, -, -, rfl⟩ := addData_done h
  simp

theorem addDataAll_frame {records : List DataRecord} {s s' : LyaData}
    (h : addDataAll s records = .done s') :
    s'.cmath = s.cmath ∧ s'.logLambdaBinning = s.logLambdaBinning ∧
    s'.separationBinning = s.separationBinning ∧ s'.redshiftBinning = s.redshiftBinning ∧
    s'.cosmology = s.cosmology ∧ s'.cov = s.cov ∧ s'.icov = s.icov ∧
    s'.icovDelta = s.icovDelta ∧ s'.hasCov = s.hasCov ∧ s'.nsep = s.nsep ∧ s'.nz = s.nz ∧
    s'.nBinsTotal = s.nBinsTotal ∧ s'.arcminToRad = s.arcminToRad ∧
    s'.dataFinalized = s.dataFinalized ∧ s'.covarianceFinalized = s.covarianceFinalized ∧
    s'.data.length = s.data.length + records.length ∧
    s'.initialized.length = s.initialized.length := by
  induction records generalizing s with
  | nil => cases h; simp
  | cons r rest ih =>
    unfold addDataAll at h
    cases h1 : s.addData r.value r.logLambda r.separation r.redshift with
    | failed why t => rw [h1] at h; cases h
    | done t =>
      rw [h1] at h
      have f1 := addData_frame h1
      have f2 := ih h
      simp only [Outcome.bind] at f2
      obtain ⟨a1, a2, a3, a4, a5, a6, a7, a8, a9, a10, a11, a12, a13, a14, a15, a16, a17⟩ := f1
      obtain ⟨b1, b2, b3, b4, b5, b6, b7, b8, b9, b10, b11, b12, b13, b14, b15, b16, b17⟩ := f2
      refine ⟨b1.trans a1, b2.trans a2, b3.trans a3, b4.trans a4, b5.trans a5, b6.trans a6,
        b7.trans a7, b8.trans a8, b9.trans a9, b10.trans a10, b11.trans a11, b12.trans a12,
        b13.trans a13, b14.trans a14, b15.trans a15, ?_, b17.trans a17⟩
      rw [b16, a16, List.length_cons]; omega

theorem wellSized_of_frame {s s' : LyaData} (hs : s.WellSized)
    (h1 : s'.logLambdaBinning = s.logLambdaBinning)
    (h2 : s'.separationBinning = s.separationBinning)
    (h3 : s'.redshiftBinning = s.redshiftBinning) (h4 : s'.nsep = s.nsep) (h5 : s'.nz = s.nz)
    (h6 : s'.nBinsTotal = s.nBinsTotal) (h7 : s'.initialized.length = s.initialized.length) :
    s'.WellSized := by
  unfold LyaData.WellSized at *
  rw [h1, h2, h3, h4, h5, h6, h7]
  exact hs

/-- The outcome of `addCovariance` in closed form. -/
theorem addCovariance_eq (s : LyaData) (i j : ℤ) (value : ℚ) :
    s.addCovariance i j value =
      if s.dataFinalized = true ∧ 0 ≤ min i j ∧ max i j < s.getNData ∧ (i ≠ j ∨ 0 < value) ∧
          s.hasCov.getD (covSlot i j) false = false then
        .done { s with
          cov := s.cov.set (covSlot i j) value
          hasCov := s.hasCov.set (covSlot i j) true }
      else .failed .contract s := by
  unfold LyaData.addCovariance covSlot
  by_cases hij : i ≥ j
  · have hmin : min i j = j := min_eq_right hij
    have hmax : max i j = i := max_eq_left hij
    have hv : (i > j ∨ value > 0) ↔ (i ≠ j ∨ 0 < value) := by
      constructor
      · rintro (h | h)
        · left; omega
        · right; exact h
      · rintro (h | h)
        · left; omega
        · right; exact h
    have hb : (j ≥ 0 ∧ i ≥ 0 ∧ i < s.getNData) ↔ (0 ≤ j ∧ i < s.getNData) := by
      constructor
      · rintro ⟨h1, -, h3⟩; exact ⟨h1, h3⟩
      · rintro ⟨h1, h3⟩; exact ⟨h1, by omega, h3⟩
    simp only [hij, if_true, hmin, hmax, hv, hb]
    clear hv hb hmin hmax
    by_cases hr : 0 ≤ j
    · have hi0 : 0 ≤ i := le_trans hr hij
      rw [packedIndex_int hr hi0]
      split_ifs <;> first | rfl | tauto
    · split_ifs <;> first | rfl | tauto
  · have hij' : i ≤ j := by omega
    have hmin : min i j = i := min_eq_left hij'
    have hmax : max i j = j := max_eq_right hij'
    have hv : (j > i ∨ value > 0) ↔ (i ≠ j ∨ 0 < value) := by
      constructor
      · rintro (h | h)
        · left; omega
        · right; exact h
      · rintro (h | h)
        · left; omega
        · right; exact h
    have hb : (i ≥ 0 ∧ j ≥ 0 ∧ j < s.getNData) ↔ (0 ≤ i ∧ j < s.getNData) := by
      constructor
      · rintro ⟨h1, -, h3⟩; exact ⟨h1, h3⟩
      · rintro ⟨h1, h3⟩; exact ⟨h1, by omega, h3⟩
    simp only [hij, if_false, hmin, hmax, hv, hb]
    clear hv hb hmin hmax
    by_cases hr : 0 ≤ i
    · have hj0 : 0 ≤ j := le_trans hr hij'
      rw [packedIndex_int hr hj0]
      split_ifs <;> first | rfl | tauto
    · split_ifs <;> first | rfl | tauto

/-! ## Evaluating `addData` -/

/-- The checks of `addData`, when they all pass, lead to the stored state. -/
theorem addData_accept {s : LyaData} {value logLambda separation redshift : ℚ}
    {llBin sepBin zBin : ℤ} {llCenter sepCenter zCenter ds : ℚ}
    (h1 : s.logLambdaBinning.getBinIndex logLambda = some llBin)
    (h2 : s.separationBinning.getBinIndex separation = some sepBin)
    (h3 : s.redshiftBinning.getBinIndex redshift = some zBin)
    (h4 : s.logLambdaBinning.getBinCenter llBin = some llCenter)
    (h5 : s.separationBinning.getBinCenter sepBin = some sepCenter)
    (h6 : s.redshiftBinning.getBinCenter zBin = some zCenter)
    (t1 : |logLambda - llCenter| < 1e-6) (t2 : |separation - sepCenter| < 1e-6)
    (t3 : |redshift - zCenter| < 1e-6)
    (hi : s.initialized.getD (s.flatIndex llBin sepBin zBin).toNat false = false)
    (h7 : s.separationBinning.getBinSize sepBin = some ds) :
    s.addData value logLambda separation redshift =
      .done (s.stored value (s.flatIndex llBin sepBin zBin)
        (s.transform logLambda separation redshift ds).1
        (s.transform logLambda separation redshift ds).2) := by
  unfold LyaData.addData
  simp only [h1, h2, h3, h4, h5, h6, t1, t2, t3, hi, h7, not_true_eq_false, if_false,
    Bool.false_eq_true]
  rfl

theorem demoBinning_getBinIndex (n k : ℤ) (h0 : 0 ≤ k) (h1 : k < n) :
    (demoBinning n).getBinIndex ((k : ℚ) + 1/2) = some k := by
  have hf : ⌊((k : ℚ) + 1/2 - 0) / 1⌋ = k := by
    rw [Int.floor_eq_iff]
    constructor <;> norm_num
  simp only [demoBinning, AbsBinning.getBinIndex, UniformBinning.getBinIndex, hf]
  rw [if_pos ⟨h0, h1⟩]

theorem demoBinning_getBinCenter (n k : ℤ) (h0 : 0 ≤ k) (h1 : k ≤ n) :
    (demoBinning n).getBinCenter k = some ((k : ℚ) + 1/2) := by
  simp only [demoBinning, AbsBinning.getBinCenter, UniformBinning.getBinCenter,
    UniformBinning.getBinLowEdge, UniformBinning.getBinSize]
  rw [if_pos ⟨h0, h1⟩]
  norm_num

theorem demoBinning_getBinSize (n k : ℤ) : (demoBinning n).getBinSize k = some 1 := rfl

/-- Adding a record at the center of bin `(0, sepBin, 0)` of a dataset that
shares the binning of `demoEmpty`. -/
theorem demo_addData (s : LyaData) (sepBin : ℤ) (value sep : ℚ)
    (hb : s.logLambdaBinning = demoBinning 2 ∧ s.separationBinning = demoBinning 3 ∧
      s.redshiftBinning = demoBinning 2 ∧ s.nsep = 3 ∧ s.nz = 2)
    (h0 : 0 ≤ sepBin) (h1 : sepBin < 3) (hsep : sep = (sepBin : ℚ) + 1/2)
    (hi : s.initialized.getD (2 * sepBin).toNat false = false) :
    s.addData value (1/2) sep (1/2) =
      .done (s.stored value (2 * sepBin) (s.transform (1/2) sep (1/2) 1).1
        (s.transform (1/2) sep (1/2) 1).2) := by
  obtain ⟨b1, b2, b3, b4, b5⟩ := hb
  have hfi : s.flatIndex 0 sepBin 0 = 2 * sepBin := by
    simp only [LyaData.flatIndex, b4, b5]; ring
  have e1 : s.logLambdaBinning.getBinIndex (1/2) = some 0 := by
    rw [b1]; simpa using demoBinning_getBinIndex 2 0 (by norm_num) (by norm_num)
  have e2 : s.separationBinning.getBinIndex sep = some sepBin := by
    rw [b2, hsep]; exact demoBinning_getBinIndex 3 sepBin h0 h1
  have e3 : s.redshiftBinning.getBinIndex (1/2) = some 0 := by
    rw [b3]; simpa using demoBinning_getBinIndex 2 0 (by norm_num) (by norm_num)
  have e4 : s.logLambdaBinning.getBinCenter 0 = some (1/2) := by
    rw [b1]; simpa using demoBinning_getBinCenter 2 0 (by norm_num) (by norm_num)
  have e5 : s.separationBinning.getBinCenter sepBin = some sep := by
    rw [b2, hsep]; exact demoBinning_getBinCenter 3 sepBin h0 (by omega)
  have e6 : s.redshiftBinning.getBinCenter 0 = some (1/2) := by
    rw [b3]; simpa using demoBinning_getBinCenter 2 0 (by norm_num) (by norm_num)
  have e7 : s.separationBinning.getBinSize sepBin = some 1 := by
    rw [b2]; rfl
  have key := @addData_accept s value _ _ _ _ _ _ _ _ _ _ e1 e2 e3 e4 e5 e6 (by norm_num) (by norm_num)
    (by norm_num) (by rw [hfi]; exact hi) e7
  rw [hfi] at key
  exact key

theorem demo_transform (s : LyaData) (sep : ℚ)
    (hb : s.cmath = demoLibm ∧ s.cosmology = demoCosmology ∧ s.arcminToRad = 1) :
    s.transform (1/2) sep (1/2) 1 = ((sep + 1 / 12 / sep) * (sep + 1 / 12 / sep), 0) := by
  obtain ⟨b1, b2, b3⟩ := hb
  simp [LyaData.transform, b1, b2, b3, demoLibm, demoCosmology]

theorem demo_addDataAll : addDataAll demoEmpty demoRecords = .done demoFilled := by
  have hb0 : demoEmpty.logLambdaBinning = demoBinning 2 ∧
      demoEmpty.separationBinning = demoBinning 3 ∧ demoEmpty.redshiftBinning = demoBinning 2 ∧
      demoEmpty.nsep = 3 ∧ demoEmpty.nz = 2 := ⟨rfl, rfl, rfl, rfl, rfl⟩
  have ht0 : demoEmpty.cmath = demoLibm ∧ demoEmpty.cosmology = demoCosmology ∧
      demoEmpty.arcminToRad = 1 := by
    refine ⟨rfl, rfl, ?_⟩
    simp [demoEmpty, LyaData.create, demoLibm]
    norm_num
  have a1 := demo_addData demoEmpty 0 1 (1/2) hb0 (by norm_num) (by norm_num) (by norm_num)
    (by decide)
  rw [demo_transform _ _ ht0] at a1
  have a2 := demo_addData (demoEmpty.stored 1 0 (4/9) 0) 1 1 (3/2) hb0 (by norm_num)
    (by norm_num) (by norm_num) (by decide)
  rw [demo_transform (demoEmpty.stored 1 0 (4/9) 0) _ ht0] at a2
  have a3 := demo_addData ((demoEmpty.stored 1 0 (4/9) 0).stored 1 2 (196/81) 0) 2 1 (5/2) hb0
    (by norm_num) (by norm_num) (by norm_num) (by decide)
  rw [demo_transform ((demoEmpty.stored 1 0 (4/9) 0).stored 1 2 (196/81) 0) _ ht0] at a3
  norm_num at a1 a2 a3
  simp only [addDataAll, demoRecords, Outcome.bind, a1, a2, a3, demoFilled]

/-! ## Packed slots of the covariance store -/

theorem covSlot_of_le {row col : ℤ} (h : row ≤ col) :
    covSlot row col = packedIndex row.toNat col.toNat := by
  unfold covSlot
  rw [min_eq_left h, max_eq_right h]

theorem covSlot_comm (i j : ℤ) : covSlot i j = covSlot j i := by
  unfold covSlot
  rw [min_comm, max_comm]

theorem covSlot_cast {row col : ℤ} (h0 : 0 ≤ row) (h : row ≤ col) :
    ((covSlot row col : ℕ) : ℤ) = row + (col * (col + 1)).tdiv 2 := by
  have hc : 0 ≤ col := le_trans h0 h
  rw [covSlot_of_le h, ← packedIndex_int h0 hc]
  have h2 : 0 ≤ (col * (col + 1)).tdiv 2 := by
    rw [Int.tdiv_eq_ediv (mul_nonneg hc (by omega)) (by norm_num)]
    exact Int.ediv_nonneg (mul_nonneg hc (by omega)) (by norm_num)
  exact Int.toNat_of_nonneg (add_nonneg h0 h2)

theorem covSlot_lt {row col : ℤ} {n : ℕ} (h0 : 0 ≤ row) (h : row ≤ col) (hn : col < n) :
    covSlot row col < n * (n + 1) / 2 := by
  rw [covSlot_of_le h]
  exact packedIndex_lt (by omega) (by omega)

theorem covSlot_inj {row col row' col' : ℤ} (h0 : 0 ≤ row) (h : row ≤ col) (h0' : 0 ≤ row')
    (h' : row' ≤ col') (he : covSlot row' col' = covSlot row col) : row' = row ∧ col' = col := by
  rw [covSlot_of_le h, covSlot_of_le h'] at he
  have := packedIndex_inj (by omega : row'.toNat ≤ col'.toNat) (by omega : row.toNat ≤ col.toNat) he
  omega

/-! ## C9 and C10: filling covariance slots -/

theorem addCovariance_symm (s : LyaData) (i j : ℤ) (value : ℚ) :
    s.addCovariance j i value = s.addCovariance i j value := by
  rw [addCovariance_eq, addCovariance_eq, covSlot_comm j i, min_comm j i, max_comm j i]
  have : (j ≠ i ∨ 0 < value) ↔ (i ≠ j ∨ 0 < value) := by
    constructor
    · rintro (h | h)
      · left; exact fun e => h e.symm
      · right; exact h
    · rintro (h | h)
      · left; exact fun e => h e.symm
      · right; exact h
  simp only [this]

/-- What an accepted `addCovariance` call established and what it stored. -/
theorem addCovariance_done {s t : LyaData} {i j : ℤ} {value : ℚ}
    (h : s.addCovariance i j value = .done t) :
    (s.dataFinalized = true ∧ 0 ≤ min i j ∧ max i j < s.getNData ∧ (i ≠ j ∨ 0 < value) ∧
      s.hasCov.getD (covSlot i j) false = false) ∧
    t = { s with
      cov := s.cov.set (covSlot i j) value
      hasCov := s.hasCov.set (covSlot i j) true } := by
  rw [addCovariance_eq] at h
  split_ifs at h with hc
  exact ⟨hc, by cases h; rfl⟩

/-- A filled slot stays filled, with its value, through later accepted calls. -/
theorem addCovarianceAll_keeps {mids : List CovRecord} {s t : LyaData} {slot : ℕ}
    (h : addCovarianceAll s mids = .done t) (hs : s.hasCov.getD slot false = true) :
    t.hasCov.getD slot false = true ∧ t.cov.getD slot 0 = s.cov.getD slot 0 := by
  induction mids generalizing s with
  | nil => cases h; exact ⟨hs, rfl⟩
  | cons r rest ih =>
    unfold addCovarianceAll at h
    cases h1 : s.addCovariance r.index1 r.index2 r.value with
    | failed why u => rw [h1] at h; cases h
    | done u =>
      rw [h1] at h
      simp only [Outcome.bind] at h
      obtain ⟨hc, rfl⟩ := addCovariance_done h1
      have hne : covSlot r.index1 r.index2 ≠ slot := by
        intro e
        rw [e, hs] at hc
        exact Bool.noConfusion hc.2.2.2.2
      have := ih h (by
        show (s.hasCov.set (covSlot r.index1 r.index2) true).getD slot false = true
        rw [getD_set_other _ _ _ _ _ hne]; exact hs)
      refine ⟨this.1, ?_⟩
      rw [this.2]
      exact getD_set_other _ _ _ _ _ hne

theorem covSlot_eq_iff {i j k l : ℤ} (hi : 0 ≤ i) (hj : 0 ≤ j) (hk : 0 ≤ k) (hl : 0 ≤ l) :
    covSlot k l = covSlot i j ↔ (k = i ∧ l = j) ∨ (k = j ∧ l = i) := by
  constructor
  · intro he
    have := @covSlot_inj (min i j) (max i j) (min k l) (max k l)
      (le_min hi hj) min_le_max (le_min hk hl) min_le_max
      (by
        rw [covSlot_of_le min_le_max, covSlot_of_le min_le_max]
        exact he)
    rcases le_total i j with hij | hij <;> rcases le_total k l with hkl | hkl
    · rw [min_eq_left hij, max_eq_right hij, min_eq_left hkl, max_eq_right hkl] at this
      left; exact this
    · rw [min_eq_left hij, max_eq_right hij, min_eq_right hkl, max_eq_left hkl] at this
      right; exact ⟨this.2, this.1⟩
    · rw [min_eq_right hij, max_eq_left hij, min_eq_left hkl, max_eq_right hkl] at this
      right; exact this
    · rw [min_eq_right hij, max_eq_left hij, min_eq_right hkl, max_eq_left hkl] at this
      left; exact ⟨this.2, this.1⟩
  · rintro (⟨rfl, rfl⟩ | ⟨rfl, rfl⟩)
    · rfl
    · exact covSlot_comm _ _

theorem covSlot_lt_of_range {i j : ℤ} {n : ℕ} (hi : 0 ≤ i) (_hj : 0 ≤ j) (hin : i < n)
    (hjn : j < n) : covSlot i j < n * (n + 1) / 2 := by
  unfold covSlot
  apply packedIndex_lt
  · have : min i j ≤ max i j := min_le_max
    omega
  · have : max i j < n := max_lt hin hjn
    omega

/-- C9. On a dataset whose data are finalized and whose covariance store has
the size `finalizeData` gave it: `addCovariance(i,j,v)` and
`addCovariance(j,i,v)` are the same operation on the same packed slot; once
`addCovariance(i,j,v)` has succeeded, every later `addCovariance` for `(i,j)` or
`(j,i)`, after any number of other accepted calls, fails its assertion with the
state untouched and the stored value still `v`; and a call for any other
in-range pair whose slot was unfilled still succeeds. -/
theorem addCovariance_fills_once (s s1 : LyaData) (i j : ℤ) (v : ℚ) (hsz : s.CovSized)
    (hi : 0 ≤ i ∧ i < s.getNData) (hj : 0 ≤ j ∧ j < s.getNData)
    (h1 : s.addCovariance i j v = .done s1) :
    (s.addCovariance j i v = .done s1 ∧ covSlot j i = covSlot i j ∧
      s1.cov = s.cov.set (covSlot i j) v ∧ s1.hasCov = s.hasCov.set (covSlot i j) true) ∧
    (∀ (mids : List CovRecord) (s2 : LyaData) (w : ℚ), addCovarianceAll s1 mids = .done s2 →
      s2.addCovariance i j w = .failed .contract s2 ∧
      s2.addCovariance j i w = .failed .contract s2 ∧
      s2.cov.getD (covSlot i j) 0 = v) ∧
    (∀ (k l : ℤ) (w : ℚ), 0 ≤ k → k < s.getNData → 0 ≤ l → l < s.getNData →
      ¬ ((k = i ∧ l = j) ∨ (k = j ∧ l = i)) → (k ≠ l ∨ 0 < w) →
      s.hasCov.getD (covSlot k l) false = false →
      ∃ t, s1.addCovariance k l w = .done t ∧ t.cov.getD (covSlot k l) 0 = w ∧
        t.cov.getD (covSlot i j) 0 = v) := by
  obtain ⟨hc, rfl⟩ := addCovariance_done h1
  have hlt : covSlot i j < s.data.length * (s.data.length + 1) / 2 :=
    covSlot_lt_of_range hi.1 hj.1 hi.2 hj.2
  have hfilled : (s.hasCov.set (covSlot i j) true).getD (covSlot i j) false = true :=
    getD_set_self _ _ _ _ (by rw [hsz.2]; exact hlt)
  have hval : (s.cov.set (covSlot i j) v).getD (covSlot i j) 0 = v :=
    getD_set_self _ _ _ _ (by rw [hsz.1]; exact hlt)
  refine ⟨⟨?_, covSlot_comm j i, rfl, rfl⟩, ?_, ?_⟩
  · rw [addCovariance_symm]; exact h1
  · intro mids s2 w hm
    have hk := addCovarianceAll_keeps hm hfilled
    have hrej : s2.addCovariance i j w = .failed .contract s2 := by
      rw [addCovariance_eq, if_neg]
      intro hcond
      rw [hk.1] at hcond
      exact Bool.noConfusion hcond.2.2.2.2
    refine ⟨hrej, ?_, ?_⟩
    · rw [addCovariance_symm]; exact hrej
    · rw [hk.2]; exact hval
  · intro k l w hk0 hkn hl0 hln hne hw hun
    have hslot : covSlot i j ≠ covSlot k l := by
      intro e
      exact hne ((covSlot_eq_iff hi.1 hj.1 hk0 hl0).1 e.symm)
    have hlt2 : covSlot k l < s.data.length * (s.data.length + 1) / 2 :=
      covSlot_lt_of_range hk0 hl0 hkn hln
    have hun' : (s.hasCov.set (covSlot i j) true).getD (covSlot k l) false = false := by
      rw [getD_set_other _ _ _ _ _ hslot]; exact hun
    have hacc := addCovariance_eq
      { s with
        cov := s.cov.set (covSlot i j) v
        hasCov := s.hasCov.set (covSlot i j) true } k l w
    rw [if_pos ⟨hc.1, le_min hk0 hl0, max_lt hkn hln, hw, hun'⟩] at hacc
    refine ⟨_, hacc, ?_, ?_⟩
    · exact getD_set_self _ _ _ _ (by rw [List.length_set, hsz.1]; exact hlt2)
    · show ((s.cov.set (covSlot i j) v).set (covSlot k l) w).getD (covSlot i j) 0 = v
      rw [getD_set_other _ _ _ _ _ hslot.symm]; exact hval

theorem demoFinal_covSized : demoFinal.CovSized := ⟨by decide, by decide⟩

theorem demoFinal_getNData : demoFinal.getNData = 3 := by decide

/-- C9, worked instance: on the three-observation dataset `addCovariance(0,1,3)`
fills slot `1`; `addCovariance(1,0,5)` is then rejected and the slot still
holds `3`, while `addCovariance(1,2,-2)` is still accepted. -/
theorem addCovariance_fills_once_witness :
    demoFinal.addCovariance 0 1 3 = .done (demoFinal.filled 1 3) ∧
    (demoFinal.filled 1 3).addCovariance 1 0 5 = .failed .contract (demoFinal.filled 1 3) ∧
    (demoFinal.filled 1 3).cov.getD (covSlot 0 1) 0 = 3 ∧
    ∃ t, (demoFinal.filled 1 3).addCovariance 1 2 (-2) = .done t ∧
      t.cov.getD (covSlot 1 2) 0 = -2 := by
  have h01 : demoFinal.addCovariance 0 1 3 = .done (demoFinal.filled 1 3) := by
    rw [addCovariance_eq, if_pos]
    · rfl
    · exact ⟨rfl, by decide, by decide, Or.inl (by decide), by decide⟩
  have h := addCovariance_fills_once demoFinal (demoFinal.filled 1 3) 0 1 3 demoFinal_covSized
    (by decide) (by decide) h01
  obtain ⟨-, hrej, hother⟩ := h
  have r := hrej [] (demoFinal.filled 1 3) 5 rfl
  obtain ⟨t, ht, htv, -⟩ := hother 1 2 (-2) (by decide) (by decide) (by decide) (by decide)
    (by decide) (Or.inl (by decide)) (by decide)
  exact ⟨h01, r.2.1, r.2.2, t, ht, htv⟩

/-- C10. On a dataset whose data are finalized and whose covariance store has
the size `finalizeData` gave it, for an in-range observation number `i`:
`addCovariance(i,i,v)` with `v ≤ 0` fails its assertion with the state
untouched; with `v > 0` and the slot unfilled it is accepted and stores `v`;
and `addCovariance(i,j,v)` with `j ≠ i` in range and the slot unfilled is
accepted and stores `v` whatever the sign of `v`. -/
theorem addCovariance_diagonal_positive (s : LyaData) (i : ℤ) (hf : s.dataFinalized = true)
    (hsz : s.CovSized) (hi : 0 ≤ i ∧ i < s.getNData) :
    (∀ v : ℚ, v ≤ 0 → s.addCovariance i i v = .failed .contract s) ∧
    (∀ v : ℚ, 0 < v → s.hasCov.getD (covSlot i i) false = false →
      s.addCovariance i i v = .done (s.filled (covSlot i i) v) ∧
      (s.filled (covSlot i i) v).cov.getD (covSlot i i) 0 = v) ∧
    (∀ (j : ℤ) (v : ℚ), 0 ≤ j → j < s.getNData → i ≠ j →
      s.hasCov.getD (covSlot i j) false = false →
      s.addCovariance i j v = .done (s.filled (covSlot i j) v) ∧
      (s.filled (covSlot i j) v).cov.getD (covSlot i j) 0 = v) := by
  refine ⟨?_, ?_, ?_⟩
  · intro v hv
    rw [addCovariance_eq, if_neg]
    rintro ⟨-, -, -, h | h, -⟩
    · exact h rfl
    · exact absurd h (not_lt.mpr hv)
  · intro v hv hun
    constructor
    · rw [addCovariance_eq, if_pos ⟨hf, le_min hi.1 hi.1, max_lt hi.2 hi.2, Or.inr hv, hun⟩]
      rfl
    · exact getD_set_self _ _ _ _ (by
        rw [hsz.1]; exact covSlot_lt_of_range hi.1 hi.1 hi.2 hi.2)
  · intro j v hj0 hjn hne hun
    constructor
    · rw [addCovariance_eq, if_pos ⟨hf, le_min hi.1 hj0, max_lt hi.2 hjn, Or.inl hne, hun⟩]
      rfl
    · exact getD_set_self _ _ _ _ (by
        rw [hsz.1]; exact covSlot_lt_of_range hi.1 hj0 hi.2 hjn)

/-- C10, worked instance: on the three-observation dataset the diagonal entry
`(1,1)` is rejected with value `0` and with value `-4`, accepted with value `4`,
and the off-diagonal entry `(1,2)` is accepted with value `-2`. -/
theorem addCovariance_diagonal_positive_witness :
    demoFinal.addCovariance 1 1 0 = .failed .contract demoFinal ∧
    demoFinal.addCovariance 1 1 (-4) = .failed .contract demoFinal ∧
    demoFinal.addCovariance 1 1 4 = .done (demoFinal.filled 2 4) ∧
    demoFinal.addCovariance 1 2 (-2) = .done (demoFinal.filled 4 (-2)) := by
  have h := addCovariance_diagonal_positive demoFinal 1 rfl demoFinal_covSized
    (by decide)
  exact ⟨h.1 0 le_rfl, h.1 (-4) (by norm_num), (h.2.1 4 (by norm_num) (by decide)).1,
    (h.2.2 2 (-2) (by decide) (by decide) (by decide) (by decide)).1⟩

/-! ## C6: a bin is filled at most once -/

/-- A raised bin flag stays raised through later accepted `addData` calls. -/
theorem addDataAll_keeps_flag {mids : List DataRecord} {s t : LyaData} {k : ℕ}
    (h : addDataAll s mids = .done t) (hk : s.initialized.getD k false = true) :
    t.initialized.getD k false = true := by
  induction mids generalizing s with
  | nil => cases h; exact hk
  | cons r rest ih =>
    unfold addDataAll at h
    cases h1 : s.addData r.value r.logLambda r.separation r.redshift with
    | failed why u => rw [h1] at h; cases h
    | done u =>
      rw [h1] at h
      simp only [Outcome.bind] at h
      obtain ⟨a, b, c, _, _, _, d, -, -, -, -, -, -, -, -, -, hi, -, rfl⟩ := addData_done h1
      apply ih h
      have hne : (s.flatIndex a b c).toNat ≠ k := by
        intro e
        rw [e, hk] at hi
        exact Bool.noConfusion hi
      show (s.initialized.set (s.flatIndex a b c).toNat true).getD k false = true
      rw [getD_set_other _ _ _ _ _ hne]
      exact hk

/-- C6. After an `addData` call has been accepted, and after any number of
further accepted calls, an `addData` call whose three coordinates fall in the
same `(ll, sep, z)` bin as the accepted one fails an assertion, and the dataset
is at that moment exactly as it was before the call: the number of
observations and everything stored are unchanged. -/
theorem addData_same_bin_rejected (s s1 s2 : LyaData) (a b : DataRecord)
    (mids : List DataRecord) (hs : s.WellSized)
    (h1 : s.addData a.value a.logLambda a.separation a.redshift = .done s1)
    (hm : addDataAll s1 mids = .done s2)
    (hsame : s.binsOf b = s.binsOf a) :
    s2.addData b.value b.logLambda b.separation b.redshift = .failed .contract s2 := by
  obtain ⟨la, sa, za, lc, sc, zc, ds, e1, e2, e3, e4, e5, e6, -, -, -, -, -, hs1⟩ :=
    addData_done h1
  -- the three bins are valid, so the flag of the flat index was really raised
  have r1 := AbsBinning.bin_in_range e1 e4
  have r2 := AbsBinning.bin_in_range e2 e5
  have r3 := AbsBinning.bin_in_range e3 e6
  obtain ⟨w1, w2, w3, w4⟩ := hs
  rw [← w1] at r2
  rw [← w2] at r3
  have hr := flatIndex_range r1.1 r1.2 r2.1 r2.2 r3.1 r3.2
  have hflag1 : s1.initialized.getD (s.flatIndex la sa za).toNat false = true := by
    rw [hs1]
    apply getD_set_self
    rw [w4, w3]
    have := hr.1
    have := hr.2
    unfold LyaData.flatIndex
    omega
  have hflag2 := addDataAll_keeps_flag hm hflag1
  -- the binnings and the two strides are those of `s`
  have f1 := addData_frame h1
  have f2 := addDataAll_frame hm
  have b1 : s2.logLambdaBinning = s.logLambdaBinning := f2.2.1.trans f1.2.1
  have b2 : s2.separationBinning = s.separationBinning := f2.2.2.1.trans f1.2.2.1
  have b3 : s2.redshiftBinning = s.redshiftBinning := f2.2.2.2.1.trans f1.2.2.2.1
  have b4 : s2.nsep = s.nsep := f2.2.2.2.2.2.2.2.2.2.1.trans f1.2.2.2.2.2.2.2.2.2.1
  have b5 : s2.nz = s.nz := f2.2.2.2.2.2.2.2.2.2.2.1.trans f1.2.2.2.2.2.2.2.2.2.2.1
  have hfi : s2.flatIndex la sa za = s.flatIndex la sa za := by
    simp only [LyaData.flatIndex, b4, b5]
  -- the second record falls in the same three bins
  have hb : s.binsOf b = some (la, sa, za) := by
    rw [hsame]
    simp only [LyaData.binsOf, e1, e2, e3]
  have g : s.logLambdaBinning.getBinIndex b.logLambda = some la ∧
      s.separationBinning.getBinIndex b.separation = some sa ∧
      s.redshiftBinning.getBinIndex b.redshift = some za := by
    unfold LyaData.binsOf at hb
    split at hb
    · rename_i x y z hx hy hz
      cases hb
      exact ⟨hx, hy, hz⟩
    · cases hb
  unfold LyaData.addData
  rw [b1, b2, b3, g.1, g.2.1, g.2.2]
  simp only [hfi]
  split
  · split_ifs <;> rfl
  · rfl

/-- C6, worked instance: after the first demonstration record has been
accepted, and after the two others as well, a record with value `7` at
`(0.5, 0.5000001, 0.5)`, which falls in the bin of the first one, is rejected
and the three stored observations are untouched. -/
theorem addData_same_bin_rejected_witness :
    demoEmpty.addData 1 (1/2) (1/2) (1/2) = .done (demoEmpty.stored 1 0 (4/9) 0) ∧
    addDataAll (demoEmpty.stored 1 0 (4/9) 0) demoRecords.tail = .done demoFilled ∧
    demoFilled.addData 7 (1/2) (5000001/10000000) (1/2) = .failed .contract demoFilled ∧
    demoFilled.data = [1, 1, 1] := by
  have h1 : demoEmpty.addData 1 (1/2) (1/2) (1/2) = .done (demoEmpty.stored 1 0 (4/9) 0) := by
    have h := demo_addDataAll
    simp only [addDataAll, demoRecords, Outcome.bind] at h
    cases h2 : demoEmpty.addData 1 (1/2) (1/2) (1/2) with
    | failed why u => rw [h2] at h; cases h
    | done u =>
      have ht : demoEmpty.transform (1/2) (1/2) (1/2) 1 = (4/9, 0) := by
        rw [demo_transform demoEmpty _ ⟨rfl, rfl, by
          simp [demoEmpty, LyaData.create, demoLibm]; norm_num⟩]
        norm_num
      have h3 := demo_addData demoEmpty 0 1 (1/2) ⟨rfl, rfl, rfl, rfl, rfl⟩ (by norm_num)
        (by norm_num) (by norm_num) (by decide)
      rw [ht, h2] at h3
      exact h3
  have hm : addDataAll (demoEmpty.stored 1 0 (4/9) 0) demoRecords.tail = .done demoFilled := by
    have h := demo_addDataAll
    simp only [demoRecords, addDataAll, h1, Outcome.bind] at h
    simpa only [demoRecords, List.tail, addDataAll] using h
  have hsame : demoEmpty.binsOf ⟨7, 1/2, 5000001/10000000, 1/2⟩
      = demoEmpty.binsOf ⟨1, 1/2, 1/2, 1/2⟩ := by
    have e0 := demoBinning_getBinIndex 2 0 (by norm_num) (by norm_num)
    have e1 := demoBinning_getBinIndex 3 0 (by norm_num) (by norm_num)
    have e2 : (demoBinning 3).getBinIndex (5000001/10000000) = some 0 := by
      have hf : ⌊((5000001/10000000 : ℚ) - 0) / 1⌋ = 0 := by norm_num
      simp only [demoBinning, AbsBinning.getBinIndex, UniformBinning.getBinIndex, hf]
      rfl
    norm_num at e0 e1
    simp only [LyaData.binsOf, demoEmpty, LyaData.create, e0, e1, e2]
  exact ⟨h1, hm, addData_same_bin_rejected demoEmpty _ demoFilled ⟨1, 1/2, 1/2, 1/2⟩
    ⟨7, 1/2, 5000001/10000000, 1/2⟩ demoRecords.tail (create_wellSized _ _ _ _ _) h1 hm hsame,
    rfl⟩

/-! ## The chi-square as a quadratic form -/

theorem sum_map_range (f : ℕ → ℚ) (n : ℕ) :
    ((List.range n).map f).sum = ∑ i : Fin n, f i := by
  induction n with
  | zero => simp
  | succ n ih => rw [List.sum_range_succ, ih, Fin.sum_univ_castSucc]; simp

theorem foldl_add_range (g : ℕ → ℚ) (n : ℕ) :
    (List.range n).foldl (fun acc k => acc + g k) 0 = ∑ i : Fin n, g i := by
  rw [← sum_map_range]
  induction n with
  | zero => simp
  | succ n ih => rw [List.range_succ, List.foldl_append, ih, List.map_append, List.sum_append]; simp

theorem dspmv_getD (n : ℕ) (alpha : ℚ) (ap x : List ℚ) (beta : ℚ) (y : List ℚ) (i : ℕ)
    (hi : i < n) :
    (dspmv n alpha ap x beta y).getD i 0 =
      alpha * (∑ j : Fin n, symAt ap i j * x.getD j 0) + beta * y.getD i 0 := by
  unfold dspmv
  rw [List.getD_eq_getElem _ _ (by simp; omega)]
  rw [List.getElem_append_left (by simpa using hi)]
  simp [sum_map_range]

/-- The value `calculateChiSquare` returns is the quadratic form of the
symmetric matrix packed in `_icov`, and the call changes only `_icovDelta`. -/
theorem calculateChiSquare_eq (s : LyaData) (delta : List ℚ) :
    (s.calculateChiSquare delta).1 =
      Matrix.dotProduct (fun k : Fin s.data.length => delta.getD k 0)
        ((unpackU s.data.length s.icov).mulVec (fun k : Fin s.data.length => delta.getD k 0)) ∧
    (s.calculateChiSquare delta).2 =
      { s with icovDelta := dspmv s.data.length 1 s.icov delta 0 (List.replicate delta.length 0) } := by
  constructor
  · simp only [LyaData.calculateChiSquare, LyaData.getNData, Int.toNat_ofNat]
    rw [foldl_add_range]
    simp only [Matrix.dotProduct, Matrix.mulVec, unpackU]
    apply Finset.sum_congr rfl
    intro k _
    rw [dspmv_getD _ _ _ _ _ _ _ k.2]
    simp
  · simp only [LyaData.calculateChiSquare, LyaData.getNData, Int.toNat_ofNat]

/-- The loop of `operator()`: when `getRedshift` returns for every observation
inside the window, the residual vector is filled as `residual` says. -/
theorem fillDelta_eq (lik : LyaBaoLikelihood) (s : LyaData) (p : List ℚ) (ks : List ℕ)
    (delta : List ℚ) (hnd : ks.Nodup)
    (hz : ∀ k ∈ ks, lik.rmin ≤ s.getRadius k ∧ s.getRadius k ≤ lik.rmax →
      (s.getRedshift k).isSome) :
    ∃ delta', lik.fillDelta s p ks delta = some delta' ∧ delta'.length = delta.length ∧
      ∀ k, k < delta.length →
        delta'.getD k 0 = if k ∈ ks ∧ lik.rmin ≤ s.getRadius k ∧ s.getRadius k ≤ lik.rmax
          then lik.residual s p k else delta.getD k 0 := by
  induction ks generalizing delta with
  | nil => exact ⟨delta, rfl, rfl, by simp⟩
  | cons k rest ih =>
    have hnd' : rest.Nodup := (List.nodup_cons.1 hnd).2
    have hk : k ∉ rest := (List.nodup_cons.1 hnd).1
    have hz' : ∀ k ∈ rest, lik.rmin ≤ s.getRadius k ∧ s.getRadius k ≤ lik.rmax →
        (s.getRedshift k).isSome := fun j hj => hz j (List.mem_cons_of_mem _ hj)
    unfold LyaBaoLikelihood.fillDelta
    by_cases hw : s.getRadius k < lik.rmin ∨ s.getRadius k > lik.rmax
    · simp only [hw, if_true]
      obtain ⟨d', h1, h2, h3⟩ := ih delta hnd' hz'
      refine ⟨d', h1, h2, ?_⟩
      intro j hj
      rw [h3 j hj]
      have hout : ¬ (lik.rmin ≤ s.getRadius k ∧ s.getRadius k ≤ lik.rmax) := by
        rintro ⟨a, b⟩
        rcases hw with hw | hw
        · exact absurd a (not_le.mpr hw)
        · exact absurd b (not_le.mpr hw)
      by_cases hjk : j = k
      · subst hjk
        simp [hk, hout]
      · simp [hjk]
    · simp only [hw, if_false]
      have hin : lik.rmin ≤ s.getRadius k ∧ s.getRadius k ≤ lik.rmax := by
        constructor
        · exact not_lt.mp (fun h => hw (Or.inl h))
        · exact not_lt.mp (fun h => hw (Or.inr h))
      obtain ⟨z, hzk⟩ := Option.isSome_iff_exists.1 (hz k (List.mem_cons_self _ _) hin)
      simp only [hzk]
      obtain ⟨d', h1, h2, h3⟩ := ih (delta.set k (s.getData k
        - lik.model.evaluate (s.getRadius k) (s.getCosAngle k) z p)) hnd' hz'
      refine ⟨d', h1, by rw [h2, List.length_set], ?_⟩
      intro j hj
      rw [h3 j (by rw [List.length_set]; exact hj)]
      by_cases hjk : j = k
      · subst hjk
        rw [getD_set_self _ _ _ _ hj]
        simp [hk, hin, LyaBaoLikelihood.residual, hzk]
      · rw [getD_set_other _ _ _ _ _ (Ne.symm hjk)]
        simp [hjk]

/-- The value of `operator()` in closed form. -/
theorem operatorCall_eq (lik : LyaBaoLikelihood) (s : LyaData) (p : List ℚ)
    (hz : ∀ k < s.data.length, lik.rmin ≤ s.getRadius k ∧ s.getRadius k ≤ lik.rmax →
      (s.getRedshift k).isSome) :
    ∃ delta, delta.length = s.data.length ∧
      (∀ k < s.data.length, delta.getD k 0 = lik.residual s p k) ∧
      lik.operatorCall s p = some
        ((1/2) * Matrix.dotProduct (fun k : Fin s.data.length => lik.residual s p k)
            ((unpackU s.data.length s.icov).mulVec
              (fun k : Fin s.data.length => lik.residual s p k)) / lik.errorScale,
          { s with icovDelta :=
              dspmv s.data.length 1 s.icov delta 0 (List.replicate s.data.length 0) }) := by
  obtain ⟨d', h1, h2, h3⟩ := fillDelta_eq lik s p (List.range s.data.length)
    (List.replicate s.data.length 0) (List.nodup_range _)
    (fun k hk => hz k (List.mem_range.1 hk))
  rw [List.length_replicate] at h2 h3
  have hd : ∀ k < s.data.length, d'.getD k 0 = lik.residual s p k := by
    intro k hk
    rw [h3 k hk]
    by_cases hw : lik.rmin ≤ s.getRadius k ∧ s.getRadius k ≤ lik.rmax
    · simp [hk, hw]
    · simp [hw, LyaBaoLikelihood.residual, List.getD]
  refine ⟨d', h2, hd, ?_⟩
  have hfun : (fun k : Fin s.data.length => d'.getD k 0)
      = (fun k : Fin s.data.length => lik.residual s p k) := by
    funext k; exact hd k k.2
  unfold LyaBaoLikelihood.operatorCall
  simp only [LyaData.getNData, Int.toNat_ofNat, h1]
  rw [(calculateChiSquare_eq s d').1, (calculateChiSquare_eq s d').2, hfun, h2]

/-! ## `addData` and `addDataAll` in closed form -/

theorem addData_iff (s t : LyaData) (r : DataRecord) :
    s.addData r.value r.logLambda r.separation r.redshift = .done t ↔
      ∃ e, s.entryOf r = some e ∧ s.initialized.getD e.1.toNat false = false ∧
        t = s.stored r.value e.1 e.2.1 e.2.2 := by
  constructor
  · intro h
    obtain ⟨a, b, c, ca, cb, cc, ds, e1, e2, e3, e4, e5, e6, t1, t2, t3, hi, e7, rfl⟩ :=
      addData_done h
    refine ⟨(s.flatIndex a b c, (s.transform r.logLambda r.separation r.redshift ds).1,
      (s.transform r.logLambda r.separation r.redshift ds).2), ?_, hi, rfl⟩
    simp only [LyaData.entryOf, LyaData.binsOf, e1, e2, e3, e4, e5, e6, e7]
    rw [if_pos ⟨t1, t2, t3⟩]
  · rintro ⟨e, he, hi, rfl⟩
    unfold LyaData.entryOf LyaData.binsOf at he
    split at he
    · rename_i a b c hb
      split at hb
      · rename_i x y z hx hy hz
        cases hb
        split at he
        · rename_i ca cb cc ds e4 e5 e6 e7
          split_ifs at he with ht
          cases he
          exact addData_accept hx hy hz e4 e5 e6 ht.1 ht.2.1 ht.2.2 hi e7
        · cases he
      · cases hb
    · cases he

/-- The entry of a record has a valid flat index, and the redshift bin decoded
from it is one whose center can be read. -/
theorem entryOf_range {s : LyaData} {r : DataRecord} {e : ℤ × ℚ × ℚ} (hs : s.WellSized)
    (h : s.entryOf r = some e) :
    0 ≤ e.1 ∧ e.1 < s.nBinsTotal ∧ (s.redshiftBinning.getBinCenter (e.1.tmod s.nz)).isSome := by
  unfold LyaData.entryOf LyaData.binsOf at h
  split at h
  · rename_i a b c hb
    split at hb
    · rename_i x y z hx hy hz
      cases hb
      split at h
      · rename_i ca cb cc ds e4 e5 e6 e7
        split_ifs at h with ht
        cases h
        have r1 := AbsBinning.bin_in_range hx e4
        have r2 := AbsBinning.bin_in_range hy e5
        have r3 := AbsBinning.bin_in_range hz e6
        obtain ⟨w1, w2, w3, -⟩ := hs
        rw [← w1] at r2
        rw [← w2] at r3
        have hr := flatIndex_range r1.1 r1.2 r2.1 r2.2 r3.1 r3.2
        have hd := flatIndex_decode r1.1 r2.1 r2.2 r3.1 r3.2
        refine ⟨hr.1, by rw [w3]; exact hr.2, ?_⟩
        simp only [LyaData.flatIndex]
        rw [hd.1, e6]
        rfl
      · cases h
    · cases hb
  · cases h

theorem storedAll_cons (s u : LyaData) (r : DataRecord) (rest : List DataRecord) :
    List.foldl (fun u r => u.stored r.value (s.entry r).1 (s.entry r).2.1 (s.entry r).2.2) u
        (r :: rest)
      = List.foldl (fun u r => u.stored r.value (s.entry r).1 (s.entry r).2.1 (s.entry r).2.2)
        (u.stored r.value (s.entry r).1 (s.entry r).2.1 (s.entry r).2.2) rest := rfl

/-- The members of the state after a list of records has been stored. -/
theorem foldl_stored_fields (s : LyaData) (records : List DataRecord) (u : LyaData) :
    let t := records.foldl
      (fun u r => u.stored r.value (s.entry r).1 (s.entry r).2.1 (s.entry r).2.2) u
    t.data = u.data ++ records.map (fun r => r.value) ∧
    t.index = u.index ++ records.map (fun r => (s.entry r).1) ∧
    t.r3d = u.r3d ++ records.map (fun r => (s.entry r).2.1) ∧
    t.mu = u.mu ++ records.map (fun r => (s.entry r).2.2) ∧
    t.cmath = u.cmath ∧ t.logLambdaBinning = u.logLambdaBinning ∧
    t.separationBinning = u.separationBinning ∧ t.redshiftBinning = u.redshiftBinning ∧
    t.cosmology = u.cosmology ∧ t.cov = u.cov ∧ t.icov = u.icov ∧ t.hasCov = u.hasCov ∧
    t.nsep = u.nsep ∧ t.nz = u.nz ∧ t.nBinsTotal = u.nBinsTotal ∧
    t.arcminToRad = u.arcminToRad ∧ t.dataFinalized = u.dataFinalized ∧
    t.covarianceFinalized = u.covarianceFinalized ∧ t.icovDelta = u.icovDelta ∧
    t.initialized.length = u.initialized.length ∧
    ∀ k, t.initialized.getD k false =
      (u.initialized.getD k false ||
        decide (k < u.initialized.length ∧ k ∈ records.map (fun r => (s.entry r).1.toNat))) := by
  induction records generalizing u with
  | nil => simp
  | cons r rest ih =>
    have h := ih (u.stored r.value (s.entry r).1 (s.entry r).2.1 (s.entry r).2.2)
    simp only [storedAll_cons]
    obtain ⟨h1, h2, h3, h4, h5, h6, h7, h8, h9, h10, h11, h12, h13, h14, h15, h16, h17, h18,
      h19, h20, h21⟩ := h
    refine ⟨?_, ?_, ?_, ?_, h5, h6, h7, h8, h9, h10, h11, h12, h13, h14, h15, h16, h17, h18,
      h19, ?_, ?_⟩
    · rw [h1]; simp [LyaData.stored]
    · rw [h2]; simp [LyaData.stored]
    · rw [h3]; simp [LyaData.stored]
    · rw [h4]; simp [LyaData.stored]
    · rw [h20]; simp [LyaData.stored]
    · intro k
      rw [h21 k]
      simp only [LyaData.stored, List.length_set, List.map_cons, List.mem_cons]
      by_cases hk : (s.entry r).1.toNat = k
      · by_cases hlen : k < u.initialized.length
        · rw [← hk, getD_set_self _ _ _ _ (by rw [hk]; exact hlen)]
          simp [hk, hlen]
        · have h0 : u.initialized.getD k false = false :=
            List.getD_eq_default _ _ (not_lt.mp hlen)
          have h0' : (u.initialized.set (s.entry r).1.toNat true).getD k false = false :=
            List.getD_eq_default _ _ (by rw [List.length_set]; exact not_lt.mp hlen)
          rw [h0, h0']
          simp [hlen]
      · rw [getD_set_other _ _ _ _ _ hk]
        have : (k = (s.entry r).1.toNat) = False := by
          simp only [eq_iff_iff, iff_false]; exact fun e => hk e.symm
        simp only [this, false_or]

theorem entryOf_congr {u s : LyaData} (hc : u.SameConfig s) (r : DataRecord) :
    u.entryOf r = s.entryOf r := by
  obtain ⟨c1, c2, c3, c4, c5, c6, c7, -, c9, -⟩ := hc
  simp only [LyaData.entryOf, LyaData.binsOf, LyaData.flatIndex, LyaData.transform, c1, c2,
    c3, c4, c5, c6, c7, c9]

theorem sameConfig_refl (s : LyaData) : s.SameConfig s :=
  ⟨rfl, rfl, rfl, rfl, rfl, rfl, rfl, rfl, rfl, rfl⟩

theorem sameConfig_stored {u s : LyaData} (hc : u.SameConfig s) (value : ℚ) (index : ℤ)
    (r3d mu : ℚ) : (u.stored value index r3d mu).SameConfig s := by
  obtain ⟨c1, c2, c3, c4, c5, c6, c7, c8, c9, c10⟩ := hc
  exact ⟨c1, c2, c3, c4, c5, c6, c7, c8, c9, by
    simp only [LyaData.stored, List.length_set]; exact c10⟩

/-- `addDataAll` in closed form: the loop runs to completion exactly when every
record has an entry, the bins of the records are distinct and none of them was
filled before; the final state is then the one with all records stored. -/
theorem addDataAll_iff (s : LyaData) (hs : s.WellSized) (records : List DataRecord)
    (u t : LyaData) (hc : u.SameConfig s) :
    addDataAll u records = .done t ↔
      (∀ r ∈ records, (s.entryOf r).isSome ∧
        u.initialized.getD (s.entry r).1.toNat false = false) ∧
      (records.map (fun r => (s.entry r).1)).Nodup ∧
      t = records.foldl
        (fun u r => u.stored r.value (s.entry r).1 (s.entry r).2.1 (s.entry r).2.2) u := by
  induction records generalizing u with
  | nil =>
    simp only [addDataAll, List.not_mem_nil, false_implies, implies_true, List.map_nil,
      List.nodup_nil, List.foldl_nil, true_and]
    constructor
    · intro h; cases h; rfl
    · intro h; rw [h]
  | cons r rest ih =>
    have hlen : u.initialized.length = s.nBinsTotal.toNat := by rw [hc.2.2.2.2.2.2.2.2.2, hs.2.2.2]
    -- facts about the entry of a record that has one
    have hrange : ∀ r' : DataRecord, (s.entryOf r').isSome →
        s.entryOf r' = some (s.entry r') ∧ 0 ≤ (s.entry r').1 ∧
          (s.entry r').1.toNat < u.initialized.length := by
      intro r' h'
      obtain ⟨e, he⟩ := Option.isSome_iff_exists.1 h'
      have hr := entryOf_range hs he
      have hee : s.entry r' = e := by simp only [LyaData.entry, he, Option.getD_some]
      rw [hee, hlen]
      exact ⟨he, hr.1, by omega⟩
    unfold addDataAll
    constructor
    · intro h
      cases h1 : u.addData r.value r.logLambda r.separation r.redshift with
      | failed why v => rw [h1] at h; cases h
      | done v =>
        rw [h1] at h
        simp only [Outcome.bind] at h
        obtain ⟨e, he, hi, rfl⟩ := (addData_iff u v r).1 h1
        rw [entryOf_congr hc] at he
        have hee : s.entry r = e := by simp only [LyaData.entry, he, Option.getD_some]
        have hsome : (s.entryOf r).isSome := by rw [he]; rfl
        have hr := hrange r hsome
        rw [hee] at hr
        obtain ⟨g1, g2, g3⟩ := (ih _ (sameConfig_stored hc _ _ _ _)).1 h
        refine ⟨?_, ?_, ?_⟩
        · intro r' hr'
          rcases List.mem_cons.1 hr' with rfl | hr'
          · exact ⟨hsome, by rw [hee]; exact hi⟩
          · refine ⟨(g1 r' hr').1, ?_⟩
            have := (g1 r' hr').2
            by_cases hk : e.1.toNat = (s.entry r').1.toNat
            · rw [← hk] at this
              simp only [LyaData.stored] at this
              rw [getD_set_self _ _ _ _ hr.2.2] at this
              exact absurd this (by decide)
            · simp only [LyaData.stored] at this
              rw [getD_set_other _ _ _ _ _ hk] at this
              exact this
        · rw [List.map_cons, List.nodup_cons]
          refine ⟨?_, g2⟩
          intro hmem
          obtain ⟨r', hr', heq⟩ := List.mem_map.1 hmem
          have := (g1 r' hr').2
          rw [heq, hee] at this
          simp only [LyaData.stored] at this
          rw [getD_set_self _ _ _ _ hr.2.2] at this
          exact absurd this (by decide)
        · rw [g3, List.foldl_cons, hee]
    · rintro ⟨g1, g2, rfl⟩
      have hsome := (g1 r (List.mem_cons_self _ _)).1
      have hi := (g1 r (List.mem_cons_self _ _)).2
      have hr := hrange r hsome
      have h1 : u.addData r.value r.logLambda r.separation r.redshift
          = .done (u.stored r.value (s.entry r).1 (s.entry r).2.1 (s.entry r).2.2) :=
        (addData_iff u _ r).2 ⟨s.entry r, by rw [entryOf_congr hc]; exact hr.1, hi, rfl⟩
      rw [h1]
      simp only [Outcome.bind]
      rw [List.map_cons, List.nodup_cons] at g2
      apply (ih _ (sameConfig_stored hc _ _ _ _)).2
      refine ⟨?_, g2.2, rfl⟩
      intro r' hr'
      have h' := g1 r' (List.mem_cons_of_mem _ hr')
      refine ⟨h'.1, ?_⟩
      have hr2 := hrange r' h'.1
      have hne : (s.entry r).1.toNat ≠ (s.entry r').1.toNat := by
        intro e
        have : (s.entry r).1 = (s.entry r').1 := by
          have a := hr.2.1
          have b := hr2.2.1
          omega
        exact g2.1 (List.mem_map.2 ⟨r', hr', this.symm⟩)
      simp only [LyaData.stored]
      rw [getD_set_other _ _ _ _ _ hne]
      exact h'.2

/-! ## Positive definiteness and the Cholesky recurrence -/

/-- The quadratic form of a symmetric matrix, split along the first coordinate. -/
theorem quad_succ {n : ℕ} (A : Matrix (Fin (n + 1)) (Fin (n + 1)) ℚ)
    (hA : ∀ i j, A i j = A j i) (x : Fin (n + 1) → ℚ) :
    Matrix.dotProduct x (A.mulVec x) =
      A 0 0 * x 0 ^ 2 + 2 * x 0 * (∑ i : Fin n, A 0 i.succ * x i.succ)
        + ∑ i : Fin n, x i.succ * ∑ j : Fin n, A i.succ j.succ * x j.succ := by
  simp only [Matrix.dotProduct, Matrix.mulVec, Fin.sum_univ_succ]
  have h1 : ∑ i : Fin n, x i.succ * (A i.succ 0 * x 0 + ∑ j : Fin n, A i.succ j.succ * x j.succ)
      = x 0 * (∑ i : Fin n, A 0 i.succ * x i.succ)
        + ∑ i : Fin n, x i.succ * ∑ j : Fin n, A i.succ j.succ * x j.succ := by
    rw [Finset.mul_sum, ← Finset.sum_add_distrib]
    apply Finset.sum_congr rfl
    intro i _
    rw [hA i.succ 0]
    ring
  rw [h1]
  ring

/-- The quadratic form of the reduced matrix. -/
theorem quad_schurStep {n : ℕ} (A : Matrix (Fin (n + 1)) (Fin (n + 1)) ℚ)
    (hA : ∀ i j, A i j = A j i) (y : Fin n → ℚ) :
    Matrix.dotProduct y ((schurStep A).mulVec y) =
      (∑ i : Fin n, y i * ∑ j : Fin n, A i.succ j.succ * y j)
        - (∑ i : Fin n, A 0 i.succ * y i) ^ 2 / A 0 0 := by
  simp only [Matrix.dotProduct, Matrix.mulVec, schurStep]
  have h1 : ∀ i : Fin n, y i * ∑ j : Fin n, (A i.succ j.succ - A i.succ 0 * A 0 j.succ / A 0 0) * y j
      = y i * (∑ j : Fin n, A i.succ j.succ * y j)
        - (A 0 i.succ * y i) * ((∑ j : Fin n, A 0 j.succ * y j) / A 0 0) := by
    intro i
    have : ∑ j : Fin n, (A i.succ j.succ - A i.succ 0 * A 0 j.succ / A 0 0) * y j
        = (∑ j : Fin n, A i.succ j.succ * y j)
          - A i.succ 0 * ((∑ j : Fin n, A 0 j.succ * y j) / A 0 0) := by
      rw [Finset.sum_div, Finset.mul_sum, ← Finset.sum_sub_distrib]
      apply Finset.sum_congr rfl
      intro j _
      ring
    rw [this, hA i.succ 0]
    ring
  rw [Finset.sum_congr rfl (fun i _ => h1 i), Finset.sum_sub_distrib, ← Finset.sum_mul]
  ring

theorem schurStep_symm {n : ℕ} (A : Matrix (Fin (n + 1)) (Fin (n + 1)) ℚ)
    (hA : ∀ i j, A i j = A j i) (i j : Fin n) : schurStep A i j = schurStep A j i := by
  simp only [schurStep]
  rw [hA i.succ j.succ, hA i.succ 0, hA 0 j.succ]
  ring

/-- One step of the recurrence: a symmetric matrix is positive definite exactly
when its pivot is positive and the reduced matrix is positive definite. -/
theorem isPosDef_succ {n : ℕ} (A : Matrix (Fin (n + 1)) (Fin (n + 1)) ℚ)
    (hA : ∀ i j, A i j = A j i) :
    IsPosDef A ↔ 0 < A 0 0 ∧ IsPosDef (schurStep A) := by
  constructor
  · intro h
    have ha : 0 < A 0 0 := by
      have := h (Pi.single 0 1) (by
        intro e
        have := congrFun e 0
        simp at this)
      rw [quad_succ A hA] at this
      simpa [Pi.single_apply, Fin.succ_ne_zero] using this
    refine ⟨ha, ?_⟩
    intro y hy
    have := h (Fin.cons (-(∑ i : Fin n, A 0 i.succ * y i) / A 0 0) y) (by
      intro e
      apply hy
      funext i
      have := congrFun e i.succ
      simpa using this)
    rw [quad_succ A hA] at this
    rw [quad_schurStep A hA]
    simp only [Fin.cons_zero, Fin.cons_succ] at this
    have hne : A 0 0 ≠ 0 := ne_of_gt ha
    have e : A 0 0 * (-(∑ i : Fin n, A 0 i.succ * y i) / A 0 0) ^ 2
        + 2 * (-(∑ i : Fin n, A 0 i.succ * y i) / A 0 0) * (∑ i : Fin n, A 0 i.succ * y i)
        + ∑ i : Fin n, y i * ∑ j : Fin n, A i.succ j.succ * y j
        = (∑ i : Fin n, y i * ∑ j : Fin n, A i.succ j.succ * y j)
          - (∑ i : Fin n, A 0 i.succ * y i) ^ 2 / A 0 0 := by
      field_simp
      ring
    rw [e] at this
    exact this
  · rintro ⟨ha, hS⟩ x hx
    have hne : A 0 0 ≠ 0 := ne_of_gt ha
    rw [quad_succ A hA]
    have e : A 0 0 * x 0 ^ 2 + 2 * x 0 * (∑ i : Fin n, A 0 i.succ * x i.succ)
        + ∑ i : Fin n, x i.succ * ∑ j : Fin n, A i.succ j.succ * x j.succ
        = A 0 0 * (x 0 + (∑ i : Fin n, A 0 i.succ * x i.succ) / A 0 0) ^ 2
          + Matrix.dotProduct (fun i : Fin n => x i.succ)
              ((schurStep A).mulVec (fun i : Fin n => x i.succ)) := by
      rw [quad_schurStep A hA]
      field_simp
      ring
    rw [e]
    by_cases hy : (fun i : Fin n => x i.succ) = 0
    · have hx0 : x 0 ≠ 0 := by
        intro h0
        apply hx
        funext i
        refine Fin.cases ?_ (fun j => ?_) i
        · exact h0
        · exact congrFun hy j
      have hz : ∀ i : Fin n, x i.succ = 0 := fun i => congrFun hy i
      simp only [hy, hz, Matrix.dotProduct, Matrix.mulVec, Pi.zero_apply, mul_zero,
        Finset.sum_const_zero, zero_div, add_zero, zero_mul]
      positivity
    · have := hS _ hy
      have h2 : 0 ≤ A 0 0 * (x 0 + (∑ i : Fin n, A 0 i.succ * x i.succ) / A 0 0) ^ 2 := by
        positivity
      linarith

theorem choleskyInfo_succ {n : ℕ} (A : Matrix (Fin (n + 1)) (Fin (n + 1)) ℚ) :
    choleskyInfo (n + 1) A =
      if A 0 0 ≤ 0 then 1
      else match choleskyInfo n (schurStep A) with
        | 0 => 0
        | k + 1 => k + 2 := rfl

/-- In exact arithmetic the factorization succeeds exactly on the positive
definite matrices. -/
theorem choleskyInfo_eq_zero_iff : ∀ (n : ℕ) (A : Matrix (Fin n) (Fin n) ℚ),
    (∀ i j, A i j = A j i) → (choleskyInfo n A = 0 ↔ IsPosDef A)
  | 0, A, _ => by
    simp only [choleskyInfo, true_iff]
    intro x hx
    exact absurd (Subsingleton.elim x 0) hx
  | n + 1, A, hA => by
    rw [isPosDef_succ A hA, ← choleskyInfo_eq_zero_iff n (schurStep A) (schurStep_symm A hA)]
    rw [choleskyInfo_succ]
    by_cases ha : A 0 0 ≤ 0
    · simp only [ha, if_true]
      constructor
      · intro h; cases h
      · intro h; exact absurd h.1 (not_lt.mpr ha)
    · simp only [ha, if_false]
      have ha' : 0 < A 0 0 := not_le.mp ha
      cases hk : choleskyInfo n (schurStep A) with
      | zero => simp [ha']
      | succ k => simp

/-! ## The inverse and the packed storage -/

theorem IsPosDef.det_ne_zero {n : ℕ} {A : Matrix (Fin n) (Fin n) ℚ} (h : IsPosDef A) :
    A.det ≠ 0 := by
  intro hd
  obtain ⟨v, hv, hAv⟩ := Matrix.exists_mulVec_eq_zero_iff.2 hd
  have := h v hv
  rw [hAv] at this
  simp at this

theorem cramerInverse_mul {n : ℕ} (A : Matrix (Fin n) (Fin n) ℚ) (h : A.det ≠ 0) :
    cramerInverse A * A = 1 := by
  unfold cramerInverse
  rw [Matrix.smul_mul, Matrix.adjugate_mul, smul_smul, inv_mul_cancel₀ h, one_smul]

theorem mul_cramerInverse {n : ℕ} (A : Matrix (Fin n) (Fin n) ℚ) (h : A.det ≠ 0) :
    A * cramerInverse A = 1 := by
  unfold cramerInverse
  rw [Matrix.mul_smul, Matrix.mul_adjugate, smul_smul, inv_mul_cancel₀ h, one_smul]

/-- A left inverse of a matrix with non-zero determinant is the Cramer inverse. -/
theorem eq_cramerInverse {n : ℕ} {A B : Matrix (Fin n) (Fin n) ℚ} (h : A.det ≠ 0)
    (hB : B * A = 1) : B = cramerInverse A := by
  calc B = B * (A * cramerInverse A) := by rw [mul_cramerInverse A h, mul_one]
    _ = (B * A) * cramerInverse A := by rw [Matrix.mul_assoc]
    _ = cramerInverse A := by rw [hB, one_mul]

theorem cramerInverse_symm {n : ℕ} (A : Matrix (Fin n) (Fin n) ℚ) (hA : ∀ i j, A i j = A j i)
    (i j : Fin n) : cramerInverse A i j = cramerInverse A j i := by
  have ht : A.transpose = A := by
    ext a b; exact hA b a
  have h := Matrix.adjugate_transpose A
  rw [ht] at h
  have := congrFun (congrFun h i) j
  simp only [Matrix.transpose_apply] at this
  simp only [cramerInverse, Matrix.smul_apply, this]

theorem unpackU_symm (n : ℕ) (ap : List ℚ) (i j : Fin n) :
    unpackU n ap i j = unpackU n ap j i := by
  simp only [unpackU, symAt, min_comm, max_comm]

theorem packU_length (f : ℕ → ℕ → ℚ) (n : ℕ) : (packU f n).length = n * (n + 1) / 2 := by
  induction n with
  | zero => rfl
  | succ n ih =>
    rw [packU, List.length_append, ih, List.length_map, List.length_range, tri_succ]

theorem packU_getD (f : ℕ → ℕ → ℚ) (n row col : ℕ) (h : row ≤ col) (hc : col < n) :
    (packU f n).getD (packedIndex row col) 0 = f row col := by
  induction n with
  | zero => omega
  | succ n ih =>
    rw [packU]
    by_cases hcn : col < n
    · rw [List.getD_append _ _ _ _ (by rw [packU_length]; exact packedIndex_lt h hcn)]
      exact ih hcn
    · have hcol : col = n := by omega
      subst hcol
      rw [List.getD_append_right _ _ _ _ (by rw [packU_length]; unfold packedIndex; omega)]
      rw [packU_length]
      have : packedIndex row col - col * (col + 1) / 2 = row := by
        unfold packedIndex; omega
      rw [this, List.getD_eq_getElem _ _ (by simp; omega)]
      simp

/-- Reading back a symmetric matrix from its packed upper triangle. -/
theorem unpackU_packU (n : ℕ) (M : Matrix (Fin n) (Fin n) ℚ) (hM : ∀ i j, M i j = M j i)
    (rest : List ℚ) :
    unpackU n (packU (fun i j => if h : i < n ∧ j < n then M ⟨i, h.1⟩ ⟨j, h.2⟩ else 0) n ++ rest)
      = M := by
  ext i j
  simp only [unpackU, symAt]
  have hmax : max (i : ℕ) (j : ℕ) < n := max_lt i.2 j.2
  have hmin : min (i : ℕ) (j : ℕ) < n := lt_of_le_of_lt (min_le_left _ _) i.2
  rw [List.getD_append _ _ _ _ (by rw [packU_length]; exact packedIndex_lt min_le_max hmax)]
  rw [packU_getD _ _ _ _ min_le_max hmax, dif_pos ⟨hmin, hmax⟩]
  rcases le_total (i : ℕ) (j : ℕ) with hij | hij
  · have e1 : (⟨min (i : ℕ) (j : ℕ), hmin⟩ : Fin n) = i := Fin.ext (min_eq_left hij)
    have e2 : (⟨max (i : ℕ) (j : ℕ), hmax⟩ : Fin n) = j := Fin.ext (max_eq_right hij)
    rw [e1, e2]
  · have e1 : (⟨min (i : ℕ) (j : ℕ), hmin⟩ : Fin n) = j := Fin.ext (min_eq_right hij)
    have e2 : (⟨max (i : ℕ) (j : ℕ), hmax⟩ : Fin n) = i := Fin.ext (max_eq_left hij)
    rw [e1, e2, hM]

/-! ## `finalizeCovariance` in closed form -/

/-- On a positive definite covariance `finalizeCovariance` runs to completion,
changes only `_icov` and the flag, and `_icov` then packs the inverse. -/
theorem finalizeCovariance_posDef (s : LyaData) (hf : s.dataFinalized = true)
    (hpd : IsPosDef (unpackU s.data.length s.cov)) :
    s.finalizeCovariance = .done s.inverted ∧
      unpackU s.data.length s.inverted.icov = cramerInverse (unpackU s.data.length s.cov) := by
  have hinfo : choleskyInfo s.data.length (unpackU s.data.length s.cov) = 0 :=
    (choleskyInfo_eq_zero_iff _ _ (unpackU_symm _ _)).2 hpd
  have hdet := hpd.det_ne_zero
  refine ⟨?_, ?_⟩
  · unfold LyaData.finalizeCovariance
    simp only [hf, not_true_eq_false, if_false, LyaData.getNData, Int.toNat_ofNat, dpptrf, hinfo,
      Nat.cast_zero]
    simp only [dpptri, hdet, if_false, LyaData.inverted, hf, not_true_eq_false]
  · simp only [LyaData.inverted, dpptri, hdet, if_false]
    exact unpackU_packU _ _ (cramerInverse_symm _ (unpackU_symm _ _)) _

/-- On a covariance that is not positive definite `finalizeCovariance` stops at
the assertion after `dpptrf`, with the non-zero status and the flag untouched. -/
theorem finalizeCovariance_not_posDef (s : LyaData) (hf : s.dataFinalized = true)
    (hpd : ¬ IsPosDef (unpackU s.data.length s.cov)) :
    s.finalizeCovariance =
      .failed (.cholesky (choleskyInfo s.data.length (unpackU s.data.length s.cov)))
        { s with icov := s.cov } ∧
    choleskyInfo s.data.length (unpackU s.data.length s.cov) ≠ 0 := by
  have hinfo : choleskyInfo s.data.length (unpackU s.data.length s.cov) ≠ 0 :=
    fun h => hpd ((choleskyInfo_eq_zero_iff _ _ (unpackU_symm _ _)).1 h)
  refine ⟨?_, hinfo⟩
  unfold LyaData.finalizeCovariance
  have h0 : ¬ ((0 : ℤ) = (choleskyInfo s.data.length (unpackU s.data.length s.cov) : ℤ)) := by
    intro e
    exact hinfo (by exact_mod_cast e.symm)
  simp only [hf, not_true_eq_false, if_false, LyaData.getNData, Int.toNat_ofNat, dpptrf, h0,
    not_false_eq_true, if_true]

/-- When `finalizeCovariance` runs to completion the data were finalized and
the covariance was positive definite. -/
theorem finalizeCovariance_done {s t : LyaData} (h : s.finalizeCovariance = .done t) :
    s.dataFinalized = true ∧ IsPosDef (unpackU s.data.length s.cov) := by
  by_cases hf : s.dataFinalized = true
  · refine ⟨hf, ?_⟩
    by_contra hpd
    rw [(finalizeCovariance_not_posDef s hf hpd).1] at h
    cases h
  · unfold LyaData.finalizeCovariance at h
    simp only [hf, not_false_eq_true, if_true] at h
    cases h

/-! ## `addCovarianceAll` in closed form -/

theorem foldl_filled_fields (covs : List CovRecord) (u : LyaData) :
    let t := covs.foldl (fun v r => v.filled r.slot r.value) u
    t.data = u.data ∧ t.index = u.index ∧ t.r3d = u.r3d ∧ t.mu = u.mu ∧ t.icov = u.icov ∧
    t.redshiftBinning = u.redshiftBinning ∧ t.nz = u.nz ∧
    t.dataFinalized = u.dataFinalized ∧ t.covarianceFinalized = u.covarianceFinalized ∧
    t.cov.length = u.cov.length ∧ t.hasCov.length = u.hasCov.length := by
  induction covs generalizing u with
  | nil => simp
  | cons r rest ih =>
    have h := ih (u.filled r.slot r.value)
    simp only [List.foldl_cons]
    obtain ⟨h1, h2, h3, h4, h5, h6, h7, h8, h9, h10, h11⟩ := h
    refine ⟨h1, h2, h3, h4, h5, h6, h7, h8, h9, ?_, ?_⟩
    · rw [h10]; simp [LyaData.filled]
    · rw [h11]; simp [LyaData.filled]

/-- The covariance store after a list of records with distinct slots has been
written: each slot holds the value of its record, or what it held before. -/
theorem foldl_filled_cov (covs : List CovRecord) (u : LyaData) (k : ℕ)
    (hnd : (covs.map CovRecord.slot).Nodup) (hlen : ∀ r ∈ covs, r.slot < u.cov.length) :
    (covs.foldl (fun v r => v.filled r.slot r.value) u).cov.getD k 0 =
      match covs.find? (fun r => r.slot = k) with
      | some r => r.value
      | none => u.cov.getD k 0 := by
  induction covs generalizing u with
  | nil => rfl
  | cons r rest ih =>
    rw [List.map_cons, List.nodup_cons] at hnd
    have hlen' : ∀ r' ∈ rest, r'.slot < (u.filled r.slot r.value).cov.length := by
      intro r' hr'
      simp only [LyaData.filled, List.length_set]
      exact hlen r' (List.mem_cons_of_mem _ hr')
    rw [List.foldl_cons, ih _ hnd.2 hlen']
    by_cases hk : r.slot = k
    · have hnone : rest.find? (fun r => r.slot = k) = none := by
        rw [List.find?_eq_none]
        intro r' hr' he
        apply hnd.1
        rw [hk]
        simp only [decide_eq_true_eq] at he
        exact List.mem_map.2 ⟨r', hr', he⟩
      rw [hnone, List.find?_cons_of_pos _ (by simpa using hk)]
      simp only [LyaData.filled]
      rw [← hk]
      exact getD_set_self _ _ _ _ (hlen r (List.mem_cons_self _ _))
    · rw [List.find?_cons_of_neg _ (by simpa using hk)]
      cases rest.find? (fun r => r.slot = k) with
      | some r' => rfl
      | none =>
        simp only [LyaData.filled]
        exact getD_set_other _ _ _ _ _ hk

/-- `addCovarianceAll` in closed form for a store of the right size: the loop
runs to completion exactly when the data are finalized, every record is in
range with a positive value if it is diagonal, and the slots of the records
are distinct and were unfilled; the final state has every record written. -/
theorem addCovarianceAll_iff (covs : List CovRecord) (u t : LyaData) (hsz : u.CovSized) :
    addCovarianceAll u covs = .done t ↔
      (∀ r ∈ covs, u.dataFinalized = true ∧ 0 ≤ r.index1 ∧ r.index1 < u.getNData ∧
        0 ≤ r.index2 ∧ r.index2 < u.getNData ∧ (r.index1 ≠ r.index2 ∨ 0 < r.value) ∧
        u.hasCov.getD r.slot false = false) ∧
      (covs.map CovRecord.slot).Nodup ∧
      t = covs.foldl (fun v r => v.filled r.slot r.value) u := by
  induction covs generalizing u with
  | nil =>
    simp only [addCovarianceAll, List.not_mem_nil, false_implies, implies_true, List.map_nil,
      List.nodup_nil, List.foldl_nil, true_and]
    constructor
    · intro h; cases h; rfl
    · intro h; rw [h]
  | cons r rest ih =>
    have hsz' : (u.filled r.slot r.value).CovSized := by
      simp only [LyaData.CovSized, LyaData.filled, List.length_set]
      exact hsz
    have hcond : (u.dataFinalized = true ∧ 0 ≤ min r.index1 r.index2 ∧
        max r.index1 r.index2 < u.getNData ∧ (r.index1 ≠ r.index2 ∨ 0 < r.value) ∧
        u.hasCov.getD (covSlot r.index1 r.index2) false = false) ↔
        (u.dataFinalized = true ∧ 0 ≤ r.index1 ∧ r.index1 < u.getNData ∧
        0 ≤ r.index2 ∧ r.index2 < u.getNData ∧ (r.index1 ≠ r.index2 ∨ 0 < r.value) ∧
        u.hasCov.getD r.slot false = false) := by
      simp only [le_min_iff, max_lt_iff, CovRecord.slot]
      tauto
    have hslot : ∀ r' : CovRecord, 0 ≤ r'.index1 → r'.index1 < u.getNData → 0 ≤ r'.index2 →
        r'.index2 < u.getNData → r'.slot < u.hasCov.length := by
      intro r' a b c d
      rw [hsz.2]
      exact covSlot_lt_of_range a c b d
    unfold addCovarianceAll
    rw [addCovariance_eq]
    constructor
    · intro h
      split_ifs at h with hc
      · simp only [Outcome.bind] at h
        have hc' := hcond.1 hc
        obtain ⟨g1, g2, g3⟩ := (ih _ hsz').1 h
        have hin := hslot r hc'.2.1 hc'.2.2.1 hc'.2.2.2.1 hc'.2.2.2.2.1
        refine ⟨?_, ?_, ?_⟩
        · intro r' hr'
          rcases List.mem_cons.1 hr' with rfl | hr'
          · exact hc'
          · obtain ⟨a1, a2, a3, a4, a5, a6, a7⟩ := g1 r' hr'
            refine ⟨hc'.1, a2, a3, a4, a5, a6, ?_⟩
            simp only [LyaData.filled] at a7
            by_cases hk : r.slot = r'.slot
            · rw [← hk, getD_set_self _ _ _ _ hin] at a7
              exact absurd a7 (by decide)
            · rw [getD_set_other _ _ _ _ _ hk] at a7
              exact a7
        · rw [List.map_cons, List.nodup_cons]
          refine ⟨?_, g2⟩
          intro hmem
          obtain ⟨r', hr', heq⟩ := List.mem_map.1 hmem
          have a7 := (g1 r' hr').2.2.2.2.2.2
          simp only [LyaData.filled] at a7
          rw [heq] at a7
          rw [getD_set_self _ _ _ _ hin] at a7
          exact absurd a7 (by decide)
        · rw [g3, List.foldl_cons]
      · cases h
    · rintro ⟨g1, g2, rfl⟩
      have hc' := g1 r (List.mem_cons_self _ _)
      rw [if_pos (hcond.2 hc')]
      simp only [Outcome.bind]
      rw [List.map_cons, List.nodup_cons] at g2
      apply (ih _ hsz').2
      refine ⟨?_, g2.2, rfl⟩
      intro r' hr'
      obtain ⟨a1, a2, a3, a4, a5, a6, a7⟩ := g1 r' (List.mem_cons_of_mem _ hr')
      refine ⟨a1, a2, a3, a4, a5, a6, ?_⟩
      have hne : r.slot ≠ r'.slot := by
        intro e
        exact g2.1 (List.mem_map.2 ⟨r', hr', e.symm⟩)
      simp only [LyaData.filled]
      rw [getD_set_other _ _ _ _ _ hne]
      exact a7

/-! ## The dataset as `main` builds it -/

theorem find?_congr' {α : Type} (l : List α) (p q : α → Bool) (h : ∀ a ∈ l, p a = q a) :
    l.find? p = l.find? q := by
  induction l with
  | nil => rfl
  | cons a rest ih =>
    have ha := h a (List.mem_cons_self _ _)
    have hr := ih (fun b hb => h b (List.mem_cons_of_mem _ hb))
    simp only [List.find?_cons, ha, hr]

/-- The three stages of `loadData`. -/
theorem loadData_done {m : Libm} {llBins sepBins zBins : AbsBinning} {cosmology : Cosmology}
    {records : List DataRecord} {covRecords : List CovRecord} {s : LyaData}
    (h : loadData m llBins sepBins zBins cosmology records covRecords = .done s) :
    ∃ s1 s2, addDataAll (LyaData.create m llBins sepBins zBins cosmology) records = .done s1 ∧
      addCovarianceAll s1.finalizeData covRecords = .done s2 ∧
      s2.finalizeCovariance = .done s := by
  unfold loadData at h
  cases h1 : addDataAll (LyaData.create m llBins sepBins zBins cosmology) records with
  | failed why v => rw [h1] at h; cases h
  | done s1 =>
    rw [h1] at h
    simp only [Outcome.bind] at h
    cases h2 : addCovarianceAll s1.finalizeData covRecords with
    | failed why v => rw [h2] at h; cases h
    | done s2 =>
      rw [h2] at h
      exact ⟨s1, s2, rfl, h2, h⟩

/-- The dataset after the data records of a fresh dataset have been accepted
and `finalizeData` has run. -/
theorem addDataAll_create {m : Libm} {llBins sepBins zBins : AbsBinning} {cosmology : Cosmology}
    {records : List DataRecord} {s1 : LyaData}
    (h : addDataAll (LyaData.create m llBins sepBins zBins cosmology) records = .done s1) :
    s1.data.length = records.length ∧ s1.index.length = records.length ∧
    s1.finalizeData.CovSized ∧ s1.finalizeData.dataFinalized = true ∧
    s1.finalizeData.covarianceFinalized = false ∧
    (∀ k, s1.finalizeData.cov.getD k 0 = 0) ∧
    (∀ k < records.length, (s1.getRedshift k).isSome) := by
  have hs := create_wellSized m llBins sepBins zBins cosmology
  obtain ⟨g1, -, g3⟩ := (addDataAll_iff _ hs records _ s1 (sameConfig_refl _)).1 h
  have hf := foldl_stored_fields (LyaData.create m llBins sepBins zBins cosmology) records
    (LyaData.create m llBins sepBins zBins cosmology)
  simp only [← g3] at hf
  obtain ⟨f1, f2, -, -, -, -, -, f8, -, f10, -, f12, -, f14, -, -, -, f18, -⟩ := hf
  have hlen : s1.data.length = records.length := by rw [f1]; simp [LyaData.create]
  have hcov : s1.cov = [] := by rw [f10]; rfl
  have hhas : s1.hasCov = [] := by rw [f12]; rfl
  have hn : ((s1.getNData * (s1.getNData + 1)).tdiv 2).toNat
      = s1.data.length * (s1.data.length + 1) / 2 := by
    have := @packedIndex_int 0 s1.getNData le_rfl (by simp [LyaData.getNData])
    simp only [zero_add, packedIndex, Int.toNat_zero] at this
    rw [this, LyaData.getNData, Int.toNat_ofNat]
  refine ⟨hlen, by rw [f2]; simp [LyaData.create], ?_, rfl, ?_, ?_, ?_⟩
  · constructor
    · simp only [LyaData.finalizeData, hn, length_vectorResize]
    · simp only [LyaData.finalizeData, hn, length_vectorResize]
  · show s1.covarianceFinalized = false
    rw [f18]; rfl
  · intro k
    simp only [LyaData.finalizeData, hcov, vectorResize_nil]
    by_cases hk : k < ((s1.getNData * (s1.getNData + 1)).tdiv 2).toNat
    · rw [List.getD_eq_getElem _ _ (by simpa using hk)]
      simp
    · exact List.getD_eq_default _ _ (by simpa using hk)
  · intro k hk
    have hidx : s1.getIndex k = ((LyaData.create m llBins sepBins zBins cosmology).entry
        (records.get ⟨k, hk⟩)).1 := by
      simp only [LyaData.getIndex, f2]
      rw [List.getD_eq_getElem _ _ (by simpa [LyaData.create] using hk)]
      simp [LyaData.create]
    have hmem : records.get ⟨k, hk⟩ ∈ records := List.get_mem _ _ _
    obtain ⟨e, he⟩ := Option.isSome_iff_exists.1 (g1 _ hmem).1
    have hr := entryOf_range hs he
    have hee : (LyaData.create m llBins sepBins zBins cosmology).entry (records.get ⟨k, hk⟩) = e := by
      simp only [LyaData.entry, he, Option.getD_some]
    unfold LyaData.getRedshift
    rw [hidx, hee, f8, f14]
    exact hr.2.2

/-- The covariance store after the covariance records have been accepted holds
exactly the supplied matrix. -/
theorem unpackU_addCovarianceAll {covs : List CovRecord} {u t : LyaData} (hsz : u.CovSized)
    (hzero : ∀ k, u.cov.getD k 0 = 0) (h : addCovarianceAll u covs = .done t) :
    unpackU u.data.length t.cov = suppliedCov u.data.length covs := by
  obtain ⟨g1, g2, g3⟩ := (addCovarianceAll_iff covs u t hsz).1 h
  ext i j
  have hslot : packedIndex (min (i : ℕ) (j : ℕ)) (max (i : ℕ) (j : ℕ))
      = covSlot ((i : ℕ) : ℤ) ((j : ℕ) : ℤ) := by
    unfold covSlot
    congr 1
    · rcases le_total (i : ℕ) (j : ℕ) with hij | hij
      · rw [min_eq_left hij, min_eq_left (by exact_mod_cast hij)]; simp
      · rw [min_eq_right hij, min_eq_right (by exact_mod_cast hij)]; simp
    · rcases le_total (i : ℕ) (j : ℕ) with hij | hij
      · rw [max_eq_right hij, max_eq_right (by exact_mod_cast hij)]; simp
      · rw [max_eq_left hij, max_eq_left (by exact_mod_cast hij)]; simp
  have hlen : ∀ r ∈ covs, r.slot < u.cov.length := by
    intro r hr
    obtain ⟨-, a2, a3, a4, a5, -, -⟩ := g1 r hr
    rw [hsz.1]
    exact covSlot_lt_of_range a2 a4 a3 a5
  simp only [unpackU, symAt, suppliedCov, suppliedAt]
  rw [hslot, g3, foldl_filled_cov covs u _ g2 hlen, hzero]
  have hfind : covs.find? (fun r => decide (r.slot = covSlot ((i : ℕ) : ℤ) ((j : ℕ) : ℤ)))
      = covs.find? (fun r => decide ((r.index1 = ((i : ℕ) : ℤ) ∧ r.index2 = ((j : ℕ) : ℤ)) ∨
          (r.index1 = ((j : ℕ) : ℤ) ∧ r.index2 = ((i : ℕ) : ℤ)))) := by
    apply find?_congr'
    intro r hr
    obtain ⟨-, a2, -, a4, -, -, -⟩ := g1 r hr
    have := @covSlot_eq_iff ((i : ℕ) : ℤ) ((j : ℕ) : ℤ) r.index1 r.index2 (by positivity)
      (by positivity) a2 a4
    simp only [CovRecord.slot, this]
  rw [hfind]

/-! ## C3 and C4: `finalizeCovariance` -/

theorem isPosDef_diagonal {n : ℕ} (v : Fin n → ℚ) (hv : ∀ k, 0 < v k) :
    IsPosDef (Matrix.diagonal v) := by
  intro x hx
  have hq : Matrix.dotProduct x ((Matrix.diagonal v).mulVec x) = ∑ k : Fin n, v k * x k ^ 2 := by
    simp only [Matrix.dotProduct, Matrix.mulVec_diagonal]
    apply Finset.sum_congr rfl
    intro k _
    ring
  rw [hq]
  obtain ⟨k, hk⟩ : ∃ k, x k ≠ 0 := by
    by_contra hall
    apply hx
    funext k
    by_contra hk
    exact hall ⟨k, hk⟩
  apply Finset.sum_pos'
  · intro i _
    have := hv i
    positivity
  · exact ⟨k, Finset.mem_univ _, by have := hv k; positivity⟩

theorem demo_addCovarianceAll : addCovarianceAll demoFinal demoCovRecords = .done demoCov := by
  rw [addCovarianceAll_iff _ _ _ demoFinal_covSized]
  refine ⟨?_, by decide, rfl⟩
  intro r hr
  simp only [demoCovRecords, List.mem_cons, List.mem_singleton, List.not_mem_nil, or_false] at hr
  rcases hr with rfl | rfl | rfl <;>
    exact ⟨rfl, by decide, by decide, by decide, by decide, Or.inr (by norm_num), by decide⟩

theorem demo_addCovarianceAll_bad :
    addCovarianceAll demoFinal demoBadCovRecords = .done demoBadCov := by
  rw [addCovarianceAll_iff _ _ _ demoFinal_covSized]
  refine ⟨?_, by decide, rfl⟩
  intro r hr
  simp only [demoBadCovRecords, List.mem_cons, List.mem_singleton, List.not_mem_nil,
    or_false] at hr
  rcases hr with rfl | rfl | rfl | rfl
  · exact ⟨rfl, by decide, by decide, by decide, by decide, Or.inr (by norm_num), by decide⟩
  · exact ⟨rfl, by decide, by decide, by decide, by decide, Or.inr (by norm_num), by decide⟩
  · exact ⟨rfl, by decide, by decide, by decide, by decide, Or.inr (by norm_num), by decide⟩
  · exact ⟨rfl, by decide, by decide, by decide, by decide, Or.inl (by decide), by decide⟩

theorem demo_suppliedCov : suppliedCov 3 demoCovRecords = Matrix.diagonal ![1, 4, 9] := by
  ext i j
  fin_cases i <;> fin_cases j <;> simp [suppliedCov, suppliedAt, demoCovRecords, List.find?]

/-- C3. For the dataset built from any accepted data records and any accepted
covariance records whose supplied matrix `C` (entries without a record being
zero) is positive definite, `finalizeCovariance` runs to completion and marks
the covariance finalized, the covariance store is untouched and still holds
`C`, and the symmetric matrix unpacked from the stored inverse is a two-sided
inverse of `C` (in exact arithmetic). -/
theorem finalizeCovariance_inverse (m : Libm) (llBins sepBins zBins : AbsBinning)
    (cosmology : Cosmology) (records : List DataRecord) (covRecords : List CovRecord)
    (s1 s2 : LyaData)
    (h1 : addDataAll (LyaData.create m llBins sepBins zBins cosmology) records = .done s1)
    (h2 : addCovarianceAll s1.finalizeData covRecords = .done s2)
    (hpd : IsPosDef (suppliedCov records.length covRecords)) :
    ∃ s3, s2.finalizeCovariance = .done s3 ∧
      loadData m llBins sepBins zBins cosmology records covRecords = .done s3 ∧
      s3.covarianceFinalized = true ∧ s3.cov = s2.cov ∧
      unpackU records.length s3.cov = suppliedCov records.length covRecords ∧
      unpackU records.length s3.icov * suppliedCov records.length covRecords = 1 ∧
      suppliedCov records.length covRecords * unpackU records.length s3.icov = 1 := by
  obtain ⟨hlen, -, hsz, hfin, -, hzero, -⟩ := addDataAll_create h1
  have hC := unpackU_addCovarianceAll hsz hzero h2
  obtain ⟨-, -, g3⟩ := (addCovarianceAll_iff covRecords _ s2 hsz).1 h2
  have hf := foldl_filled_fields covRecords s1.finalizeData
  simp only [← g3] at hf
  have hlen2 : s2.data.length = records.length := by rw [hf.1]; exact hlen
  have hlen1 : s1.finalizeData.data.length = records.length := hlen
  rw [hlen1] at hC
  have hfin2 : s2.dataFinalized = true := by rw [hf.2.2.2.2.2.2.2.1]; exact hfin
  rw [← hC] at hpd ⊢
  rw [← hlen2] at hpd ⊢
  obtain ⟨hdone, hinv⟩ := finalizeCovariance_posDef s2 hfin2 hpd
  refine ⟨_, hdone, ?_, rfl, rfl, rfl, ?_, ?_⟩
  · unfold loadData
    rw [h1]
    simp only [Outcome.bind, h2]
    exact hdone
  · show unpackU s2.data.length s2.inverted.icov * unpackU s2.data.length s2.cov = 1
    rw [hinv]
    exact cramerInverse_mul _ hpd.det_ne_zero
  · show unpackU s2.data.length s2.cov * unpackU s2.data.length s2.inverted.icov = 1
    rw [hinv]
    exact mul_cramerInverse _ hpd.det_ne_zero

/-- C3, worked instance: for the three demonstration observations with
variances `1, 4, 9` the load runs to completion and the stored inverse times
the covariance is the identity. -/
theorem finalizeCovariance_inverse_witness :
    IsPosDef (suppliedCov demoRecords.length demoCovRecords) ∧
    ∃ s3, demoCov.finalizeCovariance = .done s3 ∧ s3.covarianceFinalized = true ∧
      unpackU 3 s3.icov * suppliedCov 3 demoCovRecords = 1 := by
  have hpd : IsPosDef (suppliedCov demoRecords.length demoCovRecords) := by
    show IsPosDef (suppliedCov 3 demoCovRecords)
    rw [demo_suppliedCov]
    apply isPosDef_diagonal
    intro k
    fin_cases k <;> simp
  obtain ⟨s3, a1, -, a3, -, -, a6, -⟩ := finalizeCovariance_inverse demoLibm (demoBinning 2)
    (demoBinning 3) (demoBinning 2) demoCosmology demoRecords demoCovRecords demoFilled demoCov
    demo_addDataAll demo_addCovarianceAll hpd
  exact ⟨hpd, s3, a1, a3, a6⟩

/-- C4. For the dataset built from any accepted data records and any accepted
covariance records whose supplied matrix (entries without a record being zero)
is not positive definite, `finalizeCovariance` stops at the assertion on the
status of the factorization: the status reported is not zero, the covariance
is not marked finalized, and the whole load fails in the same way. -/
theorem finalizeCovariance_rejects (m : Libm) (llBins sepBins zBins : AbsBinning)
    (cosmology : Cosmology) (records : List DataRecord) (covRecords : List CovRecord)
    (s1 s2 : LyaData)
    (h1 : addDataAll (LyaData.create m llBins sepBins zBins cosmology) records = .done s1)
    (h2 : addCovarianceAll s1.finalizeData covRecords = .done s2)
    (hpd : ¬ IsPosDef (suppliedCov records.length covRecords)) :
    ∃ info s3, s2.finalizeCovariance = .failed (.cholesky info) s3 ∧ info ≠ 0 ∧
      s3.covarianceFinalized = false ∧
      loadData m llBins sepBins zBins cosmology records covRecords
        = .failed (.cholesky info) s3 := by
  obtain ⟨hlen, -, hsz, hfin, hcf, hzero, -⟩ := addDataAll_create h1
  have hC := unpackU_addCovarianceAll hsz hzero h2
  obtain ⟨-, -, g3⟩ := (addCovarianceAll_iff covRecords _ s2 hsz).1 h2
  have hf := foldl_filled_fields covRecords s1.finalizeData
  simp only [← g3] at hf
  have hlen2 : s2.data.length = records.length := by rw [hf.1]; exact hlen
  have hlen1 : s1.finalizeData.data.length = records.length := hlen
  rw [hlen1] at hC
  have hfin2 : s2.dataFinalized = true := by rw [hf.2.2.2.2.2.2.2.1]; exact hfin
  have hcf2 : s2.covarianceFinalized = false := by rw [hf.2.2.2.2.2.2.2.2.1]; exact hcf
  rw [← hC] at hpd
  rw [← hlen2] at hpd
  obtain ⟨hfail, hne⟩ := finalizeCovariance_not_posDef s2 hfin2 hpd
  refine ⟨_, _, hfail, by exact_mod_cast hne, hcf2, ?_⟩
  unfold loadData
  rw [h1]
  simp only [Outcome.bind, h2]
  exact hfail

/-- C4, worked instance: with the extra entry `C[0][1] = 3` the supplied matrix
takes the value `-5` at `x = (3, -1, 0)`, the load stops with a non-zero status
and the covariance is not marked finalized. -/
theorem finalizeCovariance_rejects_witness :
    ¬ IsPosDef (suppliedCov demoRecords.length demoBadCovRecords) ∧
    ∃ info s3, demoBadCov.finalizeCovariance = .failed (.cholesky info) s3 ∧ info ≠ 0 ∧
      s3.covarianceFinalized = false := by
  have hpd : ¬ IsPosDef (suppliedCov demoRecords.length demoBadCovRecords) := by
    show ¬ IsPosDef (suppliedCov 3 demoBadCovRecords)
    intro h
    have := h ![3, -1, 0] (by
      intro e
      have := congrFun e 0
      simp at this)
    simp [Matrix.dotProduct, Matrix.mulVec, Fin.sum_univ_succ, suppliedCov, suppliedAt,
      demoBadCovRecords, List.find?] at this
    norm_num at this
  obtain ⟨info, s3, a1, a2, a3, -⟩ := finalizeCovariance_rejects demoLibm (demoBinning 2)
    (demoBinning 3) (demoBinning 2) demoCosmology demoRecords demoBadCovRecords demoFilled
    demoBadCov demo_addDataAll demo_addCovarianceAll_bad hpd
  exact ⟨hpd, info, s3, a1, a2, a3⟩

/-! ## C1 and C2: the objective -/

/-- The dataset that `loadData` returns. -/
theorem loadData_fields {m : Libm} {llBins sepBins zBins : AbsBinning} {cosmology : Cosmology}
    {records : List DataRecord} {covRecords : List CovRecord} {s : LyaData}
    (h : loadData m llBins sepBins zBins cosmology records covRecords = .done s) :
    ∃ s1 s2, addDataAll (LyaData.create m llBins sepBins zBins cosmology) records = .done s1 ∧
      addCovarianceAll s1.finalizeData covRecords = .done s2 ∧
      s2.finalizeCovariance = .done s ∧
      s.data = s1.data ∧ s.index = s1.index ∧ s.r3d = s1.r3d ∧ s.mu = s1.mu ∧
      s.cov = s2.cov ∧ s.data.length = records.length ∧
      s.dataFinalized = true ∧ s.covarianceFinalized = true ∧
      (∀ k, s.getRedshift k = s1.getRedshift k) ∧
      (∀ k < s.data.length, (s.getRedshift k).isSome) ∧
      IsPosDef (unpackU s.data.length s.cov) ∧
      unpackU s.data.length s.icov = cramerInverse (unpackU s.data.length s.cov) := by
  obtain ⟨s1, s2, h1, h2, h3⟩ := loadData_done h
  obtain ⟨hlen, -, hsz, hfin, -, -, hred⟩ := addDataAll_create h1
  obtain ⟨-, -, g3⟩ := (addCovarianceAll_iff covRecords _ s2 hsz).1 h2
  have hf := foldl_filled_fields covRecords s1.finalizeData
  simp only [← g3] at hf
  obtain ⟨f1, f2, f3, f4, -, f6, f7, f8, -, -, -⟩ := hf
  obtain ⟨hfin2, hpd⟩ := finalizeCovariance_done h3
  obtain ⟨hdone, hinv⟩ := finalizeCovariance_posDef s2 hfin2 hpd
  rw [h3] at hdone
  cases hdone
  have hr : ∀ k, s2.inverted.getRedshift k = s1.getRedshift k := by
    intro k
    show s2.redshiftBinning.getBinCenter ((s2.index.getD k 0).tmod s2.nz) = _
    rw [f2, f6, f7]
    rfl
  refine ⟨s1, s2, h1, h2, h3, f1, f2, f3, f4, rfl, ?_, hfin2, rfl, hr, ?_, hpd, hinv⟩
  · show s2.data.length = records.length
    rw [f1]; exact hlen
  · intro k hk
    rw [hr k]
    apply hred
    have : s2.data.length = records.length := by rw [f1]; exact hlen
    exact this ▸ hk

/-- C1. For the dataset that the loading sequence returns, every likelihood
made by the constructor (window `rmin < rmax`) and every parameter vector `p`:
data and covariance are both finalized; `getRedshift(k)` returns for every
observation; `operator()(p)` returns `0.5 * (dᵀ Inv d) / 1` with the
default error scale, and `0.5 * (dᵀ Inv d) / scale` after
`setErrorScale(scale)`, which accepts exactly `scale > 0`.  Here `d[k]` is
`residual`: `getData(k) - evaluate(getRadius(k), getCosAngle(k),
getRedshift(k), p)` when `rmin ≤ getRadius(k) ≤ rmax` and `0` otherwise, and
`Inv` is the symmetric matrix unpacked from the packed `_icov`. -/
theorem operatorCall_value (m : Libm) (llBins sepBins zBins : AbsBinning)
    (cosmology : Cosmology) (records : List DataRecord) (covRecords : List CovRecord)
    (s : LyaData) (model : LyaBaoModel) (rmin rmax : ℚ) (fixBao noBBand : Bool)
    (lik0 : LyaBaoLikelihood) (p : List ℚ)
    (hload : loadData m llBins sepBins zBins cosmology records covRecords = .done s)
    (hlik : LyaBaoLikelihood.create model rmin rmax fixBao noBBand = some lik0) :
    (s.dataFinalized = true ∧ s.covarianceFinalized = true) ∧
    (∀ k < s.data.length, (s.getRedshift k).isSome) ∧
    (∀ k : ℕ, lik0.residual s p k =
      if rmin ≤ s.getRadius k ∧ s.getRadius k ≤ rmax then
        s.getData k - model.evaluate (s.getRadius k) (s.getCosAngle k)
          ((s.getRedshift k).getD 0) p
      else 0) ∧
    (∃ s', lik0.operatorCall s p = some
      ((1/2) * Matrix.dotProduct (fun k : Fin s.data.length => lik0.residual s p k)
        ((unpackU s.data.length s.icov).mulVec
          (fun k : Fin s.data.length => lik0.residual s p k)) / 1, s')) ∧
    (∀ (scale : ℚ) (lik : LyaBaoLikelihood), lik0.setErrorScale scale = some lik →
      0 < scale ∧ (∀ k, lik.residual s p k = lik0.residual s p k) ∧
      ∃ s', lik.operatorCall s p = some
        ((1/2) * Matrix.dotProduct (fun k : Fin s.data.length => lik0.residual s p k)
          ((unpackU s.data.length s.icov).mulVec
            (fun k : Fin s.data.length => lik0.residual s p k)) / scale, s')) ∧
    (∀ scale : ℚ, scale ≤ 0 → lik0.setErrorScale scale = none) := by
  obtain ⟨s1, s2, -, -, -, -, -, -, -, -, -, hfd, hfc, -, hred, -, -⟩ := loadData_fields hload
  have hl : lik0.rmin = rmin ∧ lik0.rmax = rmax ∧ lik0.model = model ∧ lik0.errorScale = 1 := by
    unfold LyaBaoLikelihood.create at hlik
    split_ifs at hlik
    cases hlik
    exact ⟨rfl, rfl, rfl, rfl⟩
  refine ⟨⟨hfd, hfc⟩, hred, ?_, ?_, ?_, ?_⟩
  · intro k
    simp only [LyaBaoLikelihood.residual, hl.1, hl.2.1, hl.2.2.1]
  · obtain ⟨delta, -, -, hcall⟩ := operatorCall_eq lik0 s p (fun k hk _ => hred k hk)
    rw [hl.2.2.2] at hcall
    exact ⟨_, hcall⟩
  · intro scale lik hset
    unfold LyaBaoLikelihood.setErrorScale at hset
    split_ifs at hset with hpos
    cases hset
    refine ⟨hpos, fun k => rfl, ?_⟩
    obtain ⟨delta, -, -, hcall⟩ := operatorCall_eq { lik0 with errorScale := scale } s p
      (fun k hk _ => hred k hk)
    exact ⟨_, hcall⟩
  · intro scale hle
    unfold LyaBaoLikelihood.setErrorScale
    rw [if_neg (not_lt.mpr hle)]

theorem demo_loadData :
    loadData demoLibm (demoBinning 2) (demoBinning 3) (demoBinning 2) demoCosmology demoRecords
      demoCovRecords = .done demoLoaded := by
  have hpd : IsPosDef (unpackU demoCov.data.length demoCov.cov) := by
    have hz : ∀ k, demoFinal.cov.getD k 0 = 0 := by
      intro k
      have h6 : demoFinal.cov = [0, 0, 0, 0, 0, 0] := rfl
      rw [h6]
      rcases k with _ | _ | _ | _ | _ | _ | k <;> rfl
    have h := unpackU_addCovarianceAll demoFinal_covSized hz demo_addCovarianceAll
    have h3 : demoFinal.data.length = 3 := rfl
    have h3' : demoCov.data.length = 3 := rfl
    rw [h3] at h
    rw [h3', h, demo_suppliedCov]
    apply isPosDef_diagonal
    intro k
    fin_cases k <;> simp
  unfold loadData
  have h1 : addDataAll (LyaData.create demoLibm (demoBinning 2) (demoBinning 3) (demoBinning 2)
      demoCosmology) demoRecords = .done demoFilled := demo_addDataAll
  rw [h1]
  simp only [Outcome.bind]
  have h2 : addCovarianceAll demoFilled.finalizeData demoCovRecords = .done demoCov :=
    demo_addCovarianceAll
  rw [h2]
  exact (finalizeCovariance_posDef demoCov rfl hpd).1

theorem demo_create :
    LyaBaoLikelihood.create demoModel (4/9) (1444/225) false false = some demoLik := by
  unfold LyaBaoLikelihood.create
  rw [if_pos (by norm_num)]
  rfl

/-- C1, worked instance: for the loaded demonstration dataset and the window
`[4/9, 1444/225]`, `getRedshift` returns for the three observations and the
objective is returned with divisor `1`, and with divisor `2` after
`setErrorScale(2)`. -/
theorem operatorCall_value_witness :
    loadData demoLibm (demoBinning 2) (demoBinning 3) (demoBinning 2) demoCosmology demoRecords
      demoCovRecords = .done demoLoaded ∧
    LyaBaoLikelihood.create demoModel (4/9) (1444/225) false false = some demoLik ∧
    (demoLoaded.getRedshift 2).isSome ∧
    (∃ s', demoLik.operatorCall demoLoaded demoParams = some
      ((1/2) * Matrix.dotProduct (fun k : Fin 3 => demoLik.residual demoLoaded demoParams k)
        ((unpackU 3 demoLoaded.icov).mulVec
          (fun k : Fin 3 => demoLik.residual demoLoaded demoParams k)) / 1, s')) ∧
    (∃ s', LyaBaoLikelihood.operatorCall { demoLik with errorScale := 2 } demoLoaded demoParams
      = some
      ((1/2) * Matrix.dotProduct (fun k : Fin 3 => demoLik.residual demoLoaded demoParams k)
        ((unpackU 3 demoLoaded.icov).mulVec
          (fun k : Fin 3 => demoLik.residual demoLoaded demoParams k)) / 2, s')) := by
  have h := operatorCall_value demoLibm (demoBinning 2) (demoBinning 3) (demoBinning 2)
    demoCosmology demoRecords demoCovRecords demoLoaded demoModel (4/9) (1444/225) false false
    demoLik demoParams demo_loadData demo_create
  obtain ⟨-, a1, -, a3, a4, -⟩ := h
  have hset : demoLik.setErrorScale 2 = some { demoLik with errorScale := 2 } := by
    unfold LyaBaoLikelihood.setErrorScale
    rw [if_pos (by norm_num)]
  exact ⟨demo_loadData, demo_create, a1 2 (by decide), a3, (a4 2 _ hset).2.2⟩

theorem getVariance_eq_diag (s : LyaData) (k : Fin s.data.length) :
    s.getVariance k = unpackU s.data.length s.cov k k := by
  simp only [LyaData.getVariance, unpackU, symAt, min_self, max_self, packedIndex]
  congr 1
  have h : (k : ℕ) * ((k : ℕ) + 3) = (k : ℕ) * ((k : ℕ) + 1) + 2 * (k : ℕ) := by ring
  rw [h, Nat.add_mul_div_left _ _ (by norm_num : 0 < 2)]
  omega

/-- The chi-square of a dataset with a diagonal covariance. -/
theorem diagonal_covariance_quadratic (s : LyaData) (hf : s.dataFinalized = true)
    (v : Fin s.data.length → ℚ) (hdiag : unpackU s.data.length s.cov = Matrix.diagonal v)
    (hv : ∀ k, 0 < v k) :
    s.finalizeCovariance = .done s.inverted ∧
    (∀ k : Fin s.data.length, s.inverted.getVariance k = v k) ∧
    (∀ d : Fin s.data.length → ℚ,
      Matrix.dotProduct d ((unpackU s.data.length s.inverted.icov).mulVec d)
        = ∑ k : Fin s.data.length, d k ^ 2 / v k) := by
  have hpd : IsPosDef (unpackU s.data.length s.cov) := by
    rw [hdiag]; exact isPosDef_diagonal v hv
  obtain ⟨hdone, hinv⟩ := finalizeCovariance_posDef s hf hpd
  have hB : Matrix.diagonal (fun k => (v k)⁻¹) * unpackU s.data.length s.cov = 1 := by
    rw [hdiag, Matrix.diagonal_mul_diagonal]
    have : (fun i => (v i)⁻¹ * v i) = fun _ => (1 : ℚ) := by
      funext i
      exact inv_mul_cancel₀ (ne_of_gt (hv i))
    rw [this, Matrix.diagonal_one]
  have hI : unpackU s.data.length s.inverted.icov = Matrix.diagonal (fun k => (v k)⁻¹) := by
    rw [hinv]
    exact (eq_cramerInverse hpd.det_ne_zero hB).symm
  refine ⟨hdone, ?_, ?_⟩
  · intro k
    have := getVariance_eq_diag s k
    show s.getVariance k = v k
    rw [this, hdiag, Matrix.diagonal_apply_eq]
  · intro d
    rw [hI]
    simp only [Matrix.dotProduct, Matrix.mulVec_diagonal]
    apply Finset.sum_congr rfl
    intro k _
    rw [div_eq_mul_inv]
    ring

/-- C2. For the dataset built from any accepted data records and covariance
records whose supplied covariance is diagonal with variances `v k > 0`:
`finalizeCovariance` runs to completion, `getVariance(k)` is `v k`, for every
residual vector `delta` the value of `calculateChiSquare(delta)` is the sum of
`delta[k]^2 / v k`, and for every likelihood and parameter vector the
objective is `0.5 * (sum of residual(k)^2 / v k) / errorScale`. -/
theorem chiSquare_diagonal (m : Libm) (llBins sepBins zBins : AbsBinning)
    (cosmology : Cosmology) (records : List DataRecord) (covRecords : List CovRecord)
    (s1 s2 : LyaData) (v : Fin records.length → ℚ)
    (h1 : addDataAll (LyaData.create m llBins sepBins zBins cosmology) records = .done s1)
    (h2 : addCovarianceAll s1.finalizeData covRecords = .done s2)
    (hdiag : suppliedCov records.length covRecords = Matrix.diagonal v)
    (hv : ∀ k, 0 < v k) :
    s2.finalizeCovariance = .done s2.inverted ∧
    (∀ k : Fin records.length, s2.inverted.getVariance k = v k) ∧
    (∀ delta : List ℚ, (s2.inverted.calculateChiSquare delta).1
        = ∑ k : Fin records.length, delta.getD k 0 ^ 2 / v k) ∧
    (∀ (lik : LyaBaoLikelihood) (p : List ℚ), ∃ s',
      lik.operatorCall s2.inverted p = some
        ((1/2) * (∑ k : Fin records.length, lik.residual s2.inverted p k ^ 2 / v k)
          / lik.errorScale, s')) := by
  obtain ⟨hlen, -, hsz, hfin, -, hzero, -⟩ := addDataAll_create h1
  have hC := unpackU_addCovarianceAll hsz hzero h2
  obtain ⟨-, -, g3⟩ := (addCovarianceAll_iff covRecords _ s2 hsz).1 h2
  have hf := foldl_filled_fields covRecords s1.finalizeData
  simp only [← g3] at hf
  have hlen2 : s2.data.length = records.length := by rw [hf.1]; exact hlen
  have hlen1 : s1.finalizeData.data.length = records.length := hlen
  rw [hlen1] at hC
  have hfin2 : s2.dataFinalized = true := by rw [hf.2.2.2.2.2.2.2.1]; exact hfin
  rw [← hC] at hdiag
  revert v
  rw [← hlen2]
  intro v hdiag hv
  obtain ⟨c1, c2, c3⟩ := diagonal_covariance_quadratic s2 hfin2 v hdiag hv
  have hload : loadData m llBins sepBins zBins cosmology records covRecords = .done s2.inverted := by
    unfold loadData
    rw [h1]
    simp only [Outcome.bind, h2]
    exact c1
  obtain ⟨-, -, -, -, -, -, -, -, -, -, -, -, -, -, hred, -, -⟩ := loadData_fields hload
  refine ⟨c1, c2, ?_, ?_⟩
  · intro delta
    rw [(calculateChiSquare_eq s2.inverted delta).1]
    exact c3 _
  · intro lik p
    obtain ⟨delta, -, -, hcall⟩ := operatorCall_eq lik s2.inverted p (fun k hk _ => hred k hk)
    have e := c3 (fun k : Fin s2.data.length => lik.residual s2.inverted p k)
    have hx : ∃ s', lik.operatorCall s2.inverted p = some
        ((1/2) * Matrix.dotProduct (fun k : Fin s2.data.length => lik.residual s2.inverted p k)
          ((unpackU s2.data.length s2.inverted.icov).mulVec
            (fun k : Fin s2.data.length => lik.residual s2.inverted p k)) / lik.errorScale,
          s') := ⟨_, hcall⟩
    rw [e] at hx
    exact hx

theorem demo_residual (k : ℕ) (hk : k < 3) : demoLik.residual demoLoaded demoParams k = 1 := by
  have hr : demoLoaded.r3d = [4/9, 196/81, 1444/225] := rfl
  have hd : demoLoaded.data = [1, 1, 1] := rfl
  have he : ∀ r mu z : ℚ, demoModel.evaluate r mu z demoParams = 0 := by
    intro r mu z
    simp [LyaBaoModel.evaluate, demoModel, demoParams]
  simp only [LyaBaoLikelihood.residual, LyaData.getRadius, LyaData.getData, hr, hd, demoLik, he]
  rcases k with _ | _ | _ | k
  · norm_num
  · norm_num
  · norm_num
  · omega

/-- C2, worked instance: three observations, variances `[1, 4, 9]`, residuals
`[1, 1, 1]` with the first and the last separation exactly on the two ends of
the window: chi-square `1/1 + 1/4 + 1/9 = 49/36`, objective
`0.5 * (49/36) / errorScale` for the error scales `1` and `2`. -/
theorem chiSquare_diagonal_witness :
    suppliedCov demoRecords.length demoCovRecords = Matrix.diagonal ![1, 4, 9] ∧
    demoLoaded.getRadius 0 = demoLik.rmin ∧ demoLoaded.getRadius 2 = demoLik.rmax ∧
    (demoLoaded.calculateChiSquare [1, 1, 1]).1 = 49/36 ∧
    (demoLik.operatorCall demoLoaded demoParams).map Prod.fst = some (1/2 * (49/36) / 1) ∧
    (LyaBaoLikelihood.operatorCall { demoLik with errorScale := 2 } demoLoaded demoParams).map
      Prod.fst = some (1/2 * (49/36) / 2) := by
  have hpos : ∀ k : Fin demoRecords.length, 0 < (![1, 4, 9] : Fin 3 → ℚ) k := by
    intro k
    fin_cases k <;> simp
  have h := chiSquare_diagonal demoLibm (demoBinning 2) (demoBinning 3) (demoBinning 2)
    demoCosmology demoRecords demoCovRecords demoFilled demoCov ![1, 4, 9] demo_addDataAll
    demo_addCovarianceAll demo_suppliedCov hpos
  obtain ⟨-, -, a3, a4⟩ := h
  have hsum : ∀ f : Fin demoRecords.length → ℚ, (∀ k, f k = 1) →
      ∑ k : Fin demoRecords.length, f k ^ 2 / (![1, 4, 9] : Fin 3 → ℚ) k = 49/36 := by
    intro f hf
    show ∑ k : Fin 3, f k ^ 2 / (![1, 4, 9] : Fin 3 → ℚ) k = 49/36
    simp only [Fin.sum_univ_succ, hf]
    norm_num
  refine ⟨demo_suppliedCov, rfl, rfl, ?_, ?_, ?_⟩
  · have := a3 [1, 1, 1]
    rw [hsum _ (by
      intro k
      fin_cases k <;> rfl)] at this
    exact this
  · obtain ⟨s', hs'⟩ := a4 demoLik demoParams
    rw [hsum (fun k => demoLik.residual demoCov.inverted demoParams k)
      (fun k => demo_residual k k.2)] at hs'
    show (demoLik.operatorCall demoLoaded demoParams).map Prod.fst = _
    rw [show demoLoaded = demoCov.inverted from rfl, hs']
    rfl
  · obtain ⟨s', hs'⟩ := a4 { demoLik with errorScale := 2 } demoParams
    have hres : ∀ k : Fin demoRecords.length, LyaBaoLikelihood.residual
        { demoLik with errorScale := 2 } demoCov.inverted demoParams k = 1 :=
      fun k => demo_residual k k.2
    rw [hsum (fun k => LyaBaoLikelihood.residual { demoLik with errorScale := 2 }
      demoCov.inverted demoParams k) hres] at hs'
    rw [show demoLoaded = demoCov.inverted from rfl, hs']
    rfl

/-! ## C5: renumbering the observations -/

theorem permIndex_range {n : ℕ} (σ : Equiv.Perm (Fin n)) {i : ℤ} (h0 : 0 ≤ i) (hn : i < n) :
    0 ≤ permIndex σ i ∧ permIndex σ i < n ∧
      permIndex σ i = ((σ ⟨i.toNat, by omega⟩ : Fin n) : ℕ) := by
  unfold permIndex
  rw [dif_pos ⟨h0, hn⟩]
  refine ⟨by positivity, ?_, rfl⟩
  exact_mod_cast (σ ⟨i.toNat, by omega⟩).2

theorem permIndex_cast {n : ℕ} (σ : Equiv.Perm (Fin n)) (k : Fin n) :
    permIndex σ ((k : ℕ) : ℤ) = ((σ k : Fin n) : ℕ) := by
  have := (permIndex_range σ (i := ((k : ℕ) : ℤ)) (by positivity) (by exact_mod_cast k.2)).2.2
  rw [this]
  congr

/-- `addData` reads neither the covariance store nor the two flags: replacing
them replaces them in the outcome and changes nothing else. -/
theorem addData_store_irrelevant (s : LyaData) (cov' : List ℚ) (hasCov' : List Bool)
    (fd fc : Bool) (value logLambda separation redshift : ℚ) :
    (s.withStore cov' hasCov' fd fc).addData value logLambda separation redshift =
      (s.addData value logLambda separation redshift).map
        (fun u => u.withStore cov' hasCov' fd fc) := by
  unfold LyaData.addData
  simp only [LyaData.flatIndex, LyaData.transform, LyaData.withStore]
  cases s.logLambdaBinning.getBinIndex logLambda with
  | none => rfl
  | some a =>
    cases s.separationBinning.getBinIndex separation with
    | none => rfl
    | some b =>
      cases s.redshiftBinning.getBinIndex redshift with
      | none => rfl
      | some c =>
        simp only
        cases s.logLambdaBinning.getBinCenter a with
        | none => rfl
        | some ca =>
          cases s.separationBinning.getBinCenter b with
          | none => rfl
          | some cb =>
            cases s.redshiftBinning.getBinCenter c with
            | none => rfl
            | some cc =>
              simp only
              split_ifs
              all_goals first | rfl | (cases s.separationBinning.getBinSize b <;> rfl)

theorem finalizeData_eq_withStore (s : LyaData) :
    s.finalizeData = s.withStore s.finalizeData.cov s.finalizeData.hasCov true
      s.covarianceFinalized := rfl

/-- `finalizeData` sizes the covariance store for the observations present. -/
theorem finalizeData_covSized (s : LyaData) : s.finalizeData.CovSized := by
  have hn : ((s.getNData * (s.getNData + 1)).tdiv 2).toNat
      = s.data.length * (s.data.length + 1) / 2 := by
    have := @packedIndex_int 0 s.getNData le_rfl (by simp [LyaData.getNData])
    simp only [zero_add, packedIndex, Int.toNat_zero] at this
    rw [this, LyaData.getNData, Int.toNat_ofNat]
  constructor
  · show (vectorResize s.cov _ 0).length = _
    rw [length_vectorResize]
    exact hn
  · show (vectorResize s.hasCov _ false).length = _
    rw [length_vectorResize]
    exact hn

/-- A store sized for `n` observations is not sized for `n + 1`. -/
theorem tri_succ_ne (n : ℕ) : n * (n + 1) / 2 ≠ (n + 1) * (n + 1 + 1) / 2 := by
  rw [tri_succ]
  omega

/-- C11 (amended). `finalizeData` does not lock the observation list:
`addData` never reads `_dataFinalized`.  A call made after `finalizeData` is
accepted exactly when the same call is accepted before it, and stores the same
observation; the covariance store keeps the size `finalizeData` gave it, so
after an accepted call the dataset holds one observation more than the store
is sized for. -/
theorem addData_after_finalizeData (s : LyaData) (value logLambda separation redshift : ℚ) :
    (∀ t, s.finalizeData.addData value logLambda separation redshift = .done t ↔
      ∃ u, s.addData value logLambda separation redshift = .done u ∧
        t = u.withStore s.finalizeData.cov s.finalizeData.hasCov true s.covarianceFinalized) ∧
    (∀ t, s.finalizeData.addData value logLambda separation redshift = .done t →
      t.dataFinalized = true ∧ t.getNData = s.finalizeData.getNData + 1 ∧
      t.cov = s.finalizeData.cov ∧ t.hasCov = s.finalizeData.hasCov ∧
      s.finalizeData.CovSized ∧ ¬ t.CovSized) := by
  have hmap := addData_store_irrelevant s s.finalizeData.cov s.finalizeData.hasCov true
    s.covarianceFinalized value logLambda separation redshift
  rw [← finalizeData_eq_withStore] at hmap
  have hiff : ∀ t, s.finalizeData.addData value logLambda separation redshift = .done t ↔
      ∃ u, s.addData value logLambda separation redshift = .done u ∧
        t = u.withStore s.finalizeData.cov s.finalizeData.hasCov true s.covarianceFinalized := by
    intro t
    rw [hmap]
    cases s.addData value logLambda separation redshift with
    | done u =>
      simp only [Outcome.map, Outcome.done.injEq]
      constructor
      · intro h; exact ⟨u, rfl, h.symm⟩
      · rintro ⟨u', rfl, rfl⟩; rfl
    | failed why u =>
      simp only [Outcome.map]
      constructor
      · intro h; cases h
      · rintro ⟨u', h, -⟩; cases h
  refine ⟨hiff, ?_⟩
  intro t ht
  obtain ⟨-, -, -, -, -, f6, -, -, f9, -, -, -, -, f14, -, f16, -⟩ := addData_frame ht
  have hsz := finalizeData_covSized s
  refine ⟨f14, ?_, f6, f9, hsz, ?_⟩
  · simp only [LyaData.getNData, f16]; push_cast; rfl
  · rintro ⟨h1, -⟩
    rw [f6, hsz.1, f16] at h1
    exact tri_succ_ne _ h1

/-- A fourth record, at the center of bin `(1, 0, 0)`, is accepted by the
demonstration dataset after `finalizeData`. -/
theorem demo_addData_late :
    demoFilled.finalizeData.addData 1 (3/2) (1/2) (1/2) =
      .done (demoFilled.finalizeData.stored 1 (demoFilled.finalizeData.flatIndex 1 0 0)
        (demoFilled.finalizeData.transform (3/2) (1/2) (1/2) 1).1
        (demoFilled.finalizeData.transform (3/2) (1/2) (1/2) 1).2) := by
  have e1 : demoFilled.finalizeData.logLambdaBinning.getBinIndex (3/2) = some 1 := by
    have h := demoBinning_getBinIndex 2 1 (by decide) (by decide)
    have e : ((1 : ℤ) : ℚ) + 1/2 = 3/2 := by norm_num
    rw [e] at h
    exact h
  have e2 : demoFilled.finalizeData.separationBinning.getBinIndex (1/2) = some 0 := by
    have h := demoBinning_getBinIndex 3 0 (by decide) (by decide)
    have e : ((0 : ℤ) : ℚ) + 1/2 = 1/2 := by norm_num
    rw [e] at h
    exact h
  have e3 : demoFilled.finalizeData.redshiftBinning.getBinIndex (1/2) = some 0 := by
    have h := demoBinning_getBinIndex 2 0 (by decide) (by decide)
    have e : ((0 : ℤ) : ℚ) + 1/2 = 1/2 := by norm_num
    rw [e] at h
    exact h
  have e4 : demoFilled.finalizeData.logLambdaBinning.getBinCenter 1 = some (3/2) := by
    have h := demoBinning_getBinCenter 2 1 (by decide) (by decide)
    have e : ((1 : ℤ) : ℚ) + 1/2 = 3/2 := by norm_num
    rw [e] at h
    exact h
  have e5 : demoFilled.finalizeData.separationBinning.getBinCenter 0 = some (1/2) := by
    have h := demoBinning_getBinCenter 3 0 (by decide) (by decide)
    have e : ((0 : ℤ) : ℚ) + 1/2 = 1/2 := by norm_num
    rw [e] at h
    exact h
  have e6 : demoFilled.finalizeData.redshiftBinning.getBinCenter 0 = some (1/2) := by
    have h := demoBinning_getBinCenter 2 0 (by decide) (by decide)
    have e : ((0 : ℤ) : ℚ) + 1/2 = 1/2 := by norm_num
    rw [e] at h
    exact h
  exact @addData_accept demoFilled.finalizeData 1 (3/2) (1/2) (1/2) 1 0 0 (3/2) (1/2) (1/2) 1
    e1 e2 e3 e4 e5 e6 (by norm_num) (by norm_num) (by norm_num) (by decide) rfl

/-- C11 fails as stated: the demonstration dataset of three observations,
after `finalizeData` (a store of `3*4/2` slots), accepts a fourth record at
the center of the free bin `(1, 0, 0)`; it then holds four observations and
the store still has `3*4/2` slots. -/
theorem addData_after_finalizeData_accepted :
    addDataAll demoEmpty demoRecords = .done demoFilled ∧
    demoFilled.finalizeData.dataFinalized = true ∧
    demoFilled.finalizeData.getNData = 3 ∧
    demoFilled.finalizeData.cov.length = 3 * (3 + 1) / 2 ∧
    ∃ t, demoFilled.finalizeData.addData 1 (3/2) (1/2) (1/2) = .done t ∧ t.getNData = 4 ∧
      t.cov.length = 3 * (3 + 1) / 2 :=
  ⟨demo_addDataAll, rfl, by decide, by decide, _, demo_addData_late, by decide, by decide⟩

/-- C11 (amended), worked instance: the fourth record is accepted before and
after `finalizeData` of the demonstration dataset, with the same stored
observation, and afterwards the store is no longer sized for the data. -/
theorem addData_after_finalizeData_witness :
    ∃ t u, demoFilled.finalizeData.addData 1 (3/2) (1/2) (1/2) = .done t ∧
      demoFilled.addData 1 (3/2) (1/2) (1/2) = .done u ∧
      t = u.withStore demoFilled.finalizeData.cov demoFilled.finalizeData.hasCov true false ∧
      t.dataFinalized = true ∧ t.getNData = demoFilled.finalizeData.getNData + 1 ∧
      demoFilled.finalizeData.CovSized ∧ ¬ t.CovSized := by
  have h := addData_after_finalizeData demoFilled 1 (3/2) (1/2) (1/2)
  obtain ⟨u, hu, ht⟩ := (h.1 _).1 demo_addData_late
  obtain ⟨a, b, -, -, c, d⟩ := h.2 _ demo_addData_late
  exact ⟨_, u, demo_addData_late, hu, ht, a, b, c, d⟩

/-! ## C12: `addCovariance` after `finalizeCovariance` -/

/-- C12 (amended). `finalizeCovariance` does not lock the covariance store:
`addCovariance` never reads `_covarianceFinalized`.  After a completed
`finalizeCovariance` a call is accepted exactly under the checks made before
it (indices in range, positive diagonal value, slot not yet filled), which is
exactly when the same call is accepted before `finalizeCovariance`, and it then
writes its value into the stored covariance.  A call for a slot that is
already filled is rejected, a rejected call leaves the dataset as it was, and
the stored inverse is the same after every call. -/
theorem addCovariance_after_finalizeCovariance (s s' : LyaData)
    (h : s.finalizeCovariance = .done s') (i j : ℤ) (value : ℚ) :
    s'.covarianceFinalized = true ∧
    (∀ t, s'.addCovariance i j value = .done t ↔
      (0 ≤ min i j ∧ max i j < s'.getNData ∧ (i ≠ j ∨ 0 < value) ∧
        s'.hasCov.getD (covSlot i j) false = false) ∧ t = s'.filled (covSlot i j) value) ∧
    (∀ t, s'.addCovariance i j value = .done t ↔
      ∃ u, s.addCovariance i j value = .done u ∧
        t = { u with icov := s'.icov, covarianceFinalized := true }) ∧
    (∀ t, s'.addCovariance i j value = .done t →
      t.icov = s'.icov ∧ t.cov = s'.cov.set (covSlot i j) value ∧
      t.covarianceFinalized = true) ∧
    (s'.hasCov.getD (covSlot i j) false = true →
      s'.addCovariance i j value = .failed .contract s') ∧
    (∀ why t, s'.addCovariance i j value = .failed why t → t = s') := by
  obtain ⟨hf, hpd⟩ := finalizeCovariance_done h
  have hs' : s' = s.inverted := by
    have := (finalizeCovariance_posDef s hf hpd).1
    rw [this] at h
    cases h
    rfl
  subst hs'
  have hfin : s.inverted.dataFinalized = true := hf
  have hacc : ∀ t, s.inverted.addCovariance i j value = .done t ↔
      (0 ≤ min i j ∧ max i j < s.inverted.getNData ∧ (i ≠ j ∨ 0 < value) ∧
        s.inverted.hasCov.getD (covSlot i j) false = false) ∧
      t = s.inverted.filled (covSlot i j) value := by
    intro t
    rw [addCovariance_eq]
    split_ifs with hc
    · constructor
      · intro e
        cases e
        exact ⟨hc.2, rfl⟩
      · rintro ⟨-, rfl⟩
        rfl
    · constructor
      · intro e
        cases e
      · rintro ⟨hc', -⟩
        exact absurd ⟨hfin, hc'⟩ hc
  refine ⟨rfl, hacc, ?_, ?_, ?_, ?_⟩
  · intro t
    rw [hacc]
    constructor
    · rintro ⟨hc, rfl⟩
      refine ⟨s.filled (covSlot i j) value, ?_, rfl⟩
      rw [addCovariance_eq, if_pos ⟨hf, hc⟩]
      rfl
    · rintro ⟨u, hu, rfl⟩
      obtain ⟨hc, rfl⟩ := addCovariance_done hu
      exact ⟨hc.2, rfl⟩
  · intro t ht
    obtain ⟨-, rfl⟩ := (hacc t).1 ht
    exact ⟨rfl, rfl, rfl⟩
  · intro hfilled
    rw [addCovariance_eq, if_neg]
    rintro ⟨-, -, -, -, hun⟩
    rw [hfilled] at hun
    exact Bool.noConfusion hun
  · intro why t ht
    rw [addCovariance_eq] at ht
    split_ifs at ht
    cases ht
    rfl

theorem demo_addCovariance_late :
    demoLoaded.addCovariance 0 1 3 = .done (demoLoaded.filled 1 3) := by
  rw [addCovariance_eq, if_pos]
  · rfl
  · exact ⟨rfl, by decide, by decide, Or.inl (by decide), by decide⟩

/-- C12 fails as stated: on the demonstration dataset as `main` loads it
(variances `1, 4, 9`, covariance finalized) the call `addCovariance(0,1,3)`
is accepted and changes slot `1` of the stored covariance from `0` to `3`. -/
theorem addCovariance_after_finalizeCovariance_accepted :
    loadData demoLibm (demoBinning 2) (demoBinning 3) (demoBinning 2) demoCosmology demoRecords
      demoCovRecords = .done demoLoaded ∧
    demoLoaded.covarianceFinalized = true ∧
    demoLoaded.addCovariance 0 1 3 = .done (demoLoaded.filled 1 3) ∧
    demoLoaded.cov.getD 1 0 = 0 ∧ (demoLoaded.filled 1 3).cov.getD 1 0 = 3 ∧
    (demoLoaded.filled 1 3).cov ≠ demoLoaded.cov := by
  refine ⟨demo_loadData, rfl, demo_addCovariance_late, by decide, by decide, ?_⟩
  intro h
  have := congrArg (fun l => l.getD 1 0) h
  revert this
  decide

/-- C12 (amended), worked instance: after `finalizeCovariance` of the
demonstration dataset `addCovariance(1,1,5)` is rejected (the slot is filled)
and `addCovariance(0,1,3)` is accepted, writes slot `1` and leaves the inverse
alone. -/
theorem addCovariance_after_finalizeCovariance_witness :
    demoCov.finalizeCovariance = .done demoLoaded ∧
    demoLoaded.addCovariance 1 1 5 = .failed .contract demoLoaded ∧
    ∃ t, demoLoaded.addCovariance 0 1 3 = .done t ∧ t.icov = demoLoaded.icov ∧
      t.cov = demoLoaded.cov.set (covSlot 0 1) 3 := by
  have hfin : demoCov.finalizeCovariance = .done demoLoaded := by
    obtain ⟨s1, s2, h1, h2, h3⟩ := loadData_done demo_loadData
    have e1 : s1 = demoFilled := by
      have := h1.symm.trans demo_addDataAll
      cases this
      rfl
    subst e1
    have e2 : s2 = demoCov := by
      have := h2.symm.trans demo_addCovarianceAll
      cases this
      rfl
    subst e2
    exact h3
  have h11 := addCovariance_after_finalizeCovariance demoCov demoLoaded hfin 1 1 5
  have h01 := addCovariance_after_finalizeCovariance demoCov demoLoaded hfin 0 1 3
  refine ⟨hfin, h11.2.2.2.2.1 (by decide), _, demo_addCovariance_late, ?_⟩
  obtain ⟨a, b, -⟩ := h01.2.2.2.1 _ demo_addCovariance_late
  exact ⟨a, b⟩

/-! ## C13: chi-square without finalization -/

/-- `calculateChiSquare` and `operator()` read neither of the two flags: with
the flags replaced they return the same number. -/
theorem chiSquare_ignores_flags (lik : LyaBaoLikelihood) (s : LyaData) (fd fc : Bool)
    (delta p : List ℚ) :
    ((s.withStore s.cov s.hasCov fd fc).calculateChiSquare delta).1
        = (s.calculateChiSquare delta).1 ∧
    (lik.operatorCall (s.withStore s.cov s.hasCov fd fc) p).map Prod.fst
        = (lik.operatorCall s p).map Prod.fst := by
  have hfill : ∀ (ks : List ℕ) (d : List ℚ),
      lik.fillDelta (s.withStore s.cov s.hasCov fd fc) p ks d = lik.fillDelta s p ks d := by
    intro ks
    induction ks with
    | nil => intro d; rfl
    | cons k rest ih =>
      intro d
      unfold LyaBaoLikelihood.fillDelta
      simp only [ih]
      rfl
  constructor
  · rfl
  · unfold LyaBaoLikelihood.operatorCall
    have hn : (s.withStore s.cov s.hasCov fd fc).getNData = s.getNData := rfl
    simp only [hn, hfill]
    cases lik.fillDelta s p (List.range s.getNData.toNat) (List.replicate s.getNData.toNat 0) with
    | none => rfl
    | some d => rfl

/-- C13, the code at the failing input.  On the freshly constructed dataset
(neither finalization called, no observations) `calculateChiSquare` returns
`0` and `operator()` returns `0`; on the three-observation dataset whose
covariance has been entered but not finalized (`_icov` still empty)
`operator()` returns a number as well.  No assertion guards either call. -/
theorem chiSquare_before_finalization :
    demoEmpty.dataFinalized = false ∧ demoEmpty.covarianceFinalized = false ∧
    demoEmpty.getNData = 0 ∧
    (demoEmpty.calculateChiSquare []).1 = 0 ∧
    (demoLik.operatorCall demoEmpty demoParams).map Prod.fst = some 0 ∧
    demoCov.dataFinalized = true ∧ demoCov.covarianceFinalized = false ∧
    demoCov.getNData = 3 ∧ demoCov.icov = [] ∧
    (demoLik.operatorCall demoCov demoParams).isSome = true := by
  refine ⟨rfl, rfl, rfl, ?_, ?_, rfl, rfl, by decide, rfl, ?_⟩
  · simp [LyaData.calculateChiSquare, demoEmpty, LyaData.create, LyaData.getNData]
  · simp [LyaBaoLikelihood.operatorCall, LyaBaoLikelihood.fillDelta, LyaData.calculateChiSquare,
      demoEmpty, LyaData.create, LyaData.getNData, demoLik]
  · have hz : ∀ k < demoCov.data.length,
        demoLik.rmin ≤ demoCov.getRadius k ∧ demoCov.getRadius k ≤ demoLik.rmax →
        (demoCov.getRedshift k).isSome := by
      intro k hk _
      have h3 : demoCov.data.length = 3 := rfl
      rw [h3] at hk
      have hk' : k = 0 ∨ k = 1 ∨ k = 2 := by omega
      rcases hk' with rfl | rfl | rfl <;> decide
    obtain ⟨delta, -, -, h⟩ := operatorCall_eq demoLik demoCov demoParams hz
    rw [h]
    rfl

/-! ## `UniformBinning` in exact arithmetic -/

/-- In exact arithmetic, for a `UniformBinning(nBins, lowEdge, binSize)` that
passes the constructor's checks and every index `0 ≤ i < nBins`:
`getBinCenter(i)` is the midpoint `getBinLowEdge(i) + 0.5*getBinSize(i)` and
`getBinIndex` of it is `i`. -/
theorem uniform_center_exact (nBins : ℤ) (lowEdge binSize : ℚ) (b : UniformBinning)
    (hb : UniformBinning.create nBins lowEdge binSize = some b) (i : ℤ) (h0 : 0 ≤ i)
    (h1 : i < nBins) :
    ∃ lo size, b.getBinLowEdge i = some lo ∧ b.getBinSize i = some size ∧
      b.getBinCenter i = some (lo + (1/2) * size) ∧
      b.getBinIndex (lo + (1/2) * size) = some i := by
  unfold UniformBinning.create at hb
  split_ifs at hb with hc
  cases hb
  obtain ⟨-, hs⟩ := hc
  have hlo : UniformBinning.getBinLowEdge ⟨nBins, lowEdge, binSize⟩ i
      = some (lowEdge + i * binSize) := by
    unfold UniformBinning.getBinLowEdge
    rw [if_pos ⟨h0, le_of_lt h1⟩]
  refine ⟨lowEdge + i * binSize, binSize, hlo, rfl, ?_, ?_⟩
  · unfold UniformBinning.getBinCenter
    rw [hlo]
    rfl
  · have hf : ⌊(lowEdge + (i : ℚ) * binSize + (1/2) * binSize - lowEdge) / binSize⌋ = i := by
      rw [Int.floor_eq_iff]
      have hne : binSize ≠ 0 := ne_of_gt hs
      have e : (lowEdge + (i : ℚ) * binSize + (1/2) * binSize - lowEdge) / binSize
          = (i : ℚ) + 1/2 := by
        field_simp
        ring
      rw [e]
      constructor <;> linarith
    unfold UniformBinning.getBinIndex
    simp only [hf]
    rw [if_pos ⟨h0, h1⟩]

/-- In exact arithmetic, for a `UniformBinning(nBins, lowEdge, binSize)` that
passes the constructor's checks and every value: `getBinIndex(value)` returns
exactly when
`lowEdge ≤ value < lowEdge + nBins*binSize`; what it returns is
`floor((value - lowEdge)/binSize)`, a bin in `[0, nBins)` whose edges
`getBinLowEdge(i) ≤ value < getBinLowEdge(i+1)` bracket the value, and it is the
only such bin; outside the range the range assertion fires (no sentinel is
returned). -/
theorem uniform_getBinIndex_exact (nBins : ℤ) (lowEdge binSize : ℚ) (b : UniformBinning)
    (hb : UniformBinning.create nBins lowEdge binSize = some b) (value : ℚ) :
    ((∃ i, b.getBinIndex value = some i) ↔
      lowEdge ≤ value ∧ value < lowEdge + nBins * binSize) ∧
    (∀ i, b.getBinIndex value = some i →
      i = ⌊(value - lowEdge) / binSize⌋ ∧ 0 ≤ i ∧ i < nBins ∧
      ∃ lo hi, b.getBinLowEdge i = some lo ∧ b.getBinLowEdge (i + 1) = some hi ∧
        lo ≤ value ∧ value < hi) ∧
    (∀ i lo hi, 0 ≤ i → i < nBins → b.getBinLowEdge i = some lo →
      b.getBinLowEdge (i + 1) = some hi → lo ≤ value → value < hi →
      b.getBinIndex value = some i) ∧
    (¬ (lowEdge ≤ value ∧ value < lowEdge + nBins * binSize) → b.getBinIndex value = none) := by
  unfold UniformBinning.create at hb
  split_ifs at hb with hc
  cases hb
  obtain ⟨-, hs⟩ := hc
  -- the floor lies in `[0, nBins)` exactly when the value lies in the covered range
  have hrange : (0 ≤ ⌊(value - lowEdge) / binSize⌋ ∧ ⌊(value - lowEdge) / binSize⌋ < nBins) ↔
      (lowEdge ≤ value ∧ value < lowEdge + nBins * binSize) := by
    rw [Int.le_floor, Int.floor_lt, le_div_iff₀ hs, div_lt_iff₀ hs]
    constructor
    · rintro ⟨h1, h2⟩
      constructor
      · push_cast at h1; linarith
      · linarith
    · rintro ⟨h1, h2⟩
      constructor
      · push_cast; linarith
      · linarith
  -- edges of a bin bracket the value exactly when the bin is the floor
  have hedge : ∀ i : ℤ, (lowEdge + (i : ℚ) * binSize ≤ value ∧
      value < lowEdge + ((i + 1 : ℤ) : ℚ) * binSize) ↔ ⌊(value - lowEdge) / binSize⌋ = i := by
    intro i
    rw [Int.floor_eq_iff, le_div_iff₀ hs, div_lt_iff₀ hs]
    push_cast
    constructor
    · rintro ⟨h1, h2⟩
      constructor <;> linarith
    · rintro ⟨h1, h2⟩
      constructor <;> linarith
  have hidx : ∀ i, UniformBinning.getBinIndex ⟨nBins, lowEdge, binSize⟩ value = some i ↔
      (⌊(value - lowEdge) / binSize⌋ = i ∧ 0 ≤ i ∧ i < nBins) := by
    intro i
    unfold UniformBinning.getBinIndex
    simp only
    split_ifs with h
    · constructor
      · intro e
        cases e
        exact ⟨rfl, h.1, h.2⟩
      · rintro ⟨e, -, -⟩
        rw [e]
    · constructor
      · intro e
        cases e
      · rintro ⟨e, h0, h1⟩
        exact absurd (by rw [e]; exact ⟨h0, h1⟩) h
  have hlow : ∀ i : ℤ, 0 ≤ i → i ≤ nBins →
      UniformBinning.getBinLowEdge ⟨nBins, lowEdge, binSize⟩ i
        = some (lowEdge + (i : ℚ) * binSize) := by
    intro i h0 h1
    unfold UniformBinning.getBinLowEdge
    rw [if_pos ⟨h0, h1⟩]
  refine ⟨?_, ?_, ?_, ?_⟩
  · rw [← hrange]
    constructor
    · rintro ⟨i, hi⟩
      obtain ⟨e, h0, h1⟩ := (hidx i).1 hi
      rw [e]
      exact ⟨h0, h1⟩
    · intro h
      exact ⟨_, (hidx _).2 ⟨rfl, h.1, h.2⟩⟩
  · intro i hi
    obtain ⟨e, h0, h1⟩ := (hidx i).1 hi
    have hb := (hedge i).2 e
    exact ⟨e.symm, h0, h1, _, _, hlow i h0 (le_of_lt h1), hlow (i + 1) (by omega) (by omega),
      hb.1, hb.2⟩
  · intro i lo hi h0 h1 hlo hhi hle hlt
    rw [hlow i h0 (le_of_lt h1)] at hlo
    rw [hlow (i + 1) (by omega) (by omega)] at hhi
    cases hlo
    cases hhi
    exact (hidx i).2 ⟨(hedge i).1 ⟨hle, hlt⟩, h0, h1⟩
  · intro hn
    rw [← hrange] at hn
    unfold UniformBinning.getBinIndex
    simp only
    rw [if_neg hn]

/-! ## C17: `VariableBinning` -/

/-- The edges of a strictly increasing list grow with the position. -/
theorem sorted_getD_lt {l : List ℚ} (hs : l.Sorted (· < ·)) {i j : ℕ} (hij : i < j)
    (hj : j < l.length) : l.getD i 0 < l.getD j 0 := by
  rw [List.getD_eq_getElem l 0 (lt_trans hij hj), List.getD_eq_getElem l 0 hj]
  exact List.pairwise_iff_getElem.1 hs i j (lt_trans hij hj) hj hij

theorem sorted_getD_le {l : List ℚ} (hs : l.Sorted (· < ·)) {i j : ℕ} (hij : i ≤ j)
    (hj : j < l.length) : l.getD i 0 ≤ l.getD j 0 := by
  rcases Nat.eq_or_lt_of_le hij with h | h
  · rw [h]
  · exact le_of_lt (sorted_getD_lt hs h hj)

/-- What the scan of `VariableBinning::getBinIndex` returns when it starts at
position `bin` of the edge list `l` and every edge before that position is
at most `value`. -/
theorem scan_spec (value : ℚ) (l : List ℚ) :
    ∀ (rest pre : List ℚ), l = pre ++ rest → pre ≠ [] → (∀ x ∈ pre, x ≤ value) →
      (VariableBinning.scan value rest pre.length = -1 ↔ ∀ x ∈ rest, x ≤ value) ∧
      (VariableBinning.scan value rest pre.length ≠ -1 →
        0 ≤ VariableBinning.scan value rest pre.length ∧
        (VariableBinning.scan value rest pre.length).toNat + 1 < l.length ∧
        l.getD (VariableBinning.scan value rest pre.length).toNat 0 ≤ value ∧
        value < l.getD ((VariableBinning.scan value rest pre.length).toNat + 1) 0) := by
  intro rest
  induction rest with
  | nil =>
    intro pre _ _ _
    simp [VariableBinning.scan]
  | cons e rest ih =>
    intro pre hl hpre hle
    have hpos : 0 < pre.length := List.length_pos.2 hpre
    unfold VariableBinning.scan
    split_ifs with hv
    · have hk : (((pre.length : ℤ) - 1).toNat) = pre.length - 1 := by omega
      refine ⟨?_, ?_⟩
      · constructor
        · intro h; omega
        · intro h
          exact absurd (h e (List.mem_cons_self _ _)) (not_le.2 hv)
      · intro _
        refine ⟨by omega, ?_, ?_, ?_⟩
        · rw [hk, hl, List.length_append, List.length_cons]; omega
        · rw [hk, hl, List.getD_append _ _ _ _ (by omega)]
          apply hle
          rw [List.getD_eq_getElem _ _ (by omega)]
          exact List.getElem_mem _
        · rw [hk, hl, List.getD_append_right _ _ _ _ (by omega)]
          have : pre.length - 1 + 1 - pre.length = 0 := by omega
          rw [this]
          exact hv
    · have h := ih (pre ++ [e]) (by rw [hl]; simp) (by simp) (by
        intro x hx
        rcases List.mem_append.1 hx with h | h
        · exact hle x h
        · rw [List.mem_singleton] at h
          rw [h]; exact not_lt.1 hv)
      have hlen : ((pre ++ [e]).length : ℤ) = (pre.length : ℤ) + 1 := by
        rw [List.length_append, List.length_singleton]; push_cast; rfl
      rw [hlen] at h
      refine ⟨?_, h.2⟩
      rw [h.1]
      constructor
      · intro hx x hm
        rcases List.mem_cons.1 hm with h' | h'
        · rw [h']; exact not_lt.1 hv
        · exact hx x h'
      · intro hx x hm
        exact hx x (List.mem_cons_of_mem _ hm)

/-- C17. For a `VariableBinning` over strictly increasing edges
`e_0 < ... < e_N`, `N ≥ 1`, and every value `v`: `getBinIndex(v)` returns; it
returns the sentinel `-1` exactly when `v < e_0` or `v ≥ e_N`, and otherwise a
bin `r` in `[0, N)` with `e_r ≤ v < e_(r+1)`, which is the only such bin. -/
theorem variable_getBinIndex_total (edges : List ℚ) (hs : edges.Sorted (· < ·))
    (hN : 2 ≤ edges.length) (v : ℚ) :
    ∃ r, VariableBinning.getBinIndex ⟨edges⟩ v = some r ∧
      (r = -1 ↔ (v < edges.getD 0 0 ∨ edges.getD (edges.length - 1) 0 ≤ v)) ∧
      (r ≠ -1 → 0 ≤ r ∧ r < VariableBinning.getNBins ⟨edges⟩ ∧
        edges.getD r.toNat 0 ≤ v ∧ v < edges.getD (r.toNat + 1) 0) ∧
      (∀ i : ℕ, i + 1 < edges.length → edges.getD i 0 ≤ v → v < edges.getD (i + 1) 0 →
        r = (i : ℤ)) := by
  -- a bracketing bin is unique among strictly increasing edges
  have huniq : ∀ i k : ℕ, i + 1 < edges.length → k + 1 < edges.length →
      edges.getD i 0 ≤ v → v < edges.getD (i + 1) 0 →
      edges.getD k 0 ≤ v → v < edges.getD (k + 1) 0 → k = i := by
    intro i k hi hk a1 a2 b1 b2
    by_contra hne
    rcases Nat.lt_or_gt_of_ne hne with h | h
    · have := sorted_getD_le hs (show k + 1 ≤ i by omega) (by omega)
      linarith
    · have := sorted_getD_le hs (show i + 1 ≤ k by omega) (by omega)
      linarith
  match edges, hs, hN, huniq with
  | [], _, hN, _ => simp at hN
  | e0 :: rest, hs, hN, huniq =>
    have hlast : ∀ x ∈ e0 :: rest, x ≤ (e0 :: rest).getD ((e0 :: rest).length - 1) 0 := by
      intro x hx
      obtain ⟨k, hk, rfl⟩ := List.getElem_of_mem hx
      rw [← List.getD_eq_getElem _ 0 hk]
      exact sorted_getD_le hs (by omega) (by simp)
    unfold VariableBinning.getBinIndex
    simp only
    split_ifs with hv
    · refine ⟨-1, rfl, ?_, ?_, ?_⟩
      · simp only [true_iff]
        left
        exact hv
      · intro h; exact absurd rfl h
      · intro i hi a1 _
        have : (e0 :: rest).getD 0 0 ≤ (e0 :: rest).getD i 0 :=
          sorted_getD_le hs (Nat.zero_le _) (by omega)
        have h0 : (e0 :: rest).getD 0 0 = e0 := rfl
        linarith
    · have hsp := scan_spec v (e0 :: rest) rest [e0] rfl (by simp) (by
        intro x hx
        rw [List.mem_singleton] at hx
        rw [hx]; exact not_lt.1 hv)
      simp only [List.length_singleton, Nat.cast_one] at hsp
      refine ⟨_, rfl, ?_, ?_, ?_⟩
      · rw [hsp.1]
        constructor
        · intro h
          right
          have hm : (e0 :: rest).getD ((e0 :: rest).length - 1) 0 ∈ rest := by
            have hl : (e0 :: rest).length - 1 = (rest.length - 1) + 1 := by
              simp only [List.length_cons] at hN ⊢
              omega
            rw [hl]
            show rest.getD (rest.length - 1) 0 ∈ rest
            rw [List.getD_eq_getElem _ _ (by simp only [List.length_cons] at hN; omega)]
            exact List.getElem_mem _
          exact h _ hm
        · rintro (h | h)
          · exact absurd h hv
          · intro x hx
            exact le_trans (hlast x (List.mem_cons_of_mem _ hx)) h
      · intro hne
        obtain ⟨a, b, c, d⟩ := hsp.2 hne
        refine ⟨a, ?_, c, d⟩
        unfold VariableBinning.getNBins
        simp only
        omega
      · intro i hi a1 a2
        have hne : VariableBinning.scan v rest 1 ≠ -1 := by
          intro h
          rw [hsp.1] at h
          have hm : (e0 :: rest).getD (i + 1) 0 ∈ rest := by
            show rest.getD i 0 ∈ rest
            rw [List.getD_eq_getElem _ _ (by simp only [List.length_cons] at hi; omega)]
            exact List.getElem_mem _
          have := h _ hm
          linarith
        obtain ⟨a, b, c, d⟩ := hsp.2 hne
        have := huniq i (VariableBinning.scan v rest 1).toNat hi b a1 a2 c d
        omega

/-- C17, worked instance: over the edges `0, 1, 3, 7` the value `3` is in bin
`2`, the last edge `7` and the value `-1/2` give the sentinel. -/
theorem variable_getBinIndex_total_witness :
    VariableBinning.getBinIndex ⟨[0, 1, 3, 7]⟩ 3 = some 2 ∧
    VariableBinning.getBinIndex ⟨[0, 1, 3, 7]⟩ 7 = some (-1) ∧
    VariableBinning.getBinIndex ⟨[0, 1, 3, 7]⟩ (-1/2) = some (-1) := by
  have hs : ([0, 1, 3, 7] : List ℚ).Sorted (· < ·) := by
    simp [List.Sorted]
    norm_num
  obtain ⟨r, h1, -, -, h4⟩ := variable_getBinIndex_total [0, 1, 3, 7] hs (by decide) 3
  obtain ⟨r', h1', h2', -, -⟩ := variable_getBinIndex_total [0, 1, 3, 7] hs (by decide) 7
  obtain ⟨r'', h1'', h2'', -, -⟩ := variable_getBinIndex_total [0, 1, 3, 7] hs (by decide) (-1/2)
  have e := h4 2 (by decide) (by norm_num [List.getD]) (by norm_num [List.getD])
  have e' : r' = -1 := h2'.2 (Or.inr (by norm_num [List.getD]))
  have e'' : r'' = -1 := h2''.2 (Or.inl (by norm_num [List.getD]))
  rw [e] at h1
  rw [e'] at h1'
  rw [e''] at h1''
  exact ⟨h1, h1', h1''⟩

/-- Among strictly increasing edges the lookup returns the bin whose edges
bracket the value. -/
theorem getBinIndex_of_bracket {edges : List ℚ} (hs : edges.Sorted (· < ·)) {v : ℚ} {i : ℕ}
    (hi : i + 1 < edges.length) (h1 : edges.getD i 0 ≤ v) (h2 : v < edges.getD (i + 1) 0) :
    VariableBinning.getBinIndex ⟨edges⟩ v = some (i : ℤ) := by
  match edges, hs, hi, h1, h2 with
  | [], _, hi, _, _ => simp at hi
  | e0 :: rest, hs, hi, h1, h2 =>
    have hv : ¬ v < e0 := by
      have : (e0 :: rest).getD 0 0 ≤ (e0 :: rest).getD i 0 :=
        sorted_getD_le hs (Nat.zero_le _) (by omega)
      have h0 : (e0 :: rest).getD 0 0 = e0 := rfl
      rw [h0] at this
      exact not_lt.2 (le_trans this h1)
    have hsp := scan_spec v (e0 :: rest) rest [e0] rfl (by simp) (by
      intro x hx
      rw [List.mem_singleton] at hx
      rw [hx]; exact not_lt.1 hv)
    simp only [List.length_singleton, Nat.cast_one] at hsp
    unfold VariableBinning.getBinIndex
    simp only
    rw [if_neg hv]
    have hne : VariableBinning.scan v rest 1 ≠ -1 := by
      intro h
      rw [hsp.1] at h
      have hm : (e0 :: rest).getD (i + 1) 0 ∈ rest := by
        show rest.getD i 0 ∈ rest
        rw [List.getD_eq_getElem _ _ (by simp only [List.length_cons] at hi; omega)]
        exact List.getElem_mem _
      have := h _ hm
      linarith
    obtain ⟨a, b, c, d⟩ := hsp.2 hne
    have hk : (VariableBinning.scan v rest 1).toNat = i := by
      by_contra hne'
      rcases Nat.lt_or_gt_of_ne hne' with h | h
      · have := sorted_getD_le hs (show (VariableBinning.scan v rest 1).toNat + 1 ≤ i by omega)
          (by omega)
        linarith
      · have := sorted_getD_le hs (show i + 1 ≤ (VariableBinning.scan v rest 1).toNat by omega)
          (by omega)
        linarith
    congr 1
    omega

/-- A list whose neighbours increase is strictly increasing. -/
theorem sorted_of_consecutive (l : List ℚ)
    (h : ∀ i, i + 1 < l.length → l.getD i 0 < l.getD (i + 1) 0) : l.Sorted (· < ·) := by
  induction l with
  | nil => exact List.sorted_nil
  | cons a rest ih =>
    have hrest : rest.Sorted (· < ·) := by
      apply ih
      intro i hi
      exact h (i + 1) (by simp only [List.length_cons]; omega)
    rw [List.Sorted, List.pairwise_cons]
    refine ⟨?_, hrest⟩
    intro x hx
    obtain ⟨k, hk, rfl⟩ := List.getElem_of_mem hx
    have h0 : a < rest.getD 0 0 := h 0 (by simp only [List.length_cons]; omega)
    have hle : rest.getD 0 0 ≤ rest.getD k 0 := sorted_getD_le hrest (Nat.zero_le _) hk
    rw [List.getD_eq_getElem _ _ hk] at hle
    exact lt_of_lt_of_le h0 hle

/-! ## C18, C15, C19: `TwoStepBinning` -/

theorem demoExpLog_like : demoExpLog.ExpLogLike := by
  refine ⟨?_, ?_, ?_⟩
  · intro x y h
    show 1 + x < 1 + y
    linarith
  · show (1 : ℚ) + 0 = 1
    norm_num
  · intro x hx
    show 0 < x - 1
    linarith

theorem getD_map_range {α : Type} (f : ℕ → α) (n i : ℕ) (d : α) (h : i < n) :
    ((List.range n).map f).getD i d = f i := by
  rw [List.getD_eq_getElem _ _ (by simpa using h)]
  simp

theorem getD_append3 {α : Type} (a b c : List α) (d : α) :
    (∀ i, i < b.length → (a ++ b ++ c).getD (a.length + i) d = b.getD i d) ∧
    (∀ i, (a ++ b ++ c).getD (a.length + b.length + i) d = c.getD i d) := by
  constructor
  · intro i hi
    rw [List.getD_append _ _ _ _ (by rw [List.length_append]; omega),
      List.getD_append_right _ _ _ _ (by omega)]
    congr 1
    omega
  · intro i
    rw [List.getD_append_right _ _ _ _ (by rw [List.length_append]; omega)]
    congr 1
    rw [List.length_append]
    omega

/-- The two vectors a `TwoStepBinning` constructor call leaves, element by
element: `U` uniform steps and `L` logarithmic steps follow the first bin. -/
theorem twoStep_layout {m : Libm} {nBins : ℤ} {breakpoint dlog dlin eps : ℚ} {b : TwoStepBinning}
    (hb : TwoStepBinning.create m nBins breakpoint dlog dlin eps = some b) :
    (0 < breakpoint ∧ 0 < dlog ∧ 0 < dlin ∧ 0 < eps) ∧
    b.binEdge.length = 2 + ⌊breakpoint / dlin⌋.toNat + (nBins - ⌊breakpoint / dlin⌋ - 1).toNat ∧
    b.binCenter.length = 1 + ⌊breakpoint / dlin⌋.toNat + (nBins - ⌊breakpoint / dlin⌋ - 1).toNat ∧
    b.binEdge.getD 0 0 = -eps * dlin ∧ b.binEdge.getD 1 0 = eps * dlin ∧
    (∀ i, i < ⌊breakpoint / dlin⌋.toNat → b.binEdge.getD (2 + i) 0 = ((i : ℚ) + 1) * dlin) ∧
    (∀ i, i < (nBins - ⌊breakpoint / dlin⌋ - 1).toNat →
      b.binEdge.getD (2 + ⌊breakpoint / dlin⌋.toNat + i) 0 =
        breakpoint * m.exp (m.log ((breakpoint + dlog) / breakpoint) * ((i : ℚ) + 1))) ∧
    b.binCenter.getD 0 0 = 0 ∧
    (∀ i, i < ⌊breakpoint / dlin⌋.toNat →
      b.binCenter.getD (1 + i) 0 = ((i : ℚ) + 1 - 1/2) * dlin) ∧
    (∀ i, i < (nBins - ⌊breakpoint / dlin⌋ - 1).toNat →
      b.binCenter.getD (1 + ⌊breakpoint / dlin⌋.toNat + i) 0 =
        breakpoint * m.exp (m.log ((breakpoint + dlog) / breakpoint) * ((i : ℚ) + 1 - 1/2))) := by
  unfold TwoStepBinning.create at hb
  split_ifs at hb with hc
  cases hb
  simp only [List.map_map]
  refine ⟨hc, ?_, ?_, rfl, rfl, ?_, ?_, rfl, ?_, ?_⟩
  · simp only [List.length_append, List.length_map, List.length_range, List.length_cons,
      List.length_nil]
  · simp only [List.length_append, List.length_map, List.length_range, List.length_cons,
      List.length_nil]
  · intro i hi
    have h := (getD_append3 [-eps * dlin, eps * dlin]
      (List.map ((fun k => k * dlin) ∘ fun (i : ℕ) => (i : ℚ) + 1)
        (List.range ⌊breakpoint / dlin⌋.toNat))
      (List.map ((fun k => breakpoint * m.exp (m.log ((breakpoint + dlog) / breakpoint) * k)) ∘
        fun (i : ℕ) => (i : ℚ) + 1) (List.range (nBins - ⌊breakpoint / dlin⌋ - 1).toNat))
      0).1 i (by simpa using hi)
    rw [getD_map_range _ _ _ _ hi] at h
    exact h
  · intro i hi
    have h := (getD_append3 [-eps * dlin, eps * dlin]
      (List.map ((fun k => k * dlin) ∘ fun (i : ℕ) => (i : ℚ) + 1)
        (List.range ⌊breakpoint / dlin⌋.toNat))
      (List.map ((fun k => breakpoint * m.exp (m.log ((breakpoint + dlog) / breakpoint) * k)) ∘
        fun (i : ℕ) => (i : ℚ) + 1) (List.range (nBins - ⌊breakpoint / dlin⌋ - 1).toNat))
      0).2 i
    rw [getD_map_range _ _ _ _ hi, List.length_map, List.length_range] at h
    exact h
  · intro i hi
    have h := (getD_append3 [(0 : ℚ)]
      (List.map ((fun k => (k - 1/2) * dlin) ∘ fun (i : ℕ) => (i : ℚ) + 1)
        (List.range ⌊breakpoint / dlin⌋.toNat))
      (List.map ((fun k => breakpoint * m.exp (m.log ((breakpoint + dlog) / breakpoint) *
        (k - 1/2))) ∘ fun (i : ℕ) => (i : ℚ) + 1)
        (List.range (nBins - ⌊breakpoint / dlin⌋ - 1).toNat))
      0).1 i (by simpa using hi)
    rw [getD_map_range _ _ _ _ hi] at h
    exact h
  · intro i hi
    have h := (getD_append3 [(0 : ℚ)]
      (List.map ((fun k => (k - 1/2) * dlin) ∘ fun (i : ℕ) => (i : ℚ) + 1)
        (List.range ⌊breakpoint / dlin⌋.toNat))
      (List.map ((fun k => breakpoint * m.exp (m.log ((breakpoint + dlog) / breakpoint) *
        (k - 1/2))) ∘ fun (i : ℕ) => (i : ℚ) + 1)
        (List.range (nBins - ⌊breakpoint / dlin⌋ - 1).toNat))
      0).2 i
    rw [getD_map_range _ _ _ _ hi, List.length_map, List.length_range] at h
    exact h

/-- Number of whole steps `dlin` below the breakpoint, as a natural number. -/
theorem twoStep_uniform_le {breakpoint dlin : ℚ} (hb : 0 < breakpoint) (hd : 0 < dlin) :
    ((⌊breakpoint / dlin⌋.toNat : ℕ) : ℚ) * dlin ≤ breakpoint := by
  have h0 : 0 ≤ ⌊breakpoint / dlin⌋ := Int.floor_nonneg.2 (le_of_lt (div_pos hb hd))
  have h1 : ((⌊breakpoint / dlin⌋.toNat : ℕ) : ℚ) = ((⌊breakpoint / dlin⌋ : ℤ) : ℚ) := by
    have := Int.toNat_of_nonneg h0
    exact_mod_cast congrArg (fun z : ℤ => (z : ℚ)) this
  rw [h1]
  have := Int.floor_le (breakpoint / dlin)
  calc ((⌊breakpoint / dlin⌋ : ℤ) : ℚ) * dlin ≤ breakpoint / dlin * dlin :=
        mul_le_mul_of_nonneg_right this (le_of_lt hd)
    _ = breakpoint := by field_simp

/-- Where the bin centers lie relative to the edges, from the second bin on. -/
theorem twoStep_order {m : Libm} (hm : m.ExpLogLike) {nBins : ℤ}
    {breakpoint dlog dlin eps : ℚ} {b : TwoStepBinning}
    (hb : TwoStepBinning.create m nBins breakpoint dlog dlin eps = some b) :
    (b.binEdge.getD 0 0 ≤ b.binCenter.getD 0 0 ∧ b.binCenter.getD 0 0 < b.binEdge.getD 1 0) ∧
    (1 < b.binCenter.length →
      0 < b.binCenter.getD 1 0 ∧ b.binCenter.getD 1 0 < b.binEdge.getD 2 0) ∧
    (∀ k, 2 ≤ k → k < b.binCenter.length →
      b.binEdge.getD k 0 ≤ b.binCenter.getD k 0 ∧
      b.binCenter.getD k 0 < b.binEdge.getD (k + 1) 0) := by
  obtain ⟨⟨hbp, hdlog, hdlin, heps⟩, -, hlenC, hE0, hE1, hEU, hEL, hC0, hCU, hCL⟩ :=
    twoStep_layout hb
  have hU := twoStep_uniform_le hbp hdlin
  obtain ⟨hmono, hexp0, hlog⟩ := hm
  generalize ⌊breakpoint / dlin⌋.toNat = U at *
  generalize (nBins - ⌊breakpoint / dlin⌋ - 1).toNat = L at *
  have hr : 0 < m.log ((breakpoint + dlog) / breakpoint) := by
    apply hlog
    rw [lt_div_iff₀ hbp]
    linarith
  generalize m.log ((breakpoint + dlog) / breakpoint) = r at *
  have hexp1 : ∀ x, 0 < x → 1 < m.exp (r * x) := by
    intro x hx
    rw [← hexp0]
    exact hmono (mul_pos hr hx)
  have hexplt : ∀ x y, x < y → breakpoint * m.exp (r * x) < breakpoint * m.exp (r * y) := by
    intro x y hxy
    exact mul_lt_mul_of_pos_left (hmono (mul_lt_mul_of_pos_left hxy hr)) hbp
  have hgt : ∀ x, 0 < x → breakpoint < breakpoint * m.exp (r * x) := by
    intro x hx
    have := mul_lt_mul_of_pos_left (hexp1 x hx) hbp
    linarith
  refine ⟨?_, ?_, ?_⟩
  · rw [hE0, hE1, hC0]
    have := mul_pos heps hdlin
    constructor <;> linarith
  · intro h1
    rw [hlenC] at h1
    by_cases hu : 0 < U
    · have c := hCU 0 hu
      have e := hEU 0 hu
      simp only [Nat.cast_zero, zero_add, add_zero] at c e
      rw [c, e]
      constructor <;> linarith
    · have hU0 : U = 0 := by omega
      subst hU0
      have c := hCL 0 (by omega)
      have e := hEL 0 (by omega)
      simp only [Nat.cast_zero, zero_add, add_zero] at c e
      rw [c, e]
      constructor
      · have := hgt (1 - 1/2) (by norm_num)
        linarith
      · exact hexplt _ _ (by norm_num)
  · intro k hk2 hk
    rw [hlenC] at hk
    obtain ⟨i, rfl⟩ : ∃ i, k = 2 + i := ⟨k - 2, by omega⟩
    by_cases hu : i + 1 < U
    · -- a uniform bin
      have c := hCU (i + 1) hu
      have e := hEU i (by omega)
      have e' := hEU (i + 1) hu
      rw [show 1 + (i + 1) = 2 + i by omega] at c
      rw [show 2 + (i + 1) = 2 + i + 1 by omega] at e'
      rw [c, e, e']
      push_cast
      constructor
      · nlinarith
      · nlinarith
    · by_cases hu' : i + 1 = U
      · -- the first logarithmic bin, after the last uniform edge
        have c := hCL 0 (by omega)
        have e := hEU i (by omega)
        have e' := hEL 0 (by omega)
        rw [show 1 + U + 0 = 2 + i by omega] at c
        rw [show 2 + U + 0 = 2 + i + 1 by omega] at e'
        rw [c, e, e']
        have hUi : ((i : ℚ) + 1) * dlin ≤ breakpoint := by
          have : ((U : ℕ) : ℚ) = (i : ℚ) + 1 := by rw [← hu']; push_cast; rfl
          rw [← this]; exact hU
        simp only [Nat.cast_zero, zero_add]
        constructor
        · have := hgt (1 - 1/2) (by norm_num)
          linarith
        · exact hexplt _ _ (by norm_num)
      · -- a later logarithmic bin
        obtain ⟨j, hj⟩ : ∃ j, i + 1 = U + 1 + j := ⟨i - U, by omega⟩
        have c := hCL (j + 1) (by omega)
        have e := hEL j (by omega)
        have e' := hEL (j + 1) (by omega)
        rw [show 1 + U + (j + 1) = 2 + i by omega] at c
        rw [show 2 + U + j = 2 + i by omega] at e
        rw [show 2 + U + (j + 1) = 2 + i + 1 by omega] at e'
        rw [c, e, e']
        push_cast
        constructor
        · exact le_of_lt (hexplt _ _ (by linarith))
        · exact hexplt _ _ (by linarith)

theorem variable_getBinLowEdge_nat (v : VariableBinning) (k : ℕ) (h : k < v.binEdge.length) :
    v.getBinLowEdge (k : ℤ) = some (v.binEdge.getD k 0) := by
  unfold VariableBinning.getBinLowEdge
  rw [if_pos ⟨by omega, by simpa using h⟩]
  simp

theorem twoStep_getBinCenter_nat (b : TwoStepBinning) (k : ℕ) (h : k < b.binCenter.length) :
    b.getBinCenter (k : ℤ) = some (b.binCenter.getD k 0) := by
  unfold TwoStepBinning.getBinCenter
  rw [if_pos ⟨by omega, by simpa using h⟩]
  simp

/-- The third edge is `dlin` as soon as one whole step fits below the breakpoint. -/
theorem twoStep_third_edge {m : Libm} {nBins : ℤ} {breakpoint dlog dlin eps : ℚ}
    {b : TwoStepBinning} (hb : TwoStepBinning.create m nBins breakpoint dlog dlin eps = some b)
    (h : dlin ≤ breakpoint) :
    b.toVariable.getBinLowEdge 2 = some dlin ∧ b.getBinCenter 1 = some (dlin / 2) := by
  obtain ⟨⟨hbp, hdlog, hdlin, heps⟩, hlenE, hlenC, -, -, hEU, -, -, hCU, -⟩ := twoStep_layout hb
  have hU : 0 < ⌊breakpoint / dlin⌋.toNat := by
    have : 1 ≤ ⌊breakpoint / dlin⌋ := by
      rw [Int.le_floor, le_div_iff₀ hdlin]
      push_cast
      linarith
    omega
  have e := hEU 0 hU
  have c := hCU 0 hU
  simp only [Nat.cast_zero, zero_add, add_zero] at e c
  constructor
  · have := variable_getBinLowEdge_nat b.toVariable 2 (by
      show 2 < b.binEdge.length
      omega)
    rw [show ((2 : ℕ) : ℤ) = 2 from rfl] at this
    rw [this]
    show some (b.binEdge.getD 2 0) = _
    rw [e]
    norm_num
  · have := twoStep_getBinCenter_nat b 1 (by omega)
    rw [show ((1 : ℕ) : ℤ) = 1 from rfl] at this
    rw [this, c]
    congr 1
    ring

/-- C18 (amended). For a `TwoStepBinning` that passes the constructor's
checks (with `exp`, `log` as in `Libm.ExpLogLike`) the edges are strictly
increasing, `getBinLowEdge(i) < getBinLowEdge(i+1)` for every
`0 ≤ i < getNBins()`, if and only if the second edge `eps*dlin` lies below the
third edge (a condition on nothing when there is a single bin).  When
`dlin ≤ breakpoint` the third edge is `dlin`, so the condition is `eps < 1`. -/
theorem twoStep_edges_increasing (m : Libm) (hm : m.ExpLogLike) (nBins : ℤ)
    (breakpoint dlog dlin eps : ℚ) (b : TwoStepBinning)
    (hb : TwoStepBinning.create m nBins breakpoint dlog dlin eps = some b) :
    ((∀ i : ℤ, 0 ≤ i → i < b.toVariable.getNBins →
        ∃ lo hi, b.toVariable.getBinLowEdge i = some lo ∧
          b.toVariable.getBinLowEdge (i + 1) = some hi ∧ lo < hi) ↔
      (2 ≤ b.toVariable.getNBins →
        ∃ e2, b.toVariable.getBinLowEdge 2 = some e2 ∧ eps * dlin < e2)) ∧
    (dlin ≤ breakpoint → b.toVariable.getBinLowEdge 2 = some dlin) := by
  refine ⟨?_, fun h => (twoStep_third_edge hb h).1⟩
  obtain ⟨-, hlenE, hlenC, hE0, hE1, -, -, -, -, -⟩ := twoStep_layout hb
  obtain ⟨h0, h1, h2⟩ := twoStep_order hm hb
  have hNB : b.toVariable.getNBins = ((b.binEdge.length : ℕ) : ℤ) - 1 := rfl
  have hedge : ∀ k : ℕ, k < b.binEdge.length →
      b.toVariable.getBinLowEdge (k : ℤ) = some (b.binEdge.getD k 0) :=
    fun k hk => variable_getBinLowEdge_nat b.toVariable k hk
  constructor
  · intro hall hn
    obtain ⟨lo, hi, a1, a2, a3⟩ := hall 1 (by norm_num) (by omega)
    have e1 := hedge 1 (by omega)
    have e2 := hedge 2 (by omega)
    rw [show ((1 : ℕ) : ℤ) = 1 from rfl] at e1
    rw [show ((2 : ℕ) : ℤ) = 2 from rfl] at e2
    rw [e1] at a1
    rw [show (1 : ℤ) + 1 = 2 from rfl, e2] at a2
    cases a1
    cases a2
    refine ⟨_, e2, ?_⟩
    rw [← hE1]
    exact a3
  · intro hcond i hi0 hin
    obtain ⟨k, rfl⟩ : ∃ k : ℕ, i = (k : ℤ) := ⟨i.toNat, by omega⟩
    have hk : k + 1 < b.binEdge.length := by omega
    refine ⟨b.binEdge.getD k 0, b.binEdge.getD (k + 1) 0, hedge k (by omega), ?_, ?_⟩
    · have := hedge (k + 1) hk
      push_cast at this
      exact this
    · rcases Nat.lt_or_ge k 2 with hk2 | hk2
      · rcases Nat.lt_or_ge k 1 with hk1 | hk1
        · have hk0 : k = 0 := by omega
          subst hk0
          exact lt_of_le_of_lt h0.1 h0.2
        · have hk1' : k = 1 := by omega
          subst hk1'
          obtain ⟨e2, a1, a2⟩ := hcond (by omega)
          have e2' := hedge 2 (by omega)
          rw [show ((2 : ℕ) : ℤ) = 2 from rfl] at e2'
          rw [e2'] at a1
          cases a1
          rw [hE1]
          exact a2
      · have := h2 k hk2 (by omega)
        exact lt_of_le_of_lt this.1 this.2

theorem demo_twoStep (eps : ℚ) (h : 0 < eps) :
    TwoStepBinning.create demoExpLog 3 1 1 1 eps
      = some ⟨[-eps, eps, 1, 2], [0, 1/2, 3/2]⟩ := by
  unfold TwoStepBinning.create
  rw [if_pos ⟨by norm_num, by norm_num, by norm_num, h⟩]
  have hf : ⌊(1 : ℚ) / 1⌋ = 1 := by norm_num
  simp only [hf]
  have h1 : (1 : ℤ).toNat = 1 := rfl
  have h2 : ((3 : ℤ) - 1 - 1).toNat = 1 := rfl
  simp only [h1, h2, List.range_succ, List.range_zero, List.nil_append, List.map_cons,
    List.map_nil, demoExpLog]
  norm_num

theorem demo_twoStep_wide :
    TwoStepBinning.create demoExpLog 3 1 1 10000 TwoStepBinning.defaultEps
      = some ⟨[-10, 10, 2, 3], [0, 3/2, 5/2]⟩ := by
  unfold TwoStepBinning.create TwoStepBinning.defaultEps
  rw [if_pos ⟨by norm_num, by norm_num, by norm_num, by norm_num⟩]
  have hf : ⌊(1 : ℚ) / 10000⌋ = 0 := by
    rw [Int.floor_eq_iff]; norm_num
  simp only [hf]
  have h1 : (0 : ℤ).toNat = 0 := rfl
  have h2 : ((3 : ℤ) - 0 - 1).toNat = 2 := rfl
  simp only [h1, h2, List.range_succ, List.range_zero, List.nil_append, List.map_cons,
    List.map_nil, demoExpLog, List.map_append, List.append_nil]
  norm_num

/-- C18 fails as stated: `TwoStepBinning(3, 1, 1, 1, eps = 2)` passes the
checks and has the edges `-2, 2, 1, ...`; with the default `eps` so does
`TwoStepBinning(3, 1, 1, 10000)`, whose edges are `-10, 10, 2, 3`. -/
theorem twoStep_edges_not_increasing :
    (∃ b, TwoStepBinning.create demoExpLog 3 1 1 1 2 = some b ∧ b.toVariable.getNBins = 3 ∧
      b.toVariable.getBinLowEdge 1 = some 2 ∧ b.toVariable.getBinLowEdge (1 + 1) = some 1 ∧
      ¬ ((2 : ℚ) < 1)) ∧
    (∃ b, TwoStepBinning.create demoExpLog 3 1 1 10000 TwoStepBinning.defaultEps = some b ∧
      b.toVariable.getNBins = 3 ∧
      b.toVariable.getBinLowEdge 1 = some 10 ∧ b.toVariable.getBinLowEdge (1 + 1) = some 2 ∧
      ¬ ((10 : ℚ) < 2)) :=
  ⟨⟨_, demo_twoStep 2 (by norm_num), rfl, rfl, rfl, by norm_num⟩,
    ⟨_, demo_twoStep_wide, rfl, rfl, rfl, by norm_num⟩⟩

/-- C18 (amended), worked instance: `TwoStepBinning(3, 1, 1, 1, eps = 1/2)`
has the increasing edges `-1/2, 1/2, 1, 2`. -/
theorem twoStep_edges_increasing_witness :
    TwoStepBinning.create demoExpLog 3 1 1 1 (1/2) = some ⟨[-(1/2), 1/2, 1, 2], [0, 1/2, 3/2]⟩ ∧
    ∀ i : ℤ, 0 ≤ i → i < 3 →
      ∃ lo hi, VariableBinning.getBinLowEdge ⟨[-(1/2), 1/2, 1, 2]⟩ i = some lo ∧
        VariableBinning.getBinLowEdge ⟨[-(1/2), 1/2, 1, 2]⟩ (i + 1) = some hi ∧ lo < hi :=
  ⟨demo_twoStep (1/2) (by norm_num),
    (twoStep_edges_increasing demoExpLog demoExpLog_like 3 1 1 1 (1/2) _
      (demo_twoStep (1/2) (by norm_num))).1.2 (fun _ => ⟨1, rfl, by norm_num⟩)⟩

/-- A value below the second edge is put in the first bin or reported as underflow. -/
theorem getBinIndex_below_second {edges : List ℚ} (hN : 2 ≤ edges.length) {v : ℚ}
    (hv : v < edges.getD 1 0) :
    VariableBinning.getBinIndex ⟨edges⟩ v = some (-1) ∨
      VariableBinning.getBinIndex ⟨edges⟩ v = some 0 := by
  match edges, hN, hv with
  | [], hN, _ => simp at hN
  | [_], hN, _ => simp at hN
  | e0 :: e1 :: rest, _, hv =>
    have hv' : v < e1 := hv
    unfold VariableBinning.getBinIndex
    simp only
    split_ifs with h
    · left; rfl
    · right
      unfold VariableBinning.scan
      rw [if_pos hv']
      rfl

/-- C15 (amended). For a `TwoStepBinning` that passes the constructor's
checks (with `exp`, `log` as in `Libm.ExpLogLike`):
`getBinIndex(getBinCenter(i)) == i` holds for every `0 ≤ i < getNBins()` if and
only if the second edge `eps*dlin` is not above the stored center of bin `1`
(a condition on nothing when there is a single bin).  When `dlin ≤ breakpoint`
that center is `dlin/2`, so the condition is `eps ≤ 1/2`. -/
theorem twoStep_center_roundtrip (m : Libm) (hm : m.ExpLogLike) (nBins : ℤ)
    (breakpoint dlog dlin eps : ℚ) (b : TwoStepBinning)
    (hb : TwoStepBinning.create m nBins breakpoint dlog dlin eps = some b) :
    ((∀ i : ℤ, 0 ≤ i → i < b.toVariable.getNBins →
        ∃ c, b.getBinCenter i = some c ∧ b.toVariable.getBinIndex c = some i) ↔
      (2 ≤ b.toVariable.getNBins → ∃ c1, b.getBinCenter 1 = some c1 ∧ eps * dlin ≤ c1)) ∧
    (dlin ≤ breakpoint → b.getBinCenter 1 = some (dlin / 2)) := by
  refine ⟨?_, fun h => (twoStep_third_edge hb h).2⟩
  obtain ⟨-, hlenE, hlenC, hE0, hE1, -, -, -, -, -⟩ := twoStep_layout hb
  obtain ⟨h0, h1, h2⟩ := twoStep_order hm hb
  have hNB : b.toVariable.getNBins = ((b.binEdge.length : ℕ) : ℤ) - 1 := rfl
  have hcen : ∀ k : ℕ, k < b.binCenter.length →
      b.getBinCenter (k : ℤ) = some (b.binCenter.getD k 0) :=
    fun k hk => twoStep_getBinCenter_nat b k hk
  constructor
  · intro hall hn
    obtain ⟨c, a1, a2⟩ := hall 1 (by norm_num) (by omega)
    have c1 := hcen 1 (by omega)
    rw [show ((1 : ℕ) : ℤ) = 1 from rfl] at c1
    rw [c1] at a1
    cases a1
    refine ⟨_, c1, ?_⟩
    rw [← hE1]
    by_contra hlt
    rcases getBinIndex_below_second (show 2 ≤ b.binEdge.length by omega) (not_le.1 hlt)
      with h | h
    · have := h.symm.trans a2
      cases this
    · have := h.symm.trans a2
      cases this
  · intro hcond
    -- the edges are strictly increasing
    have hsorted : b.binEdge.Sorted (· < ·) := by
      apply sorted_of_consecutive
      intro k hk
      rcases Nat.lt_or_ge k 2 with hk2 | hk2
      · rcases Nat.lt_or_ge k 1 with hk1 | hk1
        · have hk0 : k = 0 := by omega
          subst hk0
          exact lt_of_le_of_lt h0.1 h0.2
        · have hk1' : k = 1 := by omega
          subst hk1'
          obtain ⟨c1, a1, a2⟩ := hcond (by omega)
          have c1' := hcen 1 (by omega)
          rw [show ((1 : ℕ) : ℤ) = 1 from rfl] at c1'
          rw [c1'] at a1
          cases a1
          rw [hE1]
          exact lt_of_le_of_lt a2 (h1 (by omega)).2
      · have := h2 k hk2 (by omega)
        exact lt_of_le_of_lt this.1 this.2
    intro i hi0 hin
    obtain ⟨k, rfl⟩ : ∃ k : ℕ, i = (k : ℤ) := ⟨i.toNat, by omega⟩
    have hk : k + 1 < b.binEdge.length := by omega
    refine ⟨b.binCenter.getD k 0, hcen k (by omega), ?_⟩
    have hbr : b.binEdge.getD k 0 ≤ b.binCenter.getD k 0 ∧
        b.binCenter.getD k 0 < b.binEdge.getD (k + 1) 0 := by
      rcases Nat.lt_or_ge k 2 with hk2 | hk2
      · rcases Nat.lt_or_ge k 1 with hk1 | hk1
        · have hk0 : k = 0 := by omega
          subst hk0
          exact h0
        · have hk1' : k = 1 := by omega
          subst hk1'
          obtain ⟨c1, a1, a2⟩ := hcond (by omega)
          have c1' := hcen 1 (by omega)
          rw [show ((1 : ℕ) : ℤ) = 1 from rfl] at c1'
          rw [c1'] at a1
          cases a1
          rw [hE1]
          exact ⟨a2, (h1 (by omega)).2⟩
      · exact h2 k hk2 (by omega)
    exact getBinIndex_of_bracket hsorted hk hbr.1 hbr.2

/-- C15 fails as stated: `TwoStepBinning(3, 1, 1, 1, eps = 3/4)` passes the
checks, the stored center of bin `1` is `1/2`, and `getBinIndex(1/2)` is `0`
(bin `1` starts at `3/4`). -/
theorem twoStep_center_not_roundtrip :
    ∃ b, TwoStepBinning.create demoExpLog 3 1 1 1 (3/4) = some b ∧
      b.toVariable.getNBins = 3 ∧ b.getBinCenter 1 = some (1/2) ∧
      b.toVariable.getBinIndex (1/2) = some 0 ∧ (0 : ℤ) ≠ 1 := by
  refine ⟨_, demo_twoStep (3/4) (by norm_num), rfl, rfl, ?_, by decide⟩
  show VariableBinning.getBinIndex ⟨[-(3/4), 3/4, 1, 2]⟩ (1/2) = some 0
  unfold VariableBinning.getBinIndex
  simp only
  rw [if_neg (by norm_num)]
  unfold VariableBinning.scan
  rw [if_pos (by norm_num)]
  rfl

/-- C15 (amended), worked instance: with `eps = 1/2` every stored center of
`TwoStepBinning(3, 1, 1, 1)` is looked up in its own bin. -/
theorem twoStep_center_roundtrip_witness :
    TwoStepBinning.create demoExpLog 3 1 1 1 (1/2) = some ⟨[-(1/2), 1/2, 1, 2], [0, 1/2, 3/2]⟩ ∧
    ∀ i : ℤ, 0 ≤ i → i < 3 →
      ∃ c, TwoStepBinning.getBinCenter ⟨[-(1/2), 1/2, 1, 2], [0, 1/2, 3/2]⟩ i = some c ∧
        VariableBinning.getBinIndex ⟨[-(1/2), 1/2, 1, 2]⟩ c = some i :=
  ⟨demo_twoStep (1/2) (by norm_num),
    (twoStep_center_roundtrip demoExpLog demoExpLog_like 3 1 1 1 (1/2) _
      (demo_twoStep (1/2) (by norm_num))).1.2 (fun _ => ⟨1/2, rfl, by norm_num⟩)⟩

theorem AbsBinning.not_atBinCenter_of_outOfRange {b : AbsBinning} {x : ℚ}
    (h : b.OutOfRange x) : ¬ b.AtBinCenter x := by
  rintro ⟨bin, c, h1, h2, -, -, -⟩
  rcases h with h | h
  · rw [h] at h1; cases h1
  · rw [h] at h1; cases h1; omega

theorem AbsBinning.not_atBinCenter_of_offCenter {b : AbsBinning} {x : ℚ}
    (h : b.OffCenter x) : ¬ b.AtBinCenter x := by
  rintro ⟨bin, c, h1, -, -, h4, h5⟩
  obtain ⟨bin', c', g1, g2, g3⟩ := h
  rw [h1] at g1
  cases g1
  rw [h4] at g2
  cases g2
  exact absurd h5 (not_lt.2 g3)

/-- C20. `addData(value, logLambda, separation, redshift)` is accepted only
if each of the three coordinates is located by its axis binning in one of its
bins and differs from that bin's center by less than `1e-6`.  Otherwise, in
particular when a coordinate is out of range (range assertion or sentinel) or
`1e-6` or more off the center of its bin, the call is rejected and the dataset
is left as it was. -/
theorem addData_requires_bin_centers (s : LyaData) (value logLambda separation redshift : ℚ) :
    (∀ s', s.addData value logLambda separation redshift = .done s' →
      s.logLambdaBinning.AtBinCenter logLambda ∧ s.separationBinning.AtBinCenter separation ∧
      s.redshiftBinning.AtBinCenter redshift) ∧
    (¬ (s.logLambdaBinning.AtBinCenter logLambda ∧ s.separationBinning.AtBinCenter separation ∧
        s.redshiftBinning.AtBinCenter redshift) →
      s.addData value logLambda separation redshift = .failed .contract s) ∧
    ((s.logLambdaBinning.OutOfRange logLambda ∨ s.logLambdaBinning.OffCenter logLambda ∨
        s.separationBinning.OutOfRange separation ∨ s.separationBinning.OffCenter separation ∨
        s.redshiftBinning.OutOfRange redshift ∨ s.redshiftBinning.OffCenter redshift) →
      s.addData value logLambda separation redshift = .failed .contract s) := by
  have hdone : ∀ s', s.addData value logLambda separation redshift = .done s' →
      s.logLambdaBinning.AtBinCenter logLambda ∧ s.separationBinning.AtBinCenter separation ∧
      s.redshiftBinning.AtBinCenter redshift := by
    intro s' h
    obtain ⟨a, b, c, ca, cb, cc, ds, e1, e2, e3, e4, e5, e6, t1, t2, t3, -, -, -⟩ :=
      addData_done h
    have r1 := AbsBinning.bin_in_range e1 e4
    have r2 := AbsBinning.bin_in_range e2 e5
    have r3 := AbsBinning.bin_in_range e3 e6
    exact ⟨⟨a, ca, e1, r1.1, r1.2, e4, t1⟩, ⟨b, cb, e2, r2.1, r2.2, e5, t2⟩,
      ⟨c, cc, e3, r3.1, r3.2, e6, t3⟩⟩
  have hfail : ¬ (s.logLambdaBinning.AtBinCenter logLambda ∧
      s.separationBinning.AtBinCenter separation ∧ s.redshiftBinning.AtBinCenter redshift) →
      s.addData value logLambda separation redshift = .failed .contract s := by
    intro hn
    unfold LyaData.addData
    split
    · rename_i a b c e1 e2 e3
      simp only
      split
      · rename_i ca cb cc e4 e5 e6
        have r1 := AbsBinning.bin_in_range e1 e4
        have r2 := AbsBinning.bin_in_range e2 e5
        have r3 := AbsBinning.bin_in_range e3 e6
        split_ifs with t1 t2 t3 hi
        · rfl
        · exfalso
          apply hn
          exact ⟨⟨a, ca, e1, r1.1, r1.2, e4, t1⟩, ⟨b, cb, e2, r2.1, r2.2, e5, t2⟩,
            ⟨c, cc, e3, r3.1, r3.2, e6, t3⟩⟩
        · rfl
        · rfl
        · rfl
      · rfl
    · rfl
  refine ⟨hdone, hfail, ?_⟩
  intro h
  apply hfail
  rintro ⟨h1, h2, h3⟩
  rcases h with h | h | h | h | h | h
  · exact AbsBinning.not_atBinCenter_of_outOfRange h h1
  · exact AbsBinning.not_atBinCenter_of_offCenter h h1
  · exact AbsBinning.not_atBinCenter_of_outOfRange h h2
  · exact AbsBinning.not_atBinCenter_of_offCenter h h2
  · exact AbsBinning.not_atBinCenter_of_outOfRange h h3
  · exact AbsBinning.not_atBinCenter_of_offCenter h h3

theorem demo_sep_overflow : (demoBinning 3).getBinIndex (7/2) = none := by
  have hf : ⌊((7/2 : ℚ) - 0) / 1⌋ = 3 := by
    rw [Int.floor_eq_iff]; norm_num
  simp only [demoBinning, AbsBinning.getBinIndex, UniformBinning.getBinIndex, hf]
  rw [if_neg (by decide)]

theorem demo_sep_offCenter : (demoBinning 3).OffCenter (3/5) := by
  have hf : ⌊((3/5 : ℚ) - 0) / 1⌋ = 0 := by
    rw [Int.floor_eq_iff]; norm_num
  refine ⟨0, 1/2, ?_, ?_, by norm_num [abs_of_pos]⟩
  · simp only [demoBinning, AbsBinning.getBinIndex, UniformBinning.getBinIndex, hf]
    rw [if_pos (by decide)]
  · have := demoBinning_getBinCenter 3 0 (by decide) (by decide)
    rw [this]
    norm_num

theorem demo_variable_sentinel :
    AbsBinning.getBinIndex (.ofVariable ⟨[0, 1, 3]⟩) 5 = some (-1) := by
  simp only [AbsBinning.getBinIndex, VariableBinning.getBinIndex]
  rw [if_neg (by norm_num)]
  unfold VariableBinning.scan
  rw [if_neg (by norm_num)]
  unfold VariableBinning.scan
  rw [if_neg (by norm_num)]
  rfl

/-- C20, worked instance: on the empty demonstration dataset a separation
above the last bin and a separation `1/10` off its bin center are rejected, as
is a log-lambda that an explicit-edge axis reports with the sentinel; the
record at three bin centers is accepted. -/
theorem addData_requires_bin_centers_witness :
    demoEmpty.addData 1 (1/2) (7/2) (1/2) = .failed .contract demoEmpty ∧
    demoEmpty.addData 1 (1/2) (3/5) (1/2) = .failed .contract demoEmpty ∧
    demoVariableEmpty.addData 1 5 (1/2) (1/2) = .failed .contract demoVariableEmpty ∧
    (∃ s', demoEmpty.addData 1 (1/2) (1/2) (1/2) = .done s') ∧
    demoEmpty.separationBinning.AtBinCenter (1/2) := by
  have hacc := demo_addData demoEmpty 0 1 (1/2) ⟨rfl, rfl, rfl, rfl, rfl⟩ (by norm_num)
    (by norm_num) (by norm_num) (by decide)
  refine ⟨?_, ?_, ?_, ⟨_, hacc⟩, ?_⟩
  · exact (addData_requires_bin_centers demoEmpty 1 (1/2) (7/2) (1/2)).2.2
      (Or.inr (Or.inr (Or.inl (Or.inl demo_sep_overflow))))
  · exact (addData_requires_bin_centers demoEmpty 1 (1/2) (3/5) (1/2)).2.2
      (Or.inr (Or.inr (Or.inr (Or.inl demo_sep_offCenter))))
  · exact (addData_requires_bin_centers demoVariableEmpty 1 5 (1/2) (1/2)).2.2
      (Or.inl (Or.inr demo_variable_sentinel))
  · exact ((addData_requires_bin_centers demoEmpty 1 (1/2) (1/2) (1/2)).1 _ hacc).2.1

/-! ## C21: the model without the BAO term -/

/-- C21. With amplitude `p[3] = 1`, where the fiducial and the no-oscillation
correlation function return the same value at `(r*scale, mu)` (distortion
`beta = p[2]`), `evaluate` returns
`bias² * pow((1+z)/(1+zref), alpha) * nw(r*scale, mu) + (1e-1*a1/r² + 1e-3*a2/r + 1e-5*a3)`:
the BAO term cancels. -/
theorem evaluate_no_bao (m : LyaBaoModel) (r mu z : ℚ) (p : List ℚ) (_hr : r ≠ 0)
    (hampl : p.getD 3 0 = 1)
    (hsame : m.fid (p.getD 2 0) (r * p.getD 4 0) mu = m.nw (p.getD 2 0) (r * p.getD 4 0) mu) :
    m.evaluate r mu z p =
      (p.getD 1 0) ^ 2 * m.cmath.pow ((1 + z) / (1 + m.zref)) (p.getD 0 0)
          * m.nw (p.getD 2 0) (r * p.getD 4 0) mu
        + (1e-1 * p.getD 5 0 / r ^ 2 + 1e-3 * p.getD 6 0 / r + 1e-5 * p.getD 7 0) := by
  unfold LyaBaoModel.evaluate
  simp only [hampl, hsame]
  ring

/-- C21, worked instance: a model whose two correlation functions are both
`r*mu + beta`, with `pow` read as the product of its arguments, at
`r = 2, mu = 1/2, z = 1` and parameters `alpha = 2, bias = 3, beta = 1,
ampl = 1, scale = 2, a1 = 10, a2 = 1000, a3 = 100000`. -/
theorem evaluate_no_bao_witness :
    LyaBaoModel.evaluate ⟨⟨fun _ => 1, fun _ => 0, fun x => x, fun _ => 0, fun x y => x * y⟩, 3,
        fun beta r mu => r * mu + beta, fun beta r mu => r * mu + beta⟩
      2 (1/2) 1 [2, 3, 1, 1, 2, 10, 1000, 100000] = 3 ^ 2 * (1/2 * 2) * 3 + (1/4 + 1/2 + 1) := by
  have h := evaluate_no_bao ⟨⟨fun _ => 1, fun _ => 0, fun x => x, fun _ => 0, fun x y => x * y⟩, 3,
        fun beta r mu => r * mu + beta, fun beta r mu => r * mu + beta⟩
      2 (1/2) 1 [2, 3, 1, 1, 2, 10, 1000, 100000] (by norm_num) rfl rfl
  rw [h]
  norm_num [List.getD]

/-! ## C22: the weighted separation of a bin -/

theorem transform_eq_transformAt (s : LyaData) (ll sep z ds : ℚ) :
    s.transform ll sep z ds = s.transformAt ll z (sep + (ds * ds / 12) / sep) := rfl

/-- C22. For a bin center `sep > 0` and a bin width `ds > 0`, with
`smin = sep - ds/2` and `smax = sep + ds/2`: the weighted separation
`sep + (ds*ds/12)/sep` that `transform` turns into the transverse distance is
`sep + ds²/(12*sep)` and equals `((smax³ - smin³)/3) / ((smax² - smin²)/2)`,
which is the ratio of the integral of `s²` to the integral of `s` over
`[smin, smax]`. -/
theorem transform_weighted_separation (s : LyaData) (ll sep z ds : ℚ) (hsep : 0 < sep)
    (hds : 0 < ds) :
    s.transform ll sep z ds =
      s.transformAt ll z
        ((((sep + ds / 2) ^ 3 - (sep - ds / 2) ^ 3) / 3) /
          (((sep + ds / 2) ^ 2 - (sep - ds / 2) ^ 2) / 2)) ∧
    sep + (ds * ds / 12) / sep = sep + ds ^ 2 / (12 * sep) ∧
    sep + ds ^ 2 / (12 * sep) =
      (((sep + ds / 2) ^ 3 - (sep - ds / 2) ^ 3) / 3) /
        (((sep + ds / 2) ^ 2 - (sep - ds / 2) ^ 2) / 2) ∧
    (((sep + ds ^ 2 / (12 * sep) : ℚ) : ℝ) =
      (∫ t in (((sep - ds / 2 : ℚ) : ℝ))..(((sep + ds / 2 : ℚ) : ℝ)), t ^ 2) /
        (∫ t in (((sep - ds / 2 : ℚ) : ℝ))..(((sep + ds / 2 : ℚ) : ℝ)), t)) := by
  have hne : sep ≠ 0 := ne_of_gt hsep
  have hne' : ds ≠ 0 := ne_of_gt hds
  have e1 : sep + (ds * ds / 12) / sep = sep + ds ^ 2 / (12 * sep) := by
    field_simp
    ring
  have e2 : sep + ds ^ 2 / (12 * sep) =
      (((sep + ds / 2) ^ 3 - (sep - ds / 2) ^ 3) / 3) /
        (((sep + ds / 2) ^ 2 - (sep - ds / 2) ^ 2) / 2) := by
    have hd : ((sep + ds / 2) ^ 2 - (sep - ds / 2) ^ 2) / 2 = sep * ds := by ring
    have hn : ((sep + ds / 2) ^ 3 - (sep - ds / 2) ^ 3) / 3 = ds * (sep ^ 2 + ds ^ 2 / 12) := by
      ring
    rw [hd, hn]
    field_simp
    ring
  refine ⟨?_, e1, e2, ?_⟩
  · rw [transform_eq_transformAt, e1, e2]
  · rw [integral_pow, integral_id, e2]
    push_cast
    norm_num

/-- C22, worked instance: the bin `[1, 3]` (`sep = 2`, `ds = 2`) has the
weighted separation `2 + 4/24 = 13/6 = (26/3)/4`. -/
theorem transform_weighted_separation_witness :
    demoEmpty.transform 0 2 0 2 = demoEmpty.transformAt 0 0 (13/6) ∧
    ((2 : ℚ) + 2 / 2) = 3 ∧ ((2 : ℚ) - 2 / 2) = 1 ∧
    (((3 : ℚ) ^ 3 - 1 ^ 3) / 3) / ((3 ^ 2 - 1 ^ 2) / 2) = 13/6 := by
  have h := (transform_weighted_separation demoEmpty 0 2 0 2 (by norm_num) (by norm_num)).1
  have e : ((((2 : ℚ) + 2 / 2) ^ 3 - (2 - 2 / 2) ^ 3) / 3) /
      (((2 + 2 / 2) ^ 2 - (2 - 2 / 2) ^ 2) / 2) = 13/6 := by norm_num
  rw [e] at h
  exact ⟨h, by norm_num, by norm_num, by norm_num⟩

/-! ## C23: the stored coordinates of an observation -/

/-- What a record's entry consists of. -/
theorem entryOf_some {s : LyaData} {r : DataRecord} {e : ℤ × ℚ × ℚ}
    (h : s.entryOf r = some e) :
    ∃ llBin sepBin zBin llCenter sepCenter zCenter ds,
      s.logLambdaBinning.getBinIndex r.logLambda = some llBin ∧
      s.separationBinning.getBinIndex r.separation = some sepBin ∧
      s.redshiftBinning.getBinIndex r.redshift = some zBin ∧
      s.logLambdaBinning.getBinCenter llBin = some llCenter ∧
      s.separationBinning.getBinCenter sepBin = some sepCenter ∧
      s.redshiftBinning.getBinCenter zBin = some zCenter ∧
      s.separationBinning.getBinSize sepBin = some ds ∧
      |r.logLambda - llCenter| < 1e-6 ∧ |r.separation - sepCenter| < 1e-6 ∧
      |r.redshift - zCenter| < 1e-6 ∧
      e = (s.flatIndex llBin sepBin zBin,
        (s.transform r.logLambda r.separation r.redshift ds).1,
        (s.transform r.logLambda r.separation r.redshift ds).2) := by
  unfold LyaData.entryOf LyaData.binsOf at h
  split at h
  · rename_i a b c hb
    split at hb
    · rename_i x y z hx hy hz
      cases hb
      split at h
      · rename_i ca cb cc ds e4 e5 e6 e7
        split_ifs at h with ht
        cases h
        exact ⟨a, b, c, ca, cb, cc, ds, hx, hy, hz, e4, e5, e6, e7, ht.1, ht.2.1, ht.2.2, rfl⟩
      · cases h
    · cases hb
  · cases h

/-- C23 (amended). For the dataset built from accepted data records and every
observation `k`: the stored `getRadius(k)` and `getCosAngle(k)` are the pair
`transform` returns at the coordinates passed to `addData` for that
observation, with `ds` the width of its separation bin; each of these
coordinates is within `1e-6` of the center of its bin, and `getRedshift(k)`
reports the center of the redshift bin.  When the coordinates passed are the
bin centers themselves, the stored pair is the pair `transform` returns at the
bin centers. -/
theorem stored_coordinates (m : Libm) (llBins sepBins zBins : AbsBinning)
    (cosmology : Cosmology) (records : List DataRecord) (s : LyaData)
    (h : addDataAll (LyaData.create m llBins sepBins zBins cosmology) records = .done s)
    (k : ℕ) (hk : k < records.length) :
    ∃ llBin sepBin zBin llCenter sepCenter zCenter ds,
      llBins.getBinIndex records[k].logLambda = some llBin ∧
      sepBins.getBinIndex records[k].separation = some sepBin ∧
      zBins.getBinIndex records[k].redshift = some zBin ∧
      llBins.getBinCenter llBin = some llCenter ∧
      sepBins.getBinCenter sepBin = some sepCenter ∧
      zBins.getBinCenter zBin = some zCenter ∧
      sepBins.getBinSize sepBin = some ds ∧
      |records[k].logLambda - llCenter| < 1e-6 ∧ |records[k].separation - sepCenter| < 1e-6 ∧
      |records[k].redshift - zCenter| < 1e-6 ∧
      s.getRedshift k = some zCenter ∧
      s.getRadius k =
        (s.transform records[k].logLambda records[k].separation records[k].redshift ds).1 ∧
      s.getCosAngle k =
        (s.transform records[k].logLambda records[k].separation records[k].redshift ds).2 ∧
      (records[k].logLambda = llCenter → records[k].separation = sepCenter →
        records[k].redshift = zCenter →
        s.getRadius k = (s.transform llCenter sepCenter zCenter ds).1 ∧
        s.getCosAngle k = (s.transform llCenter sepCenter zCenter ds).2) := by
  have hs := create_wellSized m llBins sepBins zBins cosmology
  obtain ⟨g1, -, g3⟩ := (addDataAll_iff _ hs records _ s (sameConfig_refl _)).1 h
  have hf := foldl_stored_fields (LyaData.create m llBins sepBins zBins cosmology) records
    (LyaData.create m llBins sepBins zBins cosmology)
  simp only [← g3] at hf
  obtain ⟨-, f2, f3, f4, f5, -, -, f8, f9, -, -, -, -, f14, -, f16, -⟩ := hf
  have hmem : records[k] ∈ records := List.getElem_mem _
  obtain ⟨e, he⟩ := Option.isSome_iff_exists.1 (g1 _ hmem).1
  obtain ⟨a, b, c, ca, cb, cc, ds, e1, e2, e3, e4, e5, e6, e7, t1, t2, t3, hE⟩ :=
    entryOf_some he
  have hentry : (LyaData.create m llBins sepBins zBins cosmology).entry records[k] = e := by
    unfold LyaData.entry
    rw [he]
    rfl
  have htr : ∀ ll sep z w, s.transform ll sep z w
      = (LyaData.create m llBins sepBins zBins cosmology).transform ll sep z w := by
    intro ll sep z w
    simp only [LyaData.transform, f5, f9, f16]
  have hidx : s.getIndex k = e.1 := by
    unfold LyaData.getIndex
    rw [f2]
    show ([] ++ _ : List ℤ).getD k 0 = _
    rw [List.nil_append, List.getD_eq_getElem _ _ (by simpa using hk)]
    simp only [List.getElem_map, hentry]
  have hrad : s.getRadius k = e.2.1 := by
    unfold LyaData.getRadius
    rw [f3]
    show ([] ++ _ : List ℚ).getD k 0 = _
    rw [List.nil_append, List.getD_eq_getElem _ _ (by simpa using hk)]
    simp only [List.getElem_map, hentry]
  have hmu : s.getCosAngle k = e.2.2 := by
    unfold LyaData.getCosAngle
    rw [f4]
    show ([] ++ _ : List ℚ).getD k 0 = _
    rw [List.nil_append, List.getD_eq_getElem _ _ (by simpa using hk)]
    simp only [List.getElem_map, hentry]
  rw [hE] at hidx hrad hmu
  simp only at hidx hrad hmu
  have r1 := AbsBinning.bin_in_range e1 e4
  have r2 := AbsBinning.bin_in_range e2 e5
  have r3 := AbsBinning.bin_in_range e3 e6
  have hred : s.getRedshift k = some cc := by
    unfold LyaData.getRedshift
    rw [hidx, f8, f14]
    have hd := @flatIndex_decode sepBins.getNBins zBins.getNBins a b c r1.1 r2.1 r2.2 r3.1 r3.2
    show zBins.getBinCenter (((a * sepBins.getNBins + b) * zBins.getNBins + c).tmod
      zBins.getNBins) = some cc
    rw [hd.1]
    exact e6
  refine ⟨a, b, c, ca, cb, cc, ds, e1, e2, e3, e4, e5, e6, e7, t1, t2, t3, hred, ?_, ?_, ?_⟩
  · rw [hrad, htr]
  · rw [hmu, htr]
  · intro q1 q2 q3
    rw [hrad, hmu, ← htr, q1, q2, q3]
    exact ⟨rfl, rfl⟩

/-- A record whose separation is `1/2000000` above the center `1/2` of its bin
is accepted by the empty demonstration dataset. -/
theorem demo_addData_offCenter :
    addDataAll demoEmpty [⟨1, 1/2, 1000001/2000000, 1/2⟩] =
      .done (demoEmpty.stored 1 0
        ((1000001/2000000 + 1 / 12 / (1000001/2000000))
          * (1000001/2000000 + 1 / 12 / (1000001/2000000))) 0) := by
  have hf : ⌊((1000001/2000000 : ℚ) - 0) / 1⌋ = 0 := by
    rw [Int.floor_eq_iff]; norm_num
  have e2 : demoEmpty.separationBinning.getBinIndex (1000001/2000000) = some 0 := by
    show (demoBinning 3).getBinIndex (1000001/2000000) = some 0
    simp only [demoBinning, AbsBinning.getBinIndex, UniformBinning.getBinIndex, hf]
    rw [if_pos (by decide)]
  have e1 : demoEmpty.logLambdaBinning.getBinIndex (1/2) = some 0 := by
    have h := demoBinning_getBinIndex 2 0 (by decide) (by decide)
    have e : ((0 : ℤ) : ℚ) + 1/2 = 1/2 := by norm_num
    rw [e] at h
    exact h
  have e4 : demoEmpty.logLambdaBinning.getBinCenter 0 = some (1/2) := by
    have h := demoBinning_getBinCenter 2 0 (by decide) (by decide)
    have e : ((0 : ℤ) : ℚ) + 1/2 = 1/2 := by norm_num
    rw [e] at h
    exact h
  have e5 : demoEmpty.separationBinning.getBinCenter 0 = some (1/2) := by
    have h := demoBinning_getBinCenter 3 0 (by decide) (by decide)
    have e : ((0 : ℤ) : ℚ) + 1/2 = 1/2 := by norm_num
    rw [e] at h
    exact h
  have h := @addData_accept demoEmpty 1 (1/2) (1000001/2000000) (1/2) 0 0 0 (1/2) (1/2) (1/2) 1
    e1 e2 e1 e4 e5 e4 (by norm_num) (by norm_num [abs_of_pos]) (by norm_num) (by decide) rfl
  have ht0 : demoEmpty.cmath = demoLibm ∧ demoEmpty.cosmology = demoCosmology ∧
      demoEmpty.arcminToRad = 1 := by
    refine ⟨rfl, rfl, ?_⟩
    simp [demoEmpty, LyaData.create, demoLibm]
    norm_num
  rw [demo_transform _ _ ht0] at h
  unfold addDataAll
  rw [h]
  rfl

/-- C23 fails as stated: the record `(1, 1/2, 1/2 + 1/2000000, 1/2)` is
accepted into the bin with centers `(1/2, 1/2, 1/2)` and separation width `1`;
the stored `getRadius(0)` is computed from the separation passed and differs
from what `transform` returns at the bin centers. -/
theorem stored_coordinates_not_at_center :
    ∃ s, addDataAll demoEmpty [⟨1, 1/2, 1000001/2000000, 1/2⟩] = .done s ∧
      demoEmpty.separationBinning.getBinCenter 0 = some (1/2) ∧
      demoEmpty.separationBinning.getBinSize 0 = some 1 ∧
      s.getRedshift 0 = some (1/2) ∧
      s.getRadius 0 = (s.transform (1/2) (1000001/2000000) (1/2) 1).1 ∧
      s.getRadius 0 ≠ (s.transform (1/2) (1/2) (1/2) 1).1 := by
  have ht : ∀ sep : ℚ, (demoEmpty.stored 1 0
      ((1000001/2000000 + 1 / 12 / (1000001/2000000))
        * (1000001/2000000 + 1 / 12 / (1000001/2000000))) 0).transform (1/2) sep (1/2) 1
      = ((sep + 1 / 12 / sep) * (sep + 1 / 12 / sep), 0) := by
    intro sep
    apply demo_transform
    refine ⟨rfl, rfl, ?_⟩
    simp [LyaData.stored, demoEmpty, LyaData.create, demoLibm]
    norm_num
  have e5 : demoEmpty.separationBinning.getBinCenter 0 = some (1/2) := by
    have h := demoBinning_getBinCenter 3 0 (by decide) (by decide)
    have e : ((0 : ℤ) : ℚ) + 1/2 = 1/2 := by norm_num
    rw [e] at h
    exact h
  have e6 : demoEmpty.redshiftBinning.getBinCenter 0 = some (1/2) := by
    have h := demoBinning_getBinCenter 2 0 (by decide) (by decide)
    have e : ((0 : ℤ) : ℚ) + 1/2 = 1/2 := by norm_num
    rw [e] at h
    exact h
  refine ⟨_, demo_addData_offCenter, e5, rfl, e6, ?_, ?_⟩
  · rw [ht]
    rfl
  · rw [ht]
    show (1000001/2000000 + 1 / 12 / (1000001/2000000 : ℚ))
        * (1000001/2000000 + 1 / 12 / (1000001/2000000)) ≠ _
    norm_num

/-- C23 (amended), worked instance: the second demonstration record is passed
at the bin centers `(1/2, 3/2, 1/2)`, and its stored pair is the pair
`transform` returns there with the bin width `1`. -/
theorem stored_coordinates_witness :
    addDataAll demoEmpty demoRecords = .done demoFilled ∧
    ∃ zc, demoFilled.getRedshift 1 = some zc ∧
      demoFilled.getRadius 1 = (demoFilled.transform (1/2) (3/2) (1/2) 1).1 ∧
      demoFilled.getCosAngle 1 = (demoFilled.transform (1/2) (3/2) (1/2) 1).2 := by
  obtain ⟨a, b, c, ca, cb, cc, ds, -, -, -, -, -, -, e7, -, -, -, hred, hr, hm, -⟩ :=
    stored_coordinates demoLibm (demoBinning 2) (demoBinning 3) (demoBinning 2) demoCosmology
      demoRecords demoFilled demo_addDataAll 1 (by decide)
  have hds : ds = 1 := by
    rw [demoBinning_getBinSize] at e7
    cases e7
    rfl
  subst hds
  exact ⟨demo_addDataAll, cc, hred, hr, hm⟩

/-! ## C24: the parameters registered with the minimizer -/

/-- The eight parameters the constructor pushes. -/
theorem create_params {model : LyaBaoModel} {rmin rmax : ℚ} {fixBao noBBand : Bool}
    {lik : LyaBaoLikelihood}
    (h : LyaBaoLikelihood.create model rmin rmax fixBao noBBand = some lik) :
    lik.params =
      [ ⟨"Alpha", 3.8, true⟩, ⟨"Bias", 0.17, true⟩, ⟨"Beta", 1.0, true⟩,
        ⟨"BAO Ampl", 1, !fixBao⟩, ⟨"BAO Scale", 1, !fixBao⟩,
        ⟨"BB a1", 0, !noBBand⟩, ⟨"BB a2", 0, false⟩, ⟨"BB a3", 0, false⟩ ] := by
  unfold LyaBaoLikelihood.create at h
  split_ifs at h
  cases h
  rfl

/-- What `initialize` leaves in an empty minimizer state. -/
theorem initialise_create {model : LyaBaoModel} {rmin rmax : ℚ} {fixBao noBBand : Bool}
    {lik : LyaBaoLikelihood}
    (h : LyaBaoLikelihood.create model rmin rmax fixBao noBBand = some lik) :
    (lik.initialise ⟨[]⟩).parameters =
      [ ⟨"Alpha", 3.8, 0.38, false⟩, ⟨"Bias", 0.17, 0.017, false⟩, ⟨"Beta", 1, 0.1, false⟩,
        ⟨"BAO Ampl", 1, if fixBao then 0 else 0.1, fixBao⟩,
        ⟨"BAO Scale", 1, if fixBao then 0 else 0.1, fixBao⟩,
        ⟨"BB a1", 0, if noBBand then 0 else 0.1, noBBand⟩,
        ⟨"BB a2", 0, 0, true⟩, ⟨"BB a3", 0, 0, true⟩ ] := by
  unfold LyaBaoLikelihood.initialise
  rw [create_params h]
  cases fixBao <;> cases noBBand <;>
    simp [MinuitState.Add, MinuitState.Fix] <;> norm_num [abs_of_pos]

/-- C24. For every likelihood made by the constructor (any `fixBao`,
`noBBand`), `initialize` on an empty minimizer state registers exactly the
eight parameters `Alpha, Bias, Beta, BAO Ampl, BAO Scale, BB a1, BB a2, BB a3`,
in this order, which is the order `p[0..7]` in which `evaluate` reads them.
Every entry carries the name and the starting value of the parameter at its
position; a floating parameter has the step `0.1` if its value is zero and
otherwise 10% of its value, and is not marked fixed; a fixed parameter has
step `0` and is marked fixed. -/
theorem initialise_registers (model : LyaBaoModel) (rmin rmax : ℚ) (fixBao noBBand : Bool)
    (lik : LyaBaoLikelihood)
    (h : LyaBaoLikelihood.create model rmin rmax fixBao noBBand = some lik) :
    lik.getNPar = 8 ∧
    (lik.initialise ⟨[]⟩).parameters =
      [ ⟨"Alpha", 3.8, 0.38, false⟩, ⟨"Bias", 0.17, 0.017, false⟩, ⟨"Beta", 1, 0.1, false⟩,
        ⟨"BAO Ampl", 1, if fixBao then 0 else 0.1, fixBao⟩,
        ⟨"BAO Scale", 1, if fixBao then 0 else 0.1, fixBao⟩,
        ⟨"BB a1", 0, if noBBand then 0 else 0.1, noBBand⟩,
        ⟨"BB a2", 0, 0, true⟩, ⟨"BB a3", 0, 0, true⟩ ] ∧
    (lik.initialise ⟨[]⟩).parameters.length = lik.params.length ∧
    (∀ (k : ℕ) (par : Parameter) (e : MinuitParameter), lik.params[k]? = some par →
      (lik.initialise ⟨[]⟩).parameters[k]? = some e →
      e.name = par.name ∧ e.value = par.value ∧
      (par.floating = true →
        e.error = (if par.value = 0 then 0.1 else 0.1 * par.value) ∧ e.fixed = false) ∧
      (par.floating = false → e.error = 0 ∧ e.fixed = true)) := by
  have hp := create_params h
  have hinit := initialise_create h
  refine ⟨by simp [LyaBaoLikelihood.getNPar, hp], hinit, by rw [hinit, hp]; rfl, ?_⟩
  intro k par e hk he
  rw [hp] at hk
  rw [hinit] at he
  rcases k with _ | _ | _ | _ | _ | _ | _ | _ | k
  all_goals
    first
    | (simp only [List.getElem?_cons_zero, List.getElem?_cons_succ, Option.some.injEq] at hk he
       subst hk
       subst he
       cases fixBao <;> cases noBBand <;> simp <;> norm_num)
    | (simp at hk)

/-- C24, worked instance: the default configuration registers `BAO Ampl`,
`BAO Scale` and `BB a1` as floating with step `0.1`. -/
theorem initialise_registers_witness :
    LyaBaoLikelihood.create demoModel (4/9) (1444/225) false false = some demoLik ∧
    (demoLik.initialise ⟨[]⟩).parameters =
      [ ⟨"Alpha", 3.8, 0.38, false⟩, ⟨"Bias", 0.17, 0.017, false⟩, ⟨"Beta", 1, 0.1, false⟩,
        ⟨"BAO Ampl", 1, 0.1, false⟩, ⟨"BAO Scale", 1, 0.1, false⟩, ⟨"BB a1", 0, 0.1, false⟩,
        ⟨"BB a2", 0, 0, true⟩, ⟨"BB a3", 0, 0, true⟩ ] :=
  ⟨demo_create,
    (initialise_registers demoModel (4/9) (1444/225) false false demoLik demo_create).2.1⟩

/-! ## C25: the per-observation rows of `dump` -/

/-- The row `dump` writes for observation `k`. -/
theorem dumpRows_eq (lik : LyaBaoLikelihood) (m : Libm) (s : LyaData) (p : List ℚ)
    (ks : List ℕ) (hz : ∀ k ∈ ks, (s.getRedshift k).isSome) :
    lik.dumpRows m s p ks = some (ks.map (fun k =>
      (s.getIndex k, s.getData k,
        if lik.rmin ≤ s.getRadius k ∧ s.getRadius k ≤ lik.rmax then
          (s.getData k - lik.model.evaluate (s.getRadius k) (s.getCosAngle k)
            ((s.getRedshift k).getD 0) p) / m.sqrt (s.getVariance k)
        else 0))) := by
  induction ks with
  | nil => rfl
  | cons k rest ih =>
    have hk := hz k (List.mem_cons_self _ _)
    obtain ⟨z, hzk⟩ := Option.isSome_iff_exists.1 hk
    unfold LyaBaoLikelihood.dumpRows
    rw [ih (fun j hj => hz j (List.mem_cons_of_mem _ hj)), hzk]
    simp only [List.map_cons, Option.getD_some, ge_iff_le, hzk]

/-- C25. For the dataset that the loading sequence returns, every likelihood
and every parameter vector, `dump` writes one row per observation, and the row
of observation `k` is `(getIndex(k), getData(k), pull)`: the pull is `0` when
`getRadius(k)` is outside `[rmin, rmax]` and otherwise
`(getData(k) - evaluate(r, mu, z, params)) / sqrt(C_kk)`, where `C_kk`, the
value `getVariance(k)` reads from slot `k*(k+3)/2 = k + k*(k+1)/2`, is the
diagonal covariance value the records supply for `k`.  The window test is the
one of the objective: the pull is the residual of the objective divided by
`sqrt(C_kk)`. -/
theorem dump_rows (m0 : Libm) (llBins sepBins zBins : AbsBinning) (cosmology : Cosmology)
    (records : List DataRecord) (covRecords : List CovRecord) (s : LyaData)
    (h : loadData m0 llBins sepBins zBins cosmology records covRecords = .done s)
    (lik : LyaBaoLikelihood) (m : Libm) (p : List ℚ) :
    ∃ rows, lik.dumpData m s p = some rows ∧ rows.length = records.length ∧
      ∀ k < records.length, ∃ z, s.getRedshift k = some z ∧
        s.getVariance k = suppliedAt covRecords k k ∧
        k * (k + 3) / 2 = packedIndex k k ∧
        rows[k]? = some (s.getIndex k, s.getData k,
          if lik.rmin ≤ s.getRadius k ∧ s.getRadius k ≤ lik.rmax then
            (s.getData k - lik.model.evaluate (s.getRadius k) (s.getCosAngle k) z p)
              / m.sqrt (suppliedAt covRecords k k)
          else 0) ∧
        rows[k]? = some (s.getIndex k, s.getData k,
          lik.residual s p k / m.sqrt (suppliedAt covRecords k k)) := by
  obtain ⟨s1, s2, h1, h2, h3, f1, -, -, -, fcov, hlen, -, -, -, hred, -, -⟩ := loadData_fields h
  obtain ⟨-, -, hsz, -, -, hzero, -⟩ := addDataAll_create h1
  have hC := unpackU_addCovarianceAll hsz hzero h2
  have hl1 : s1.finalizeData.data.length = s.data.length := by
    show s1.data.length = s.data.length
    rw [f1]
  rw [hl1, ← fcov] at hC
  have hrows := dumpRows_eq lik m s p (List.range s.data.length)
    (fun k hk => hred k (List.mem_range.1 hk))
  have hdump : lik.dumpData m s p = lik.dumpRows m s p (List.range s.data.length) := by
    unfold LyaBaoLikelihood.dumpData
    simp only [LyaData.getNData, Int.toNat_ofNat]
  refine ⟨_, hdump.trans hrows, by simp [hlen], ?_⟩
  intro k hk
  have hk' : k < s.data.length := by rw [hlen]; exact hk
  obtain ⟨z, hz⟩ := Option.isSome_iff_exists.1 (hred k hk')
  have hvar : s.getVariance k = suppliedAt covRecords k k := by
    have := getVariance_eq_diag s ⟨k, hk'⟩
    rw [hC] at this
    exact this
  have hidx : k * (k + 3) / 2 = packedIndex k k := by
    unfold packedIndex
    have e : k * (k + 3) = k * (k + 1) + 2 * k := by ring
    rw [e, Nat.add_mul_div_left _ _ (by norm_num : 0 < 2)]
    omega
  have hrow : ((List.range s.data.length).map (fun k =>
      (s.getIndex k, s.getData k,
        if lik.rmin ≤ s.getRadius k ∧ s.getRadius k ≤ lik.rmax then
          (s.getData k - lik.model.evaluate (s.getRadius k) (s.getCosAngle k)
            ((s.getRedshift k).getD 0) p) / m.sqrt (s.getVariance k)
        else 0)))[k]? = some (s.getIndex k, s.getData k,
          if lik.rmin ≤ s.getRadius k ∧ s.getRadius k ≤ lik.rmax then
            (s.getData k - lik.model.evaluate (s.getRadius k) (s.getCosAngle k) z p)
              / m.sqrt (suppliedAt covRecords k k)
          else 0) := by
    rw [List.getElem?_map, List.getElem?_range hk']
    simp only [Option.map_some', hz, Option.getD_some, hvar]
  refine ⟨z, hz, hvar, hidx, hrow, ?_⟩
  rw [hrow]
  congr 3
  unfold LyaBaoLikelihood.residual
  rw [hz]
  split_ifs
  · rfl
  · rw [zero_div]

/-- C25, worked instance: for the loaded demonstration dataset `dump` writes
three rows, and the row of observation `1` holds its flat index, its value and
its residual divided by `sqrt` of the supplied variance `4`. -/
theorem dump_rows_witness :
    ∃ rows, demoLik.dumpData demoLibm demoLoaded demoParams = some rows ∧ rows.length = 3 ∧
      suppliedAt demoCovRecords 1 1 = 4 ∧ demoLoaded.getVariance 1 = 4 ∧
      rows[1]? = some (demoLoaded.getIndex 1, demoLoaded.getData 1,
        demoLik.residual demoLoaded demoParams 1 / demoLibm.sqrt (suppliedAt demoCovRecords 1 1)) := by
  obtain ⟨rows, h1, h2, h3⟩ := dump_rows demoLibm (demoBinning 2) (demoBinning 3) (demoBinning 2)
    demoCosmology demoRecords demoCovRecords demoLoaded demo_loadData demoLik demoLibm demoParams
  obtain ⟨z, -, hv, -, -, hrow⟩ := h3 1 (by decide)
  have h4 : suppliedAt demoCovRecords 1 1 = 4 := by decide
  exact ⟨rows, h1, h2, h4, hv.trans h4, hrow⟩

/-! ## C26: the objective leaves the dataset alone -/

/-- The scratch vector `_icovDelta` is overwritten before it is read: what the
objective returns, value and state, does not depend on its content. -/
theorem operatorCall_scratch (lik : LyaBaoLikelihood) (s : LyaData) (d p : List ℚ) :
    lik.operatorCall { s with icovDelta := d } p = lik.operatorCall s p := by
  have hfill : ∀ (ks : List ℕ) (delta : List ℚ),
      lik.fillDelta { s with icovDelta := d } p ks delta = lik.fillDelta s p ks delta := by
    intro ks
    induction ks with
    | nil => intro delta; rfl
    | cons k rest ih =>
      intro delta
      unfold LyaBaoLikelihood.fillDelta
      simp only [ih]
      rfl
  unfold LyaBaoLikelihood.operatorCall
  have hn : LyaData.getNData { s with icovDelta := d } = s.getNData := rfl
  simp only [hn, hfill]
  cases lik.fillDelta s p (List.range s.getNData.toNat) (List.replicate s.getNData.toNat 0) with
  | none => rfl
  | some delta => rfl

/-- The state the objective leaves differs from the one it found in
`_icovDelta` only. -/
theorem operatorCall_state {lik : LyaBaoLikelihood} {s s1 : LyaData} {p : List ℚ} {v : ℚ}
    (h : lik.operatorCall s p = some (v, s1)) : ∃ d, s1 = { s with icovDelta := d } := by
  unfold LyaBaoLikelihood.operatorCall at h
  simp only at h
  cases hf : lik.fillDelta s p (List.range s.getNData.toNat)
      (List.replicate s.getNData.toNat 0) with
  | none => rw [hf] at h; cases h
  | some delta =>
    rw [hf] at h
    simp only [Option.some.injEq, Prod.mk.injEq] at h
    exact ⟨_, h.2.symm.trans (calculateChiSquare_eq s delta).2⟩

/-- C26. `calculateChiSquare` changes no member of the dataset except the
scratch vector `_icovDelta`: observations, flat indices, `r3d`, `mu`,
covariance, inverse covariance and the flags are as before.  The objective
evaluated on the state an earlier evaluation left returns what it returns on
the original state; so evaluating at `p`, then at `q`, then at `p` again returns
the same value for `p` both times. -/
theorem objective_leaves_dataset (lik : LyaBaoLikelihood) (s : LyaData) (p q : List ℚ) :
    (∀ delta : List ℚ,
      (s.calculateChiSquare delta).2.data = s.data ∧
      (s.calculateChiSquare delta).2.index = s.index ∧
      (s.calculateChiSquare delta).2.r3d = s.r3d ∧
      (s.calculateChiSquare delta).2.mu = s.mu ∧
      (s.calculateChiSquare delta).2.cov = s.cov ∧
      (s.calculateChiSquare delta).2.hasCov = s.hasCov ∧
      (s.calculateChiSquare delta).2.icov = s.icov ∧
      (s.calculateChiSquare delta).2.initialized = s.initialized ∧
      (s.calculateChiSquare delta).2.dataFinalized = s.dataFinalized ∧
      (s.calculateChiSquare delta).2.covarianceFinalized = s.covarianceFinalized) ∧
    (∀ v1 s1, lik.operatorCall s p = some (v1, s1) →
      lik.operatorCall s1 q = lik.operatorCall s q ∧
      s1.data = s.data ∧ s1.cov = s.cov ∧ s1.icov = s.icov) ∧
    (∀ v1 s1 v2 s2, lik.operatorCall s p = some (v1, s1) →
      lik.operatorCall s1 q = some (v2, s2) →
      ∃ s3, lik.operatorCall s2 p = some (v1, s3)) := by
  refine ⟨?_, ?_, ?_⟩
  · intro delta
    rw [(calculateChiSquare_eq s delta).2]
    exact ⟨rfl, rfl, rfl, rfl, rfl, rfl, rfl, rfl, rfl, rfl⟩
  · intro v1 s1 h1
    obtain ⟨d, rfl⟩ := operatorCall_state h1
    exact ⟨operatorCall_scratch lik s d q, rfl, rfl, rfl⟩
  · intro v1 s1 v2 s2 h1 h2
    obtain ⟨d1, rfl⟩ := operatorCall_state h1
    obtain ⟨d2, rfl⟩ := operatorCall_state h2
    have e : lik.operatorCall { s with icovDelta := d2 } p = lik.operatorCall s p :=
      operatorCall_scratch lik s d2 p
    exact ⟨_, e.trans h1⟩

theorem demoLoaded_getRedshift : ∀ k < demoLoaded.data.length,
    demoLik.rmin ≤ demoLoaded.getRadius k ∧ demoLoaded.getRadius k ≤ demoLik.rmax →
    (demoLoaded.getRedshift k).isSome := by
  intro k hk _
  have h3 : demoLoaded.data.length = 3 := rfl
  rw [h3] at hk
  have hk' : k = 0 ∨ k = 1 ∨ k = 2 := by omega
  rcases hk' with rfl | rfl | rfl <;> decide

/-- C26, worked instance: on the loaded demonstration dataset the objective
is evaluated at `demoParams`, then at a vector with bias `2`, then at
`demoParams` again, and returns the first value the third time. -/
theorem objective_leaves_dataset_witness :
    ∃ v1 s1 v2 s2 s3, demoLik.operatorCall demoLoaded demoParams = some (v1, s1) ∧
      demoLik.operatorCall s1 [1, 2, 1, 1, 1, 0, 0, 0] = some (v2, s2) ∧
      demoLik.operatorCall s2 demoParams = some (v1, s3) ∧
      s2.data = demoLoaded.data ∧ s2.icov = demoLoaded.icov := by
  obtain ⟨d1, -, -, h1⟩ := operatorCall_eq demoLik demoLoaded demoParams demoLoaded_getRedshift
  obtain ⟨d2, -, -, h2⟩ :=
    operatorCall_eq demoLik demoLoaded [1, 2, 1, 1, 1, 0, 0, 0] demoLoaded_getRedshift
  have h := objective_leaves_dataset demoLik demoLoaded demoParams [1, 2, 1, 1, 1, 0, 0, 0]
  have h2' := (h.2.1 _ _ h1).1.trans h2
  obtain ⟨s3, h3⟩ := h.2.2 _ _ _ _ h1 h2'
  exact ⟨_, _, _, _, s3, h1, h2', h3, rfl, rfl⟩

/-! ## C27: the model grid of `dump` -/

/-- The model binning of `dump` for an axis with outer edges `lo < hi` and
`modelBins ≥ 2`: its bins have the width `(hi - lo)/(modelBins - 1)`, so its
upper edge lies one bin width above `hi`, and the center of its last bin lies
half a bin width above `hi`. -/
theorem modelBinning_overshoot (bins : AbsBinning) (modelBins : ℤ) (lo hi : ℚ)
    (hlo : bins.getBinLowEdge 0 = some lo) (hhi : bins.getBinLowEdge bins.getNBins = some hi)
    (hlt : lo < hi) (hm : 2 ≤ modelBins) :
    ∃ b, LyaBaoLikelihood.modelBinning bins modelBins = some b ∧
      b.getNBins = modelBins ∧ b.getBinLowEdge 0 = some lo ∧
      b.getBinLowEdge modelBins = some (hi + (hi - lo) / ((modelBins : ℚ) - 1)) ∧
      b.getBinCenter (modelBins - 1) = some (hi + (1/2) * ((hi - lo) / ((modelBins : ℚ) - 1))) ∧
      hi < hi + (1/2) * ((hi - lo) / ((modelBins : ℚ) - 1)) := by
  have hm1 : (0 : ℚ) < (modelBins : ℚ) - 1 := by
    have : (2 : ℚ) ≤ (modelBins : ℚ) := by exact_mod_cast hm
    linarith
  have hsz : 0 < (hi - lo) / ((modelBins : ℚ) - 1) := div_pos (by linarith) hm1
  refine ⟨⟨modelBins, lo, (hi - lo) / ((modelBins : ℚ) - 1)⟩, ?_, rfl, ?_, ?_, ?_, ?_⟩
  · unfold LyaBaoLikelihood.modelBinning
    rw [hlo, hhi]
    unfold UniformBinning.create
    simp only
    rw [if_pos ⟨by omega, hsz⟩]
  · unfold UniformBinning.getBinLowEdge
    rw [if_pos ⟨le_refl _, by show (0 : ℤ) ≤ modelBins; omega⟩]
    simp
  · unfold UniformBinning.getBinLowEdge
    rw [if_pos ⟨by show modelBins ≥ 0; omega, le_refl _⟩]
    congr 1
    show lo + (modelBins : ℚ) * ((hi - lo) / ((modelBins : ℚ) - 1)) = _
    field_simp
    ring
  · unfold UniformBinning.getBinCenter UniformBinning.getBinLowEdge UniformBinning.getBinSize
    rw [if_pos ⟨by show modelBins - 1 ≥ 0; omega, by show modelBins - 1 ≤ modelBins; omega⟩]
    simp only
    congr 1
    push_cast
    field_simp
  · linarith

/-- C27, the code at the failing input: for the separation axis
`UniformBinning(3, 0, 1)` (`sepMin = 0`, `sepMax = 3`) and `modelBins = 2`,
`dump` builds `UniformBinning(2, 0, 3)`, whose upper edge is `6` and whose
second sample center is `9/2`, outside `[0, 3]`. -/
theorem modelBinning_beyond_range :
    (demoBinning 3).getBinLowEdge 0 = some 0 ∧
    (demoBinning 3).getBinLowEdge (demoBinning 3).getNBins = some 3 ∧
    LyaBaoLikelihood.modelBinning (demoBinning 3) 2 = some ⟨2, 0, 3⟩ ∧
    UniformBinning.getBinLowEdge ⟨2, 0, 3⟩ 2 = some 6 ∧
    UniformBinning.getBinCenter ⟨2, 0, 3⟩ 1 = some (9/2) ∧
    ¬ ((9/2 : ℚ) ≤ 3) := by
  have h0 : (demoBinning 3).getBinLowEdge 0 = some 0 := by
    simp [demoBinning, AbsBinning.getBinLowEdge, UniformBinning.getBinLowEdge]
  have h3 : (demoBinning 3).getBinLowEdge (demoBinning 3).getNBins = some 3 := by
    simp [demoBinning, AbsBinning.getBinLowEdge, UniformBinning.getBinLowEdge,
      AbsBinning.getNBins, UniformBinning.getNBins]
  refine ⟨h0, h3, ?_, ?_, ?_, by norm_num⟩
  · unfold LyaBaoLikelihood.modelBinning
    rw [h0, h3]
    unfold UniformBinning.create
    simp only
    rw [if_pos ⟨by decide, by norm_num⟩]
    norm_num
  · unfold UniformBinning.getBinLowEdge
    rw [if_pos ⟨by decide, by decide⟩]
    norm_num
  · unfold UniformBinning.getBinCenter UniformBinning.getBinLowEdge UniformBinning.getBinSize
    rw [if_pos ⟨by decide, by decide⟩]
    norm_num

/-! ## C28: `finalizeCovariance` keeps the covariance -/

/-- C28. `finalizeCovariance` works on the copy `_icov` and leaves `_cov` and
`_hasCov` as they are: when `addCovariance(k,k,v)` has been accepted on a
dataset with a covariance store of the size `finalizeData` gives it, whatever
further entries were accepted afterwards, `getVariance(k)` after a completed
`finalizeCovariance` is `v`, and `getNCov()` is what it was before the call. -/
theorem finalizeCovariance_keeps_covariance (s0 s1 s2 s3 : LyaData) (k : ℕ) (v : ℚ)
    (mids : List CovRecord) (hsz : s0.CovSized)
    (h1 : s0.addCovariance (k : ℤ) (k : ℤ) v = .done s1)
    (h2 : addCovarianceAll s1 mids = .done s2)
    (h3 : s2.finalizeCovariance = .done s3) :
    s3.cov = s2.cov ∧ s3.hasCov = s2.hasCov ∧ s3.data = s2.data ∧
    s3.getNCov = s2.getNCov ∧ s3.getVariance k = v ∧ s2.getVariance k = v := by
  obtain ⟨hf, hpd⟩ := finalizeCovariance_done h3
  have hs3 : s3 = s2.inverted := by
    have := (finalizeCovariance_posDef s2 hf hpd).1
    rw [this] at h3
    cases h3
    rfl
  subst hs3
  obtain ⟨hc, rfl⟩ := addCovariance_done h1
  have hk : (k : ℤ) < (s0.data.length : ℤ) := by
    have := hc.2.2.1
    rw [max_self] at this
    exact this
  have hslot : covSlot (k : ℤ) (k : ℤ) = k * (k + 3) / 2 := by
    unfold covSlot packedIndex
    rw [min_self, max_self, Int.toNat_ofNat]
    have h : k * (k + 3) = k * (k + 1) + 2 * k := by ring
    rw [h, Nat.add_mul_div_left _ _ (by norm_num : 0 < 2)]
    omega
  have hlt : covSlot (k : ℤ) (k : ℤ) < s0.data.length * (s0.data.length + 1) / 2 :=
    covSlot_lt_of_range (Int.natCast_nonneg k) (Int.natCast_nonneg k) hk hk
  have hkeep := addCovarianceAll_keeps h2 (show
      (s0.hasCov.set (covSlot (k : ℤ) (k : ℤ)) true).getD (covSlot (k : ℤ) (k : ℤ)) false = true
      from getD_set_self _ _ _ _ (by rw [hsz.2]; exact hlt))
  have hval : s2.getVariance k = v := by
    unfold LyaData.getVariance
    rw [← hslot, hkeep.2]
    exact getD_set_self _ _ _ _ (by rw [hsz.1]; exact hlt)
  exact ⟨rfl, rfl, rfl, rfl, hval, hval⟩

/-- The demonstration dataset is the one `finalizeCovariance` leaves when it is
called on the dataset with the three variances entered. -/
theorem demo_finalizeCovariance : demoCov.finalizeCovariance = .done demoLoaded := by
  obtain ⟨s1, s2, h1, h2, h3⟩ := loadData_done demo_loadData
  have e1 : s1 = demoFilled := by
    have := h1.symm.trans demo_addDataAll
    cases this
    rfl
  subst e1
  have e2 : s2 = demoCov := by
    have := h2.symm.trans demo_addCovarianceAll
    cases this
    rfl
  subst e2
  exact h3

/-- C28, worked instance: the variances `1, 4, 9` of the demonstration dataset
are read back after `finalizeCovariance`, and all three entries are still
counted. -/
theorem finalizeCovariance_keeps_covariance_witness :
    demoLoaded.getVariance 1 = 4 ∧ demoLoaded.getNCov = 3 ∧ demoLoaded.cov = demoCov.cov := by
  have hfin := demo_finalizeCovariance
  have ha : (demoFinal.filled 0 1).addCovariance ((1 : ℕ) : ℤ) ((1 : ℕ) : ℤ) 4
      = .done ((demoFinal.filled 0 1).filled 2 4) := by
    rw [addCovariance_eq, if_pos]
    · rfl
    · exact ⟨rfl, by decide, by decide, Or.inr (by norm_num), by decide⟩
  have hb : addCovarianceAll ((demoFinal.filled 0 1).filled 2 4) [⟨2, 2, 9⟩] = .done demoCov := by
    unfold addCovarianceAll
    rw [addCovariance_eq, if_pos]
    · rfl
    · exact ⟨rfl, by decide, by decide, Or.inr (by norm_num), by decide⟩
  have h := finalizeCovariance_keeps_covariance (demoFinal.filled 0 1) _ demoCov demoLoaded 1 4
    [⟨2, 2, 9⟩] ⟨by decide, by decide⟩ ha hb hfin
  exact ⟨h.2.2.2.2.1, by rw [h.2.2.2.1]; decide, h.1⟩

/-! ## C29: the bookkeeping of `addData` -/

/-- A well-formed binning has at least one bin. -/
theorem AbsBinning.WellFormed.one_le {b : AbsBinning} (h : b.WellFormed) : 1 ≤ b.getNBins := by
  cases b with
  | ofUniform u =>
    obtain ⟨n, lo, sz, hc⟩ := h
    unfold UniformBinning.create at hc
    split_ifs at hc with hp
    cases hc
    show 1 ≤ n
    omega
  | ofVariable v =>
    have h2 : 2 ≤ v.binEdge.length := h
    show 1 ≤ ((v.binEdge.length : ℕ) : ℤ) - 1
    omega
  | ofTwoStep t =>
    obtain ⟨m, n, bp, dlog, dlin, eps, hc⟩ := h
    obtain ⟨-, hlen, -⟩ := twoStep_layout hc
    show 1 ≤ ((t.binEdge.length : ℕ) : ℤ) - 1
    omega

/-- In a well-formed binning a bin that has a center has a width. -/
theorem AbsBinning.WellFormed.size_of_center {b : AbsBinning} (h : b.WellFormed) {i : ℤ}
    {c : ℚ} (hc : b.getBinCenter i = some c) : ∃ ds, b.getBinSize i = some ds := by
  cases b with
  | ofUniform u => exact ⟨u.binSize, rfl⟩
  | ofVariable v =>
    simp only [AbsBinning.getBinCenter, VariableBinning.getBinCenter] at hc
    simp only [AbsBinning.getBinSize]
    cases hs : v.getBinSize i with
    | none =>
      rw [hs] at hc
      cases hl : v.getBinLowEdge i with
      | none => rw [hl] at hc; cases hc
      | some lo => rw [hl] at hc; cases hc
    | some ds => exact ⟨ds, rfl⟩
  | ofTwoStep t =>
    obtain ⟨m, n, bp, dlog, dlin, eps, hcr⟩ := h
    obtain ⟨-, hlenE, hlenC, -⟩ := twoStep_layout hcr
    simp only [AbsBinning.getBinCenter, TwoStepBinning.getBinCenter] at hc
    split_ifs at hc with hi
    simp only [AbsBinning.getBinSize, TwoStepBinning.toVariable, VariableBinning.getBinSize]
    rw [if_pos ⟨hi.1, by omega⟩]
    exact ⟨_, rfl⟩

/-- With a well-formed separation axis a rejected `addData` leaves the dataset
as it was. -/
theorem addData_failed {s s' : LyaData} {value logLambda separation redshift : ℚ}
    {why : Failure} (hsep : s.separationBinning.WellFormed)
    (h : s.addData value logLambda separation redshift = .failed why s') : s' = s := by
  unfold LyaData.addData at h
  split at h
  · rename_i a b c e1 e2 e3
    simp only at h
    split at h
    · rename_i ca cb cc e4 e5 e6
      obtain ⟨ds, hds⟩ := hsep.size_of_center e5
      split_ifs at h
      all_goals first
        | (cases h; rfl)
        | (simp only [hds] at h; cases h)
    · cases h; rfl
  · cases h; rfl

theorem getD_replicate_false (n k : ℕ) : (List.replicate n false).getD k false = false := by
  by_cases hk : k < n
  · rw [List.getD_eq_getElem _ _ (by simpa using hk)]
    simp
  · rw [List.getD_eq_default _ _ (by simpa using hk)]

theorem create_consistent (m : Libm) (llBins sepBins zBins : AbsBinning) (c : Cosmology) :
    (LyaData.create m llBins sepBins zBins c).Consistent := by
  refine ⟨rfl, rfl, rfl, List.nodup_nil, ?_, ?_⟩
  · intro i hi
    cases hi
  · intro i _ _
    have : (LyaData.create m llBins sepBins zBins c).initialized
        = List.replicate (llBins.getNBins * sepBins.getNBins * zBins.getNBins).toNat false := by
      simp [LyaData.create, vectorResize]
    rw [this, getD_replicate_false]
    constructor
    · intro h; cases h
    · intro h; cases h

/-- An accepted `addData` keeps the bookkeeping, adds one observation and
leaves the earlier ones alone. -/
theorem addData_consistent {s s' : LyaData} {value logLambda separation redshift : ℚ}
    (hw : s.WellSized) (hc : s.Consistent)
    (h : s.addData value logLambda separation redshift = .done s') :
    s'.WellSized ∧ s'.Consistent ∧ s'.getNData = s.getNData + 1 ∧
    ∀ k < s.data.length, s'.getData k = s.getData k ∧ s'.getIndex k = s.getIndex k ∧
      s'.getRadius k = s.getRadius k ∧ s'.getCosAngle k = s.getCosAngle k := by
  obtain ⟨a, b, c, ca, cb, cc, ds, e1, e2, e3, e4, e5, e6, -, -, -, hi, -, rfl⟩ := addData_done h
  have r1 := AbsBinning.bin_in_range e1 e4
  have r2 := AbsBinning.bin_in_range e2 e5
  have r3 := AbsBinning.bin_in_range e3 e6
  obtain ⟨w1, w2, w3, w4⟩ := hw
  rw [← w1] at r2
  rw [← w2] at r3
  have hr := flatIndex_range r1.1 r1.2 r2.1 r2.2 r3.1 r3.2
  have hr0 : 0 ≤ s.flatIndex a b c := hr.1
  have hr1 : s.flatIndex a b c < s.getSize := by
    show s.flatIndex a b c < s.nBinsTotal
    rw [w3]
    exact hr.2
  obtain ⟨c1, c2, c3, c4, c5, c6⟩ := hc
  have hnew : s.flatIndex a b c ∉ s.index := by
    intro hm
    have := (c6 _ hr0 hr1).2 hm
    rw [hi] at this
    exact Bool.noConfusion this
  refine ⟨⟨w1, w2, w3, ?_⟩, ⟨?_, ?_, ?_, ?_, ?_, ?_⟩, ?_, ?_⟩
  · show (s.initialized.set _ true).length = _
    rw [List.length_set]
    exact w4
  · show (s.index ++ [_]).length = (s.data ++ [value]).length
    rw [List.length_append, List.length_append, c1]
    rfl
  · show (s.r3d ++ [_]).length = (s.data ++ [value]).length
    rw [List.length_append, List.length_append, c2]
    rfl
  · show (s.mu ++ [_]).length = (s.data ++ [value]).length
    rw [List.length_append, List.length_append, c3]
    rfl
  · show (s.index ++ [s.flatIndex a b c]).Nodup
    rw [List.nodup_append]
    refine ⟨c4, List.nodup_singleton _, ?_⟩
    intro x hx hx'
    rw [List.mem_singleton] at hx'
    rw [hx'] at hx
    exact hnew hx
  · intro i hm
    have hm' : i ∈ s.index ++ [s.flatIndex a b c] := hm
    rcases List.mem_append.1 hm' with h1 | h1
    · exact c5 i h1
    · rw [List.mem_singleton] at h1
      rw [h1]
      exact ⟨hr0, hr1⟩
  · intro i hi0 hi1
    show (s.initialized.set (s.flatIndex a b c).toNat true).getD i.toNat false = true
      ↔ i ∈ s.index ++ [s.flatIndex a b c]
    rw [List.mem_append, List.mem_singleton]
    by_cases he : i = s.flatIndex a b c
    · rw [he, getD_set_self _ _ _ _ (by
        rw [w4]
        have : s.flatIndex a b c < s.nBinsTotal := hr1
        omega)]
      exact ⟨fun _ => Or.inr rfl, fun _ => rfl⟩
    · rw [getD_set_other _ _ _ _ _ (by omega)]
      rw [c6 i hi0 hi1]
      constructor
      · intro hm; exact Or.inl hm
      · rintro (hm | hm)
        · exact hm
        · exact absurd hm he
  · show (((s.data ++ [value]).length : ℕ) : ℤ) = ((s.data.length : ℕ) : ℤ) + 1
    rw [List.length_append]
    push_cast
    rfl
  · intro k hk
    refine ⟨?_, ?_, ?_, ?_⟩
    · show (s.data ++ [value]).getD k 0 = s.data.getD k 0
      rw [List.getD_append _ _ _ _ hk]
    · show (s.index ++ [_]).getD k 0 = s.index.getD k 0
      rw [List.getD_append _ _ _ _ (by rw [c1]; exact hk)]
    · show (s.r3d ++ [_]).getD k 0 = s.r3d.getD k 0
      rw [List.getD_append _ _ _ _ (by rw [c2]; exact hk)]
    · show (s.mu ++ [_]).getD k 0 = s.mu.getD k 0
      rw [List.getD_append _ _ _ _ (by rw [c3]; exact hk)]

/-- Pairwise distinct flat indices inside a grid of `size` bins are at most
`size` many. -/
theorem nodup_length_le {l : List ℤ} {size : ℤ} (hn : l.Nodup)
    (hr : ∀ i ∈ l, 0 ≤ i ∧ i < size) : (l.length : ℤ) ≤ max size 0 := by
  have hmap : (l.map Int.toNat).Nodup := by
    apply List.Nodup.map_on _ hn
    intro x hx y hy hxy
    have := (hr x hx).1
    have := (hr y hy).1
    omega
  have hsub : l.map Int.toNat ⊆ List.range size.toNat := by
    intro k hk
    obtain ⟨i, hi, rfl⟩ := List.mem_map.1 hk
    rw [List.mem_range]
    have := hr i hi
    omega
  have hle := (List.subperm_of_subset hmap hsub).length_le
  rw [List.length_map, List.length_range] at hle
  omega

/-- The facts that every state after a sequence of `addData` calls shares. -/
theorem afterCalls_consistent (calls : List DataRecord) :
    ∀ s : LyaData, s.WellSized → s.Consistent → s.separationBinning.WellFormed →
      (s.afterCalls calls).WellSized ∧ (s.afterCalls calls).Consistent ∧
      (s.afterCalls calls).separationBinning = s.separationBinning ∧
      (s.afterCalls calls).getSize = s.getSize := by
  induction calls with
  | nil => intro s hw hc _; exact ⟨hw, hc, rfl, rfl⟩
  | cons r rest ih =>
    intro s hw hc hsep
    unfold LyaData.afterCalls
    cases h : s.addData r.value r.logLambda r.separation r.redshift with
    | done s1 =>
      simp only
      obtain ⟨hw1, hc1, -, -⟩ := addData_consistent hw hc h
      have f := addData_frame h
      have hb : s1.separationBinning = s.separationBinning := f.2.2.1
      have hsz : s1.getSize = s.getSize := f.2.2.2.2.2.2.2.2.2.2.2.1
      obtain ⟨a1, a2, a3, a4⟩ := ih s1 hw1 hc1 (by rw [hb]; exact hsep)
      exact ⟨a1, a2, a3.trans hb, a4.trans hsz⟩
    | failed why s1 =>
      simp only
      have e := addData_failed hsep h
      subst e
      exact ih s1 hw hc hsep

/-- C29. In every state a dataset constructed over well-formed binnings is in
after any sequence of `addData` calls, accepted or rejected: the flat-index,
`r3d` and `mu` vectors have as many entries as the value vector, which is
`getNData()`; the stored flat indices are pairwise distinct and lie in
`[0, getSize())`; the flag of a bin is raised exactly when its flat index is
stored; and `getNData() ≤ getSize()`.  A further accepted call increases
`getNData()` by one and leaves `getData`, `getIndex`, `getRadius` and
`getCosAngle` of the earlier observations unchanged; a rejected call leaves
the dataset unchanged. -/
theorem addData_bookkeeping (m : Libm) (llBins sepBins zBins : AbsBinning)
    (cosmology : Cosmology) (hll : llBins.WellFormed) (hsep : sepBins.WellFormed)
    (hz : zBins.WellFormed) (calls : List DataRecord) (s : LyaData)
    (hs : s = (LyaData.create m llBins sepBins zBins cosmology).afterCalls calls) :
    (s.getNData = (s.data.length : ℤ) ∧ s.index.length = s.data.length ∧
      s.r3d.length = s.data.length ∧ s.mu.length = s.data.length) ∧
    s.index.Nodup ∧ (∀ i ∈ s.index, 0 ≤ i ∧ i < s.getSize) ∧
    (∀ i : ℤ, 0 ≤ i → i < s.getSize →
      (s.initialized.getD i.toNat false = true ↔ i ∈ s.index)) ∧
    s.getNData ≤ s.getSize ∧
    (∀ (r : DataRecord) (s' : LyaData),
      s.addData r.value r.logLambda r.separation r.redshift = .done s' →
      s'.getNData = s.getNData + 1 ∧
      ∀ k < s.data.length, s'.getData k = s.getData k ∧ s'.getIndex k = s.getIndex k ∧
        s'.getRadius k = s.getRadius k ∧ s'.getCosAngle k = s.getCosAngle k) ∧
    (∀ (r : DataRecord) (why : Failure) (s' : LyaData),
      s.addData r.value r.logLambda r.separation r.redshift = .failed why s' → s' = s) := by
  have hw0 := create_wellSized m llBins sepBins zBins cosmology
  have hc0 := create_consistent m llBins sepBins zBins cosmology
  obtain ⟨hw, hc, hb, hsz⟩ := afterCalls_consistent calls _ hw0 hc0 hsep
  rw [← hs] at hw hc hb hsz
  have hsep' : s.separationBinning.WellFormed := by rw [hb]; exact hsep
  have hsize : 0 ≤ s.getSize := by
    rw [hsz]
    show 0 ≤ llBins.getNBins * sepBins.getNBins * zBins.getNBins
    have h1 := hll.one_le
    have h2 := hsep.one_le
    have h3 := hz.one_le
    exact mul_nonneg (mul_nonneg (by omega) (by omega)) (by omega)
  obtain ⟨c1, c2, c3, c4, c5, c6⟩ := hc
  refine ⟨⟨rfl, c1, c2, c3⟩, c4, c5, c6, ?_, ?_, ?_⟩
  · have := nodup_length_le c4 c5
    rw [c1, max_eq_left hsize] at this
    exact this
  · intro r s' h
    obtain ⟨-, -, a3, a4⟩ := addData_consistent hw ⟨c1, c2, c3, c4, c5, c6⟩ h
    exact ⟨a3, a4⟩
  · intro r why s' h
    exact addData_failed hsep' h

theorem afterCalls_of_addDataAll {records : List DataRecord} {s t : LyaData}
    (h : addDataAll s records = .done t) : s.afterCalls records = t := by
  induction records generalizing s with
  | nil => cases h; rfl
  | cons r rest ih =>
    unfold addDataAll at h
    unfold LyaData.afterCalls
    cases h1 : s.addData r.value r.logLambda r.separation r.redshift with
    | failed why v => rw [h1] at h; cases h
    | done s1 =>
      rw [h1] at h
      exact ih h

theorem demoBinning_wellFormed (n : ℤ) (hn : 0 < n) : (demoBinning n).WellFormed := by
  refine ⟨n, 0, 1, ?_⟩
  unfold UniformBinning.create
  rw [if_pos ⟨hn, by norm_num⟩]

/-- C29, worked instance: after the three demonstration records the dataset
holds three observations with three distinct flat indices in a grid of twelve
bins. -/
theorem addData_bookkeeping_witness :
    demoEmpty.afterCalls demoRecords = demoFilled ∧
    demoFilled.index.length = demoFilled.data.length ∧ demoFilled.index.Nodup ∧
    demoFilled.getNData ≤ demoFilled.getSize ∧ demoFilled.getSize = 12 := by
  have hs := afterCalls_of_addDataAll demo_addDataAll
  have h := addData_bookkeeping demoLibm (demoBinning 2) (demoBinning 3) (demoBinning 2)
    demoCosmology (demoBinning_wellFormed 2 (by decide)) (demoBinning_wellFormed 3 (by decide))
    (demoBinning_wellFormed 2 (by decide)) demoRecords demoFilled hs.symm
  exact ⟨hs, h.1.2.1, h.2.1, h.2.2.2.2.1, by decide⟩

/-! ## C30: the contour requests of `main` -/

/-- C30, the code at the failing input.  In the default configuration
(`fixBao = noBBand = false`) the constructor makes parameter `6`, `BB a2`, a
fixed parameter and `initialize` registers it with step `0` and marks it
fixed, while `main` requests the contours of the pairs `(5,6)`, `(4,6)` and
`(1,6)`; the parameters of the other six pairs are floating. -/
theorem contour_pairs_fixed_parameter :
    LyaBaoLikelihood.create demoModel (4/9) (1444/225) false false = some demoLik ∧
    (5, 6) ∈ contourPairs ∧ (4, 6) ∈ contourPairs ∧ (1, 6) ∈ contourPairs ∧
    demoLik.params[6]? = some ⟨"BB a2", 0, false⟩ ∧
    (demoLik.initialise ⟨[]⟩).parameters[6]? = some ⟨"BB a2", 0, 0, true⟩ ∧
    (∀ pair ∈ contourPairs, pair.2 ≠ 6 →
      (demoLik.params[pair.1]?.map (fun par => par.floating)) = some true ∧
      (demoLik.params[pair.2]?.map (fun par => par.floating)) = some true) := by
  have hi : (demoLik.initialise ⟨[]⟩).parameters[6]? = some ⟨"BB a2", 0, 0, true⟩ := by
    rw [initialise_create demo_create]
    rfl
  refine ⟨demo_create, by decide, by decide, by decide, rfl, hi, ?_⟩
  intro pair hp hne
  simp only [contourPairs, List.mem_cons, List.mem_singleton, List.not_mem_nil, or_false] at hp
  rcases hp with rfl | rfl | rfl | rfl | rfl | rfl | rfl | rfl | rfl
  all_goals first | exact absurd rfl hne | exact ⟨rfl, rfl⟩

/-! ## Binary64 rounding -/

theorem roundHalfEven_intCast (n : ℤ) : roundHalfEven (n : ℚ) = n := by
  unfold roundHalfEven
  simp

/-- The nearest integer is within one half. -/
theorem roundHalfEven_err (q : ℚ) : |(roundHalfEven q : ℚ) - q| ≤ 1/2 := by
  have h1 := Int.floor_le q
  have h2 := Int.lt_floor_add_one q
  unfold roundHalfEven
  simp only
  rw [abs_le]
  split_ifs with ha hb hc
  · constructor <;> linarith
  · push_cast
    constructor <;> linarith
  · have : q - (⌊q⌋ : ℚ) = 1/2 := le_antisymm (not_lt.1 hb) (not_lt.1 ha)
    constructor <;> linarith
  · have : q - (⌊q⌋ : ℚ) = 1/2 := le_antisymm (not_lt.1 hb) (not_lt.1 ha)
    push_cast
    constructor <;> linarith

theorem ulpExponent_eq {x : ℚ} {e : ℤ} (hlo : (2 : ℚ) ^ e ≤ |x|) (hhi : |x| < (2 : ℚ) ^ (e + 1)) :
    ulpExponent x = max e (-1022) - 52 := by
  have hpos : 0 < |x| := lt_of_lt_of_le (zpow_pos (by norm_num) e) hlo
  have h1 : e ≤ Int.log 2 |x| := by
    have := (@Int.zpow_le_iff_le_log ℚ _ _ 2 (by norm_num) e |x| hpos).1 (by exact_mod_cast hlo)
    exact this
  have h2 : Int.log 2 |x| < e + 1 := by
    have := (@Int.lt_zpow_iff_log_lt ℚ _ _ 2 (by norm_num) (e + 1) |x| hpos).1 (by exact_mod_cast hhi)
    exact this
  have : Int.log 2 |x| = e := by omega
  unfold ulpExponent
  rw [this]

/-- Evaluation of `roundDouble` once the binade of the argument is known. -/
theorem roundDouble_eq {x : ℚ} (e : ℤ) (hlo : (2 : ℚ) ^ e ≤ |x|) (hhi : |x| < (2 : ℚ) ^ (e + 1)) :
    roundDouble x = (roundHalfEven (x / (2 : ℚ) ^ (max e (-1022) - 52)) : ℚ)
      * (2 : ℚ) ^ (max e (-1022) - 52) := by
  unfold roundDouble
  rw [ulpExponent_eq hlo hhi]

theorem roundDouble_zero : roundDouble 0 = 0 := by
  unfold roundDouble
  simp [roundHalfEven]

/-- Every `m * 2^e` with `|m| < 2^53` and `e ≥ -1074` is a binary64 number. -/
theorem isDouble_of_dyadic (m e : ℤ) (hm : |m| < 2 ^ 53) (he : -1074 ≤ e) :
    IsDouble ((m : ℚ) * (2 : ℚ) ^ e) := by
  unfold IsDouble
  by_cases hm0 : m = 0
  · subst hm0
    simp [roundDouble_zero]
  set x : ℚ := (m : ℚ) * (2 : ℚ) ^ e with hx
  have h2 : (0 : ℚ) < 2 := by norm_num
  have hpe : (0 : ℚ) < (2 : ℚ) ^ e := zpow_pos h2 e
  have habs : |x| = (|m| : ℤ) * (2 : ℚ) ^ e := by
    rw [hx, abs_mul, abs_of_pos hpe, Int.cast_abs]
  have hxpos : 0 < |x| := by
    rw [habs]
    have : (0 : ℚ) < ((|m| : ℤ) : ℚ) := by exact_mod_cast abs_pos.2 hm0
    positivity
  set k := Int.log 2 |x| with hk
  have hk1 : (2 : ℚ) ^ k ≤ |x| := by
    have := @Int.zpow_log_le_self ℚ _ _ 2 |x| (by norm_num) hxpos
    exact_mod_cast this
  have hlt : |x| < (2 : ℚ) ^ (e + 53) := by
    rw [habs, zpow_add₀ (by norm_num : (2 : ℚ) ≠ 0), mul_comm ((2 : ℚ) ^ e)]
    have : (((|m| : ℤ)) : ℚ) < (2 : ℚ) ^ (53 : ℤ) := by
      have h53 : ((|m| : ℤ) : ℚ) < ((2 ^ 53 : ℤ) : ℚ) := Int.cast_lt.2 hm
      have e53 : ((2 ^ 53 : ℤ) : ℚ) = (2 : ℚ) ^ (53 : ℤ) := by norm_num
      rw [e53] at h53
      exact h53
    exact mul_lt_mul_of_pos_right this hpe
  have hk2 : k < e + 53 := by
    have := lt_of_le_of_lt hk1 hlt
    exact (zpow_lt_zpow_iff_right₀ (by norm_num : (1 : ℚ) < 2)).1 this
  have hu : ulpExponent x ≤ e := by
    unfold ulpExponent
    rw [← hk]
    have := max_le (by omega : k ≤ e + 52) (by omega : (-1022 : ℤ) ≤ e + 52)
    omega
  unfold roundDouble
  generalize ulpExponent x = u at hu
  obtain ⟨d, hd⟩ := Int.eq_ofNat_of_zero_le (by omega : 0 ≤ e - u)
  have hne : (2 : ℚ) ^ u ≠ 0 := ne_of_gt (zpow_pos h2 _)
  have hq : x / (2 : ℚ) ^ u = ((m * 2 ^ d : ℤ) : ℚ) := by
    have he' : e = u + d := by omega
    rw [hx, he', zpow_add₀ (by norm_num : (2 : ℚ) ≠ 0), zpow_natCast]
    field_simp
    ring
  rw [hq, roundHalfEven_intCast, ← hq]
  field_simp

/-- Rounding error of one binary64 operation: at most half a unit in the last
place, that is a relative `2^-53`, or `2^-1075` in the subnormal range. -/
theorem roundDouble_err (x : ℚ) :
    |roundDouble x - x| ≤ (2 : ℚ) ^ (-53 : ℤ) * |x| + (2 : ℚ) ^ (-1075 : ℤ) := by
  by_cases hx0 : x = 0
  · subst hx0
    rw [roundDouble_zero]
    norm_num
  have h2 : (0 : ℚ) < 2 := by norm_num
  have hxpos : 0 < |x| := abs_pos.2 hx0
  have hk1 : (2 : ℚ) ^ (Int.log 2 |x|) ≤ |x| := by
    have := @Int.zpow_log_le_self ℚ _ _ 2 |x| (by norm_num) hxpos
    exact_mod_cast this
  have hu : (2 : ℚ) ^ ulpExponent x
      ≤ (2 : ℚ) ^ (-52 : ℤ) * |x| + (2 : ℚ) ^ (-1074 : ℤ) := by
    unfold ulpExponent
    rcases le_total (Int.log 2 |x|) (-1022) with h | h
    · rw [max_eq_right h]
      have : (0 : ℚ) ≤ (2 : ℚ) ^ (-52 : ℤ) * |x| := by positivity
      have e : ((-1022 : ℤ) - 52) = -1074 := by norm_num
      rw [e]
      linarith
    · rw [max_eq_left h, zpow_sub₀ (by norm_num : (2 : ℚ) ≠ 0)]
      have : (0 : ℚ) ≤ (2 : ℚ) ^ (-1074 : ℤ) := by positivity
      have e : (2 : ℚ) ^ Int.log 2 |x| / (2 : ℚ) ^ (52 : ℤ)
          = (2 : ℚ) ^ (-52 : ℤ) * (2 : ℚ) ^ Int.log 2 |x| := by
        rw [zpow_neg]
        field_simp
      rw [e]
      have : (2 : ℚ) ^ (-52 : ℤ) * (2 : ℚ) ^ Int.log 2 |x| ≤ (2 : ℚ) ^ (-52 : ℤ) * |x| :=
        mul_le_mul_of_nonneg_left hk1 (by positivity)
      linarith
  have hpu : (0 : ℚ) < (2 : ℚ) ^ ulpExponent x := zpow_pos h2 _
  have herr := roundHalfEven_err (x / (2 : ℚ) ^ ulpExponent x)
  have hfac : roundDouble x - x
      = ((roundHalfEven (x / (2 : ℚ) ^ ulpExponent x) : ℚ) - x / (2 : ℚ) ^ ulpExponent x)
        * (2 : ℚ) ^ ulpExponent x := by
    unfold roundDouble
    field_simp
  rw [hfac, abs_mul, abs_of_pos hpu]
  have h3 : |(roundHalfEven (x / (2 : ℚ) ^ ulpExponent x) : ℚ) - x / (2 : ℚ) ^ ulpExponent x|
      * (2 : ℚ) ^ ulpExponent x ≤ 1/2 * (2 : ℚ) ^ ulpExponent x :=
    mul_le_mul_of_nonneg_right herr (le_of_lt hpu)
  have e53 : (2 : ℚ) ^ (-53 : ℤ) = 1/2 * (2 : ℚ) ^ (-52 : ℤ) := by norm_num
  have e1075 : (2 : ℚ) ^ (-1075 : ℤ) = 1/2 * (2 : ℚ) ^ (-1074 : ℤ) := by
    rw [show (-1075 : ℤ) = -1074 - 1 by norm_num, zpow_sub₀ (by norm_num : (2 : ℚ) ≠ 0)]
    simp
    ring
  rw [e53, e1075]
  have h4 := mul_le_mul_of_nonneg_left hu (by norm_num : (0 : ℚ) ≤ 1/2)
  rw [mul_add, ← mul_assoc] at h4
  exact le_trans h3 h4

/-- Rounding error relative to a normal number `s`: `2^-1075 ≤ 2^-53 * s`. -/
theorem roundDouble_err_normal (x : ℚ) {s : ℚ} (hs : (2 : ℚ) ^ (-1022 : ℤ) ≤ s) :
    |roundDouble x - x| ≤ (2 : ℚ) ^ (-53 : ℤ) * (|x| + s) := by
  have h := roundDouble_err x
  have e : (2 : ℚ) ^ (-1075 : ℤ) = (2 : ℚ) ^ (-53 : ℤ) * (2 : ℚ) ^ (-1022 : ℤ) := by
    rw [← zpow_add₀ (by norm_num : (2 : ℚ) ≠ 0)]
    norm_num
  have h2 : (2 : ℚ) ^ (-53 : ℤ) * (2 : ℚ) ^ (-1022 : ℤ) ≤ (2 : ℚ) ^ (-53 : ℤ) * s :=
    mul_le_mul_of_nonneg_left hs (by positivity)
  rw [e] at h
  rw [mul_add]
  linarith

/-- Rounding error of a result of moderate size, relative to the bin size. -/
theorem roundDouble_err_small (x : ℚ) {s T : ℚ} (hs : (2 : ℚ) ^ (-1022 : ℤ) ≤ s)
    (hT : T ≤ 2 ^ 47 * s) (hx : |x| + s ≤ 2 * T) : |roundDouble x - x| ≤ s / 32 := by
  have h := roundDouble_err_normal x hs
  have e : (2 : ℚ) ^ (-53 : ℤ) = 1 / 2 ^ 53 := by
    rw [zpow_neg]
    norm_num
  rw [e] at h
  have h3 : (1 : ℚ) / 2 ^ 53 * (|x| + s) ≤ 1 / 2 ^ 53 * (2 * (2 ^ 47 * s)) :=
    mul_le_mul_of_nonneg_left (by linarith) (by positivity)
  have h4 : (1 : ℚ) / 2 ^ 53 * (2 * (2 ^ 47 * s)) = s / 32 := by
    norm_num
    ring
  linarith

/-- Rounding error of the quotient. -/
theorem roundDouble_err_quotient (x : ℚ) (hx : |x| ≤ 2 ^ 47) :
    |roundDouble x - x| < 1 / 4 := by
  have h := roundDouble_err x
  have e : (2 : ℚ) ^ (-53 : ℤ) = 1 / 2 ^ 53 := by
    rw [zpow_neg]
    norm_num
  have e2 : (2 : ℚ) ^ (-1075 : ℤ) ≤ 1 / 2 ^ 53 := by
    rw [← e]
    exact zpow_le_zpow_right₀ (by norm_num) (by norm_num)
  rw [e] at h
  have h3 : (1 : ℚ) / 2 ^ 53 * |x| ≤ 1 / 2 ^ 53 * 2 ^ 47 :=
    mul_le_mul_of_nonneg_left hx (by positivity)
  have h4 : (1 : ℚ) / 2 ^ 53 * 2 ^ 47 + 1 / 2 ^ 53 < 1 / 4 := by norm_num
  linarith

/-! ## C14: the centre round trip in binary64 -/

theorem roundDouble_one : roundDouble 1 = 1 := by
  have h := isDouble_of_dyadic 1 0 (by norm_num) (by norm_num)
  unfold IsDouble at h
  simpa using h

theorem demoHuge64_isDouble : IsDouble 9007199254740992 ∧ IsDouble 1 := by
  constructor
  · have h := isDouble_of_dyadic 1 53 (by norm_num) (by norm_num)
    norm_num at h
    exact h
  · exact roundDouble_one

theorem demoHuge64_edge : roundDouble (9007199254740992 + 1) = 9007199254740992 := by
  rw [roundDouble_eq 53 (by norm_num [abs_of_pos]) (by norm_num [abs_of_pos])]
  norm_num [roundHalfEven]

theorem demoHuge64_half : roundDouble (1/2) = 1/2 := by
  have h := isDouble_of_dyadic 1 (-1) (by norm_num) (by norm_num)
  unfold IsDouble at h
  norm_num at h
  norm_num
  exact h

theorem demoHuge64_center : roundDouble (9007199254740992 + 1/2) = 9007199254740992 := by
  rw [roundDouble_eq 53 (by norm_num [abs_of_pos]) (by norm_num [abs_of_pos])]
  norm_num [roundHalfEven]

/-- C14 fails in binary64: for `UniformBinning(3, 2^53, 1.0)` the low edge of
bin `1` is `fl(2^53 + 1) = 2^53` (a tie, rounded to the even significand), its
centre is `fl(2^53 + 0.5) = 2^53`, and `getBinIndex(2^53)` is
`floor(fl(0/1)) = 0`, not `1`. -/
theorem binary64_center_not_roundtrip :
    UniformBinning.create 3 9007199254740992 1 = some demoHuge64 ∧
    IsDouble 9007199254740992 ∧ IsDouble 1 ∧
    Binary64.getBinLowEdge demoHuge64 1 = some 9007199254740992 ∧
    Binary64.getBinCenter demoHuge64 1 = some 9007199254740992 ∧
    Binary64.getBinIndex demoHuge64 9007199254740992 = some 0 ∧ (0 : ℤ) ≠ 1 := by
  have hlo : Binary64.getBinLowEdge demoHuge64 1 = some 9007199254740992 := by
    unfold Binary64.getBinLowEdge demoHuge64
    rw [if_pos (by decide)]
    simp only [Int.cast_one, one_mul, roundDouble_one, demoHuge64_edge]
  refine ⟨?_, demoHuge64_isDouble.1, demoHuge64_isDouble.2, hlo, ?_, ?_, by decide⟩
  · unfold UniformBinning.create demoHuge64
    rw [if_pos (by norm_num)]
  · unfold Binary64.getBinCenter
    rw [hlo]
    simp only [UniformBinning.getBinSize, demoHuge64, mul_one, demoHuge64_half,
      demoHuge64_center]
  · unfold Binary64.getBinIndex demoHuge64
    simp only [sub_self, roundDouble_zero, zero_div, Int.floor_zero]
    rw [if_pos (by decide)]

/-- The binary64 round trip for a binning of moderate size. -/
theorem binary64_roundtrip_aux (nBins : ℤ) (lowEdge binSize : ℚ) (hs : 0 < binSize)
    (hnorm : (2 : ℚ) ^ (-1022 : ℤ) ≤ binSize)
    (hmag : |lowEdge| + nBins * binSize ≤ 2 ^ 47 * binSize) (i : ℤ) (h0 : 0 ≤ i)
    (h1 : i < nBins) :
    ⌊roundDouble (roundDouble (roundDouble (roundDouble (lowEdge
      + roundDouble ((i : ℚ) * binSize)) + roundDouble ((1/2) * binSize)) - lowEdge)
      / binSize)⌋ = i := by
  set T : ℚ := |lowEdge| + nBins * binSize with hT
  have hi0 : (0 : ℚ) ≤ (i : ℚ) := by exact_mod_cast h0
  have hi1 : (i : ℚ) + 1 ≤ (nBins : ℚ) := by exact_mod_cast h1
  have hL := abs_nonneg lowEdge
  have hL1 := le_abs_self lowEdge
  have hL2 := neg_abs_le lowEdge
  have his : 0 ≤ (i : ℚ) * binSize := mul_nonneg hi0 (le_of_lt hs)
  have hns : ((i : ℚ) + 1) * binSize ≤ nBins * binSize :=
    mul_le_mul_of_nonneg_right hi1 (le_of_lt hs)
  have hTs : binSize ≤ T := by nlinarith
  -- the product
  set p := roundDouble ((i : ℚ) * binSize) with hp
  have e1 := abs_le.1 (roundDouble_err_small ((i : ℚ) * binSize) hnorm hmag
    (by rw [abs_of_nonneg his]; linarith))
  -- the low edge
  set a := roundDouble (lowEdge + p) with ha
  have e2 := abs_le.1 (roundDouble_err_small (lowEdge + p) hnorm hmag (by
    have : |lowEdge + p| ≤ |lowEdge| + (i : ℚ) * binSize + binSize / 32 :=
      abs_le.2 ⟨by linarith, by linarith⟩
    linarith))
  -- half the bin size
  set h := roundDouble ((1/2) * binSize) with hh
  have e3 := abs_le.1 (roundDouble_err_small ((1/2) * binSize) hnorm hmag (by
    rw [abs_of_nonneg (by linarith)]; linarith))
  -- the centre
  set c := roundDouble (a + h) with hc
  have e4 := abs_le.1 (roundDouble_err_small (a + h) hnorm hmag (by
    have : |a + h| ≤ |lowEdge| + (i : ℚ) * binSize + binSize := abs_le.2 ⟨by linarith, by linarith⟩
    linarith))
  -- the difference
  set d := roundDouble (c - lowEdge) with hd
  have e5 := abs_le.1 (roundDouble_err_small (c - lowEdge) hnorm hmag (by
    have : |c - lowEdge| ≤ (i : ℚ) * binSize + binSize := abs_le.2 ⟨by linarith, by linarith⟩
    linarith))
  have hd1 : ((i : ℚ) + 1/4) * binSize ≤ d := by linarith
  have hd2 : d ≤ ((i : ℚ) + 3/4) * binSize := by linarith
  -- the quotient
  have hq1 : (i : ℚ) + 1/4 ≤ d / binSize := by rwa [le_div_iff₀ hs]
  have hq2 : d / binSize ≤ (i : ℚ) + 3/4 := by rwa [div_le_iff₀ hs]
  have hn47 : (nBins : ℚ) ≤ 2 ^ 47 := by
    have : (nBins : ℚ) * binSize ≤ 2 ^ 47 * binSize := by linarith
    exact le_of_mul_le_mul_right this hs
  have e6 := abs_lt.1 (roundDouble_err_quotient (d / binSize)
    (abs_le.2 ⟨by linarith, by linarith⟩))
  rw [Int.floor_eq_iff]
  constructor <;> linarith

/-- C14 (amended).  In exact arithmetic the centre of every bin `0 ≤ i < nBins`
of a `UniformBinning(nBins, lowEdge, binSize)` that passes the constructor's
checks is looked up in bin `i`.  In binary64 arithmetic the same holds when
`binSize` is a normal number (`binSize ≥ 2^-1022`) and the axis is not
astronomically far from zero in units of its bin size:
`|lowEdge| + nBins*binSize ≤ 2^47 * binSize`. -/
theorem binary64_center_roundtrip (nBins : ℤ) (lowEdge binSize : ℚ) (b : UniformBinning)
    (hb : UniformBinning.create nBins lowEdge binSize = some b) (i : ℤ) (h0 : 0 ≤ i)
    (h1 : i < nBins) :
    (∃ c, b.getBinCenter i = some c ∧ c = lowEdge + i * binSize + (1/2) * binSize ∧
      b.getBinIndex c = some i) ∧
    ((2 : ℚ) ^ (-1022 : ℤ) ≤ binSize → |lowEdge| + nBins * binSize ≤ 2 ^ 47 * binSize →
      ∃ lo c, Binary64.getBinLowEdge b i = some lo ∧
        Binary64.getBinCenter b i = some c ∧
        c = roundDouble (lo + roundDouble ((1/2) * binSize)) ∧
        Binary64.getBinIndex b c = some i) := by
  obtain ⟨lo, size, hlo, hsize, hcen, hidx⟩ :=
    uniform_center_exact nBins lowEdge binSize b hb i h0 h1
  unfold UniformBinning.create at hb
  split_ifs at hb with hc
  cases hb
  obtain ⟨-, hs⟩ := hc
  constructor
  · have e1 : lo = lowEdge + i * binSize := by
      unfold UniformBinning.getBinLowEdge at hlo
      rw [if_pos ⟨h0, le_of_lt h1⟩] at hlo
      cases hlo
      rfl
    have e2 : size = binSize := by
      cases hsize
      rfl
    subst e1 e2
    exact ⟨_, hcen, rfl, hidx⟩
  · intro hnorm hmag
    have hle : Binary64.getBinLowEdge ⟨nBins, lowEdge, binSize⟩ i
        = some (roundDouble (lowEdge + roundDouble ((i : ℚ) * binSize))) := by
      unfold Binary64.getBinLowEdge
      rw [if_pos ⟨h0, le_of_lt h1⟩]
    refine ⟨_, _, hle, ?_, rfl, ?_⟩
    · unfold Binary64.getBinCenter
      rw [hle]
      rfl
    · unfold Binary64.getBinIndex
      simp only
      rw [binary64_roundtrip_aux nBins lowEdge binSize hs hnorm hmag i h0 h1]
      rw [if_pos ⟨h0, h1⟩]

theorem demoAxis64_create :
    UniformBinning.create 14 (7378697629483821 / 36893488147419103232)
      (1152921504606847 / 288230376151711744) = some demoAxis64 := by
  unfold UniformBinning.create demoAxis64
  rw [if_pos (by norm_num)]

/-- C14 (amended), worked instance: the centre of the last bin of the default
wavelength axis `UniformBinning(14, 0.0002, 0.004)`, computed in binary64, is
looked up in bin `13`. -/
theorem binary64_center_roundtrip_witness :
    UniformBinning.create 14 (7378697629483821 / 36893488147419103232)
      (1152921504606847 / 288230376151711744) = some demoAxis64 ∧
    ∃ lo c, Binary64.getBinLowEdge demoAxis64 13 = some lo ∧
      Binary64.getBinCenter demoAxis64 13 = some c ∧
      c = roundDouble (lo + roundDouble ((1/2) * (1152921504606847 / 288230376151711744))) ∧
      Binary64.getBinIndex demoAxis64 c = some 13 :=
  ⟨demoAxis64_create,
    (binary64_center_roundtrip 14 _ _ demoAxis64 demoAxis64_create 13 (by decide)
      (by decide)).2 (by norm_num) (by norm_num [abs_of_pos])⟩

/-! ## C16: the floor lookup in binary64 -/

theorem demoAxis64_isDouble :
    IsDouble (7378697629483821 / 36893488147419103232) ∧
    IsDouble (1152921504606847 / 288230376151711744) ∧
    IsDouble (1880703204389919 / 36028797018963968) := by
  refine ⟨?_, ?_, ?_⟩
  · have h := isDouble_of_dyadic 7378697629483821 (-65) (by norm_num) (by norm_num)
    norm_num at h ⊢
    exact h
  · have h := isDouble_of_dyadic 4611686018427388 (-60) (by norm_num) (by norm_num)
    norm_num at h ⊢
    exact h
  · have h := isDouble_of_dyadic 7522812817559676 (-57) (by norm_num) (by norm_num)
    norm_num at h ⊢
    exact h

/-- Binary64 evaluation: `fl(0.052199999999999996 - 0.0002)` -/
theorem demoAxis64_sub :
    roundDouble (1880703204389919 / 36028797018963968 - 7378697629483821 / 36893488147419103232)
      = 7493989779944505 / 144115188075855872 := by
  rw [roundDouble_eq (-5) (by norm_num [abs_of_pos]) (by norm_num [abs_of_pos])]
  norm_num [roundHalfEven]

/-- Binary64 evaluation: `fl(fl(0.052199999999999996 - 0.0002) / 0.004) = 13` -/
theorem demoAxis64_div :
    roundDouble (7493989779944505 / 144115188075855872 / (1152921504606847 / 288230376151711744))
      = 13 := by
  rw [roundDouble_eq 3 (by norm_num [abs_of_pos]) (by norm_num [abs_of_pos])]
  norm_num [roundHalfEven]

/-- Binary64 evaluation: `fl(13 * 0.004)` -/
theorem demoAxis64_mul :
    roundDouble (13 * (1152921504606847 / 288230376151711744))
      = 3746994889972253 / 72057594037927936 := by
  rw [roundDouble_eq (-5) (by norm_num [abs_of_pos]) (by norm_num [abs_of_pos])]
  norm_num [roundHalfEven]

/-- Binary64 evaluation: `fl(0.0002 + fl(13 * 0.004)) = 0.0522` -/
theorem demoAxis64_add :
    roundDouble (7378697629483821 / 36893488147419103232 + 3746994889972253 / 72057594037927936)
      = 7522812817559677 / 144115188075855872 := by
  rw [roundDouble_eq (-5) (by norm_num [abs_of_pos]) (by norm_num [abs_of_pos])]
  norm_num [roundHalfEven]

theorem demoSeventh64_isDouble :
    IsDouble (-1) ∧ IsDouble (3152519739159347 / 4503599627370496) ∧
    IsDouble (5629499534213119 / 2251799813685248) := by
  refine ⟨?_, ?_, ?_⟩
  · have h := isDouble_of_dyadic (-1) 0 (by norm_num) (by norm_num)
    norm_num at h ⊢
    exact h
  · have h := isDouble_of_dyadic 6305039478318694 (-53) (by norm_num) (by norm_num)
    norm_num at h ⊢
    exact h
  · have h := isDouble_of_dyadic 5629499534213119 (-51) (by norm_num) (by norm_num)
    norm_num at h ⊢
    exact h

/-- Binary64 evaluation: `fl(2.4999999999999996 - (-1.0))`, exact -/
theorem demoSeventh64_sub :
    roundDouble (5629499534213119 / 2251799813685248 - (-1))
      = 7881299347898367 / 2251799813685248 := by
  have h := isDouble_of_dyadic 7881299347898367 (-51) (by norm_num) (by norm_num)
  unfold IsDouble at h
  norm_num at h ⊢
  exact h

/-- Binary64 evaluation: `fl(3.4999999999999996 / 0.7) = 5` -/
theorem demoSeventh64_div :
    roundDouble (7881299347898367 / 2251799813685248 / (3152519739159347 / 4503599627370496))
      = 5 := by
  rw [roundDouble_eq 2 (by norm_num [abs_of_pos]) (by norm_num [abs_of_pos])]
  norm_num [roundHalfEven]

/-- Binary64 evaluation: `fl(5 * 0.7) = 3.5` -/
theorem demoSeventh64_mul :
    roundDouble (5 * (3152519739159347 / 4503599627370496)) = 7 / 2 := by
  rw [roundDouble_eq 1 (by norm_num [abs_of_pos]) (by norm_num [abs_of_pos])]
  norm_num [roundHalfEven]

/-- Binary64 evaluation: `fl(-1.0 + 3.5) = 2.5` -/
theorem demoSeventh64_add : roundDouble (-1 + 7 / 2) = 5 / 2 := by
  have h := isDouble_of_dyadic 5 (-1) (by norm_num) (by norm_num)
  unfold IsDouble at h
  norm_num at h ⊢
  exact h

/-- C16 fails in binary64.  On the default wavelength axis
`UniformBinning(14, 0.0002, 0.004)` the binary64 number
`0.052199999999999996` lies in bin `12` (`floor((value - lowEdge)/binSize)` is
`12`), but the rounded quotient is `13.0` and `getBinIndex` returns `13`, a bin
whose own `getBinLowEdge(13) = 0.0522` is above the value.  On
`UniformBinning(5, -1.0, 0.7)` the binary64 number `2.4999999999999996` is
inside the covered range, also below the computed upper edge
`getBinLowEdge(5) = 2.5`, but the rounded quotient is `5.0` and the range
assertion fires. -/
theorem binary64_getBinIndex_not_range :
    (UniformBinning.create 14 (7378697629483821 / 36893488147419103232)
        (1152921504606847 / 288230376151711744) = some demoAxis64 ∧
      IsDouble demoAxis64.lowEdge ∧ IsDouble demoAxis64.binSize ∧
      IsDouble (1880703204389919 / 36028797018963968) ∧
      Binary64.getBinIndex demoAxis64 (1880703204389919 / 36028797018963968) = some 13 ∧
      ⌊(1880703204389919 / 36028797018963968 - demoAxis64.lowEdge) / demoAxis64.binSize⌋ = 12 ∧
      Binary64.getBinLowEdge demoAxis64 13 = some (7522812817559677 / 144115188075855872) ∧
      (1880703204389919 / 36028797018963968 : ℚ) < 7522812817559677 / 144115188075855872) ∧
    (UniformBinning.create 5 (-1) (3152519739159347 / 4503599627370496) = some demoSeventh64 ∧
      IsDouble demoSeventh64.lowEdge ∧ IsDouble demoSeventh64.binSize ∧
      IsDouble (5629499534213119 / 2251799813685248) ∧
      demoSeventh64.lowEdge ≤ 5629499534213119 / 2251799813685248 ∧
      (5629499534213119 / 2251799813685248 : ℚ)
        < demoSeventh64.lowEdge + demoSeventh64.nBins * demoSeventh64.binSize ∧
      Binary64.getBinLowEdge demoSeventh64 5 = some (5 / 2) ∧
      (5629499534213119 / 2251799813685248 : ℚ) < 5 / 2 ∧
      Binary64.getBinIndex demoSeventh64 (5629499534213119 / 2251799813685248) = none) := by
  refine ⟨⟨?_, demoAxis64_isDouble.1, demoAxis64_isDouble.2.1, demoAxis64_isDouble.2.2,
    ?_, ?_, ?_, by norm_num⟩, ⟨?_, demoSeventh64_isDouble.1, demoSeventh64_isDouble.2.1,
    demoSeventh64_isDouble.2.2, ?_, ?_, ?_, by norm_num, ?_⟩⟩
  · unfold UniformBinning.create demoAxis64
    rw [if_pos (by norm_num)]
  · unfold Binary64.getBinIndex demoAxis64
    simp only [demoAxis64_sub, demoAxis64_div]
    rw [if_pos (by norm_num)]
    norm_num
  · unfold demoAxis64
    rw [Int.floor_eq_iff]
    norm_num
  · unfold Binary64.getBinLowEdge demoAxis64
    rw [if_pos (by decide)]
    have e : ((13 : ℤ) : ℚ) = 13 := by norm_num
    simp only [e, demoAxis64_mul, demoAxis64_add]
  · unfold UniformBinning.create demoSeventh64
    rw [if_pos (by norm_num)]
  · unfold demoSeventh64
    norm_num
  · unfold demoSeventh64
    norm_num
  · unfold Binary64.getBinLowEdge demoSeventh64
    rw [if_pos (by decide)]
    have e : ((5 : ℤ) : ℚ) = 5 := by norm_num
    simp only [e, demoSeventh64_mul, demoSeventh64_add]
  · unfold Binary64.getBinIndex demoSeventh64
    simp only [demoSeventh64_sub, demoSeventh64_div]
    rw [if_neg (by norm_num)]

/-- Two roundings with relative error `ε` and absolute error `η`, the second
after a division by `s`, seen after multiplying back. -/
theorem quotient_err_abstract (ε η D d q s : ℚ) (hε0 : 0 ≤ ε) (hε1 : ε ≤ 1) (hη : 0 < η)
    (hs : 0 < s) (h5 : |d - D| ≤ ε * |D| + η) (h6 : |q - d / s| ≤ ε * |d / s| + η) :
    |q * s - D| < 4 * ε * |D| + 2 * η * (1 + s) := by
  have hD := abs_nonneg D
  have hA : 0 ≤ ε * |D| := mul_nonneg hε0 hD
  have hd : |d| ≤ |D| + (ε * |D| + η) := by
    have := abs_sub_abs_le_abs_sub d D
    linarith
  have h6s : |q * s - d| ≤ ε * |d| + η * s := by
    have e : q * s - d = (q - d / s) * s := by
      field_simp
    rw [e, abs_mul, abs_of_pos hs]
    have := mul_le_mul_of_nonneg_right h6 (le_of_lt hs)
    have e2 : (ε * |d / s| + η) * s = ε * |d| + η * s := by
      rw [abs_div, abs_of_pos hs]
      field_simp
    rw [e2] at this
    exact this
  have hεd : ε * |d| ≤ ε * |D| + ε * |D| + η := by
    have h1 := mul_le_mul_of_nonneg_left hd hε0
    have h2 : ε * (ε * |D|) ≤ 1 * (ε * |D|) := mul_le_mul_of_nonneg_right hε1 hA
    have h3 : ε * η ≤ 1 * η := mul_le_mul_of_nonneg_right hε1 (le_of_lt hη)
    have e : ε * (|D| + (ε * |D| + η)) = ε * |D| + ε * (ε * |D|) + ε * η := by ring
    rw [e] at h1
    linarith
  have htri : |q * s - D| ≤ |q * s - d| + |d - D| := by
    have := abs_add (q * s - d) (d - D)
    have e : q * s - d + (d - D) = q * s - D := by ring
    rw [e] at this
    exact this
  have hηs : 0 < η * s := mul_pos hη hs
  have e4 : 4 * ε * |D| + 2 * η * (1 + s) = 4 * (ε * |D|) + 2 * η + 2 * (η * s) := by ring
  rw [e4]
  linarith

/-- The computed quotient of `getBinIndex`, multiplied back, is within the
slack of `value - lowEdge`. -/
theorem binary64_quotient_err (b : UniformBinning) (hs : 0 < b.binSize) (value : ℚ) :
    |roundDouble (roundDouble (value - b.lowEdge) / b.binSize) * b.binSize
      - (value - b.lowEdge)| < Binary64.slack b value := by
  have h := quotient_err_abstract ((2 : ℚ) ^ (-53 : ℤ)) ((2 : ℚ) ^ (-1075 : ℤ))
    (value - b.lowEdge) (roundDouble (value - b.lowEdge))
    (roundDouble (roundDouble (value - b.lowEdge) / b.binSize)) b.binSize
    (by positivity) (zpow_le_one_of_nonpos₀ (by norm_num) (by norm_num)) (by positivity) hs
    (roundDouble_err _) (roundDouble_err _)
  have e1 : (4 : ℚ) * (2 : ℚ) ^ (-53 : ℤ) = (2 : ℚ) ^ (-51 : ℤ) := by
    rw [show (-51 : ℤ) = 2 + -53 by norm_num, zpow_add₀ (by norm_num : (2 : ℚ) ≠ 0)]
    norm_num
  have e2 : (2 : ℚ) * (2 : ℚ) ^ (-1075 : ℤ) = (2 : ℚ) ^ (-1074 : ℤ) := by
    rw [show (-1074 : ℤ) = 1 + -1075 by norm_num, zpow_add₀ (by norm_num : (2 : ℚ) ≠ 0)]
    norm_num
  rw [e1, e2] at h
  exact h

/-- Where the floor of the computed quotient lies, relative to the exact
multiples of the bin size. -/
theorem binary64_floor_bounds (b : UniformBinning) (hs : 0 < b.binSize) (value : ℚ) (j : ℤ) :
    (j ≤ ⌊roundDouble (roundDouble (value - b.lowEdge) / b.binSize)⌋ →
      b.lowEdge + j * b.binSize - Binary64.slack b value < value) ∧
    (⌊roundDouble (roundDouble (value - b.lowEdge) / b.binSize)⌋ < j →
      value < b.lowEdge + j * b.binSize + Binary64.slack b value) ∧
    (b.lowEdge + j * b.binSize + Binary64.slack b value ≤ value →
      j ≤ ⌊roundDouble (roundDouble (value - b.lowEdge) / b.binSize)⌋) ∧
    (value ≤ b.lowEdge + j * b.binSize - Binary64.slack b value →
      ⌊roundDouble (roundDouble (value - b.lowEdge) / b.binSize)⌋ < j) := by
  have h := abs_lt.1 (binary64_quotient_err b hs value)
  generalize roundDouble (roundDouble (value - b.lowEdge) / b.binSize) = q at h
  generalize Binary64.slack b value = t at h
  refine ⟨?_, ?_, ?_, ?_⟩
  · intro hj
    have h1 : (j : ℚ) ≤ q := Int.le_floor.1 hj
    have h2 : (j : ℚ) * b.binSize ≤ q * b.binSize := mul_le_mul_of_nonneg_right h1 (le_of_lt hs)
    linarith
  · intro hj
    have h1 : q < (j : ℚ) := Int.floor_lt.1 hj
    have h2 : q * b.binSize < (j : ℚ) * b.binSize := mul_lt_mul_of_pos_right h1 hs
    linarith
  · intro hv
    rw [Int.le_floor]
    have h2 : (j : ℚ) * b.binSize ≤ q * b.binSize := by linarith
    exact le_of_mul_le_mul_right h2 hs
  · intro hv
    rw [Int.floor_lt]
    have h2 : q * b.binSize < (j : ℚ) * b.binSize := by linarith
    exact lt_of_mul_lt_mul_right h2 (le_of_lt hs)

/-- What `getBinIndex` decides on: the floor of the computed quotient. -/
theorem binary64_getBinIndex_eq (b : UniformBinning) (value : ℚ) (i : ℤ) :
    Binary64.getBinIndex b value = some i ↔
      (⌊roundDouble (roundDouble (value - b.lowEdge) / b.binSize)⌋ = i ∧ 0 ≤ i ∧ i < b.nBins) := by
  unfold Binary64.getBinIndex
  simp only
  split_ifs with h
  · constructor
    · intro e
      cases e
      exact ⟨rfl, h.1, h.2⟩
    · rintro ⟨e, -, -⟩
      rw [e]
  · constructor
    · intro e
      cases e
    · rintro ⟨e, h0, h1⟩
      exact absurd (by rw [e]; exact ⟨h0, h1⟩) h

theorem binary64_getBinIndex_none (b : UniformBinning) (value : ℚ) :
    Binary64.getBinIndex b value = none ↔
      ¬ (0 ≤ ⌊roundDouble (roundDouble (value - b.lowEdge) / b.binSize)⌋ ∧
        ⌊roundDouble (roundDouble (value - b.lowEdge) / b.binSize)⌋ < b.nBins) := by
  unfold Binary64.getBinIndex
  simp only
  split_ifs with h
  · constructor
    · intro e
      cases e
    · intro hn
      exact absurd h hn
  · constructor
    · intro _
      exact h
    · intro _
      rfl

/-- With an exact subtraction and an exact division the binary64 lookup is the
exact one. -/
theorem binary64_getBinIndex_exact (b : UniformBinning) (value : ℚ)
    (h1 : IsDouble (value - b.lowEdge)) (h2 : IsDouble ((value - b.lowEdge) / b.binSize)) :
    Binary64.getBinIndex b value = b.getBinIndex value := by
  unfold IsDouble at h1 h2
  unfold Binary64.getBinIndex UniformBinning.getBinIndex
  rw [h1, h2]

/-- C16 (amended).  For a `UniformBinning(nBins, lowEdge, binSize)` that passes
the constructor's checks and every value, in binary64 arithmetic:
`getBinIndex(value)` returns exactly when the floor of the computed quotient
`q = fl(fl(value - lowEdge)/binSize)` is in `[0, nBins)`, and then returns that
floor; otherwise the range assertion fires, no sentinel is returned.  With
`slack = 2^-51*|value - lowEdge| + 2^-1074*(1 + binSize)`: the returned bin `i`
brackets the value up to the slack; a value at least the slack inside bin `i` is
put in bin `i`; a value at least the slack inside the covered range is
accepted; a value at least the slack outside the covered range is rejected.
When the subtraction and the division are exact, the lookup returns exactly when
`lowEdge ≤ value < lowEdge + nBins*binSize`, what it returns is
`floor((value - lowEdge)/binSize)`, and that is the only bin whose edges bracket
the value. -/
theorem binary64_getBinIndex_range (nBins : ℤ) (lowEdge binSize : ℚ) (b : UniformBinning)
    (hb : UniformBinning.create nBins lowEdge binSize = some b) (value : ℚ) :
    (∀ i, Binary64.getBinIndex b value = some i ↔
      (⌊roundDouble (roundDouble (value - lowEdge) / binSize)⌋ = i ∧ 0 ≤ i ∧ i < nBins)) ∧
    (Binary64.getBinIndex b value = none ↔
      ¬ (0 ≤ ⌊roundDouble (roundDouble (value - lowEdge) / binSize)⌋ ∧
        ⌊roundDouble (roundDouble (value - lowEdge) / binSize)⌋ < nBins)) ∧
    (∀ i, Binary64.getBinIndex b value = some i →
      0 ≤ i ∧ i < nBins ∧ lowEdge + i * binSize - Binary64.slack b value < value ∧
      value < lowEdge + (i + 1) * binSize + Binary64.slack b value) ∧
    (∀ i, 0 ≤ i → i < nBins → lowEdge + i * binSize + Binary64.slack b value ≤ value →
      value ≤ lowEdge + (i + 1) * binSize - Binary64.slack b value →
      Binary64.getBinIndex b value = some i) ∧
    (lowEdge + Binary64.slack b value ≤ value →
      value ≤ lowEdge + nBins * binSize - Binary64.slack b value →
      ∃ i, Binary64.getBinIndex b value = some i) ∧
    (value ≤ lowEdge - Binary64.slack b value ∨
      lowEdge + nBins * binSize + Binary64.slack b value ≤ value →
      Binary64.getBinIndex b value = none) ∧
    (IsDouble (value - lowEdge) → IsDouble ((value - lowEdge) / binSize) →
      Binary64.getBinIndex b value = b.getBinIndex value ∧
      ((∃ i, Binary64.getBinIndex b value = some i) ↔
        lowEdge ≤ value ∧ value < lowEdge + nBins * binSize) ∧
      (∀ i, Binary64.getBinIndex b value = some i →
        i = ⌊(value - lowEdge) / binSize⌋ ∧ 0 ≤ i ∧ i < nBins ∧
        ∃ lo hi, b.getBinLowEdge i = some lo ∧ b.getBinLowEdge (i + 1) = some hi ∧
          lo ≤ value ∧ value < hi) ∧
      (∀ i lo hi, 0 ≤ i → i < nBins → b.getBinLowEdge i = some lo →
        b.getBinLowEdge (i + 1) = some hi → lo ≤ value → value < hi →
        Binary64.getBinIndex b value = some i) ∧
      (¬ (lowEdge ≤ value ∧ value < lowEdge + nBins * binSize) →
        Binary64.getBinIndex b value = none)) := by
  have hex := uniform_getBinIndex_exact nBins lowEdge binSize b hb value
  unfold UniformBinning.create at hb
  split_ifs at hb with hc
  cases hb
  obtain ⟨-, hs⟩ := hc
  have hfl := binary64_floor_bounds ⟨nBins, lowEdge, binSize⟩ hs value
  have hidx := binary64_getBinIndex_eq ⟨nBins, lowEdge, binSize⟩ value
  have hnone := binary64_getBinIndex_none ⟨nBins, lowEdge, binSize⟩ value
  simp only at hfl hidx hnone
  refine ⟨hidx, hnone, ?_, ?_, ?_, ?_, ?_⟩
  · intro i hi
    obtain ⟨e, h0, h1⟩ := (hidx i).1 hi
    refine ⟨h0, h1, (hfl i).1 (le_of_eq e.symm), ?_⟩
    have := (hfl (i + 1)).2.1 (by omega)
    push_cast at this
    exact this
  · intro i h0 h1 hlo hhi
    have a1 := (hfl i).2.2.1 hlo
    have a2 := (hfl (i + 1)).2.2.2 (by push_cast; exact hhi)
    exact (hidx i).2 ⟨by omega, h0, h1⟩
  · intro hlo hhi
    have a1 := (hfl 0).2.2.1 (by push_cast; linarith)
    have a2 := (hfl nBins).2.2.2 hhi
    exact ⟨_, (hidx _).2 ⟨rfl, a1, a2⟩⟩
  · intro hv
    rw [hnone]
    rintro ⟨a1, a2⟩
    rcases hv with hv | hv
    · have := (hfl 0).1 a1
      push_cast at this
      linarith
    · have := (hfl nBins).2.1 a2
      linarith
  · intro d1 d2
    have e := binary64_getBinIndex_exact ⟨nBins, lowEdge, binSize⟩ value d1 d2
    rw [e]
    exact ⟨rfl, hex⟩

/-- C16 (amended), worked instance: on the default wavelength axis
`UniformBinning(14, 0.0002, 0.004)` the value `1/32 = 0.03125` is well inside
bin `7`, which is what the binary64 lookup returns. -/
theorem binary64_getBinIndex_range_witness :
    UniformBinning.create 14 (7378697629483821 / 36893488147419103232)
      (1152921504606847 / 288230376151711744) = some demoAxis64 ∧
    Binary64.getBinIndex demoAxis64 (1/32) = some 7 :=
  ⟨demoAxis64_create,
    (binary64_getBinIndex_range 14 _ _ demoAxis64 demoAxis64_create (1/32)).2.2.2.1 7
      (by decide) (by decide)
      (by norm_num [Binary64.slack, demoAxis64, abs_of_pos])
      (by norm_num [Binary64.slack, demoAxis64, abs_of_pos])⟩

/-! ## C8: what `finalizeData` does to the covariance store -/

/-- `std::vector::resize` keeps the elements below the new size and fills with
the given value; read with that value as default, a slot below the new size
reads what it read before. -/
theorem getD_vectorResize {α : Type} (l : List α) (n k : ℕ) (v : α) (hk : k < n) :
    (vectorResize l n v).getD k v = l.getD k v := by
  unfold vectorResize
  by_cases hl : k < l.length
  · rw [List.getD_append _ _ _ _ (by simp; omega)]
    rw [List.getD_eq_getElem _ _ (by simp; omega), List.getD_eq_getElem _ _ hl]
    simp
  · rw [List.getD_eq_default l v (by omega)]
    by_cases hk2 : k < (l.take n ++ List.replicate (n - l.length) v).length
    · rw [List.getD_eq_getElem _ _ hk2]
      rw [List.getElem_append_right (by simp; omega)]
      simp
    · rw [List.getD_eq_default _ _ (by omega)]

theorem finalizeData_size (s : LyaData) :
    ((s.getNData * (s.getNData + 1)).tdiv 2).toNat
      = s.data.length * (s.data.length + 1) / 2 := by
  have := @packedIndex_int 0 s.getNData le_rfl (by simp [LyaData.getNData])
  simp only [zero_add, packedIndex, Int.toNat_zero] at this
  rw [this, LyaData.getNData, Int.toNat_ofNat]

/-- The states of the demonstration sequence `addData`, `finalizeData`,
`addCovariance(0,0,5)`, `addData`. -/
theorem demo_refinalize :
    demoEmpty.addData 1 (1/2) (1/2) (1/2) = .done (demoEmpty.stored 1 0 (4/9) 0) ∧
    (demoEmpty.stored 1 0 (4/9) 0).finalizeData.addCovariance 0 0 5
      = .done ((demoEmpty.stored 1 0 (4/9) 0).finalizeData.filled 0 5) ∧
    ((demoEmpty.stored 1 0 (4/9) 0).finalizeData.filled 0 5).addData 1 (1/2) (3/2) (1/2)
      = .done (((demoEmpty.stored 1 0 (4/9) 0).finalizeData.filled 0 5).stored 1 2 (196/81) 0) := by
  have ha : (1 : ℚ) = demoEmpty.arcminToRad := by
    simp [demoEmpty, LyaData.create, demoLibm]
    norm_num
  refine ⟨?_, ?_, ?_⟩
  · have h := demo_addData demoEmpty 0 1 (1/2) ⟨rfl, rfl, rfl, rfl, rfl⟩ (by decide) (by decide)
      (by norm_num) (by decide)
    rw [demo_transform _ _ ⟨rfl, rfl, ha.symm⟩] at h
    norm_num at h
    exact h
  · rw [addCovariance_eq, if_pos]
    · rfl
    · refine ⟨rfl, by decide, by decide, Or.inr (by norm_num), by decide⟩
  · have h := demo_addData ((demoEmpty.stored 1 0 (4/9) 0).finalizeData.filled 0 5) 1 1 (3/2)
      ⟨rfl, rfl, rfl, rfl, rfl⟩ (by decide) (by decide) (by norm_num) (by decide)
    rw [demo_transform ((demoEmpty.stored 1 0 (4/9) 0).finalizeData.filled 0 5) _
      ⟨rfl, rfl, ha.symm⟩] at h
    norm_num at h
    exact h

/-- C8 fails as stated: after `addData`, `finalizeData`, `addCovariance(0,0,5)`
and a second `addData` (which no assertion forbids), `finalizeData` runs on a
dataset with `n = 2` observations and leaves the `3` slots `[5, 0, 0]` with
flags `[true, false, false]`: slot `0` is neither zero nor unfilled. -/
theorem finalizeData_store_not_cleared :
    ∃ s1 s2 s3, demoEmpty.addData 1 (1/2) (1/2) (1/2) = .done s1 ∧
      s1.finalizeData.addCovariance 0 0 5 = .done s2 ∧
      s2.addData 1 (1/2) (3/2) (1/2) = .done s3 ∧
      s3.getNData = 2 ∧ s3.finalizeData.cov = [5, 0, 0] ∧
      s3.finalizeData.hasCov = [true, false, false] ∧ s3.finalizeData.getNCov = 1 :=
  ⟨_, _, _, demo_refinalize.1, demo_refinalize.2.1, demo_refinalize.2.2, rfl, rfl, rfl, rfl⟩

/-- C8 (amended).  `finalizeData` on a dataset with `n` observations sets the
flag and resizes the covariance store to exactly `n*(n+1)/2` slots.  Every slot
below the new size reads what it read before the call (value and filled flag,
zero and unfilled for a slot the call adds), so all slots are zero and unfilled
when the store was empty before the call, as it is for a dataset built by
`addData` calls alone.  For `0 ≤ row ≤ col < n` the slot `row + col*(col+1)/2`
lies inside the store, `addCovariance` writes it when it is unfilled, and
different pairs `(row, col)` have different slots. -/
theorem finalizeData_resizes_store (s : LyaData) :
    s.finalizeData.getNData = s.getNData ∧
    s.finalizeData.dataFinalized = true ∧
    s.finalizeData.cov.length = s.data.length * (s.data.length + 1) / 2 ∧
    s.finalizeData.hasCov.length = s.data.length * (s.data.length + 1) / 2 ∧
    (∀ k, k < s.data.length * (s.data.length + 1) / 2 →
      s.finalizeData.cov.getD k 0 = s.cov.getD k 0 ∧
      s.finalizeData.hasCov.getD k false = s.hasCov.getD k false) ∧
    (s.cov = [] → s.hasCov = [] →
      s.finalizeData.cov = List.replicate (s.data.length * (s.data.length + 1) / 2) 0 ∧
      s.finalizeData.hasCov = List.replicate (s.data.length * (s.data.length + 1) / 2) false ∧
      s.finalizeData.getNCov = 0) ∧
    (∀ (m : Libm) (llBins sepBins zBins : AbsBinning) (cosmology : Cosmology)
        (records : List DataRecord),
      addDataAll (LyaData.create m llBins sepBins zBins cosmology) records = .done s →
      s.data.length = records.length ∧ s.cov = [] ∧ s.hasCov = []) ∧
    ∀ row col : ℤ, 0 ≤ row → row ≤ col → col < s.getNData →
      ((covSlot row col : ℕ) : ℤ) = row + (col * (col + 1)).tdiv 2 ∧
      covSlot row col < s.data.length * (s.data.length + 1) / 2 ∧
      (∀ value : ℚ, row < col ∨ 0 < value →
        s.finalizeData.hasCov.getD (covSlot row col) false = false →
        ∃ t, s.finalizeData.addCovariance row col value = .done t ∧
          t.cov = s.finalizeData.cov.set (covSlot row col) value ∧
          t.cov.getD (covSlot row col) 0 = value ∧
          t.hasCov.getD (covSlot row col) false = true) ∧
      ∀ row' col' : ℤ, 0 ≤ row' → row' ≤ col' → col' < s.getNData →
        covSlot row' col' = covSlot row col → row' = row ∧ col' = col := by
  have hn := finalizeData_size s
  have hlc : s.finalizeData.cov.length = s.data.length * (s.data.length + 1) / 2 := by
    show (vectorResize s.cov _ 0).length = _
    rw [length_vectorResize, hn]
  have hlh : s.finalizeData.hasCov.length = s.data.length * (s.data.length + 1) / 2 := by
    show (vectorResize s.hasCov _ false).length = _
    rw [length_vectorResize, hn]
  refine ⟨rfl, rfl, hlc, hlh, ?_, ?_, ?_, ?_⟩
  · intro k hk
    constructor
    · show (vectorResize s.cov _ 0).getD k 0 = _
      exact getD_vectorResize _ _ _ _ (by rw [hn]; exact hk)
    · show (vectorResize s.hasCov _ false).getD k false = _
      exact getD_vectorResize _ _ _ _ (by rw [hn]; exact hk)
  · intro hcov hhas
    have hh : s.finalizeData.hasCov
        = List.replicate (s.data.length * (s.data.length + 1) / 2) false := by
      simp only [LyaData.finalizeData, hhas, hn, vectorResize_nil]
    refine ⟨?_, hh, ?_⟩
    · simp only [LyaData.finalizeData, hcov, hn, vectorResize_nil]
    · simp [LyaData.getNCov, hh, List.count_replicate]
  · intro m llBins sepBins zBins cosmology records h
    have hf := addDataAll_frame h
    refine ⟨?_, ?_, ?_⟩
    · rw [hf.2.2.2.2.2.2.2.2.2.2.2.2.2.2.2.1]; simp [LyaData.create]
    · rw [hf.2.2.2.2.2.1]; rfl
    · rw [hf.2.2.2.2.2.2.2.2.1]; rfl
  · intro row col h0 hrc hcn
    have hcn' : col < ((s.data.length : ℕ) : ℤ) := hcn
    have hlt := covSlot_lt h0 hrc hcn'
    refine ⟨covSlot_cast h0 hrc, hlt, ?_, ?_⟩
    · intro value hv hfree
      have hne : row ≠ col ∨ 0 < value := by
        rcases hv with hv | hv
        · left; omega
        · right; exact hv
      have hcond : s.finalizeData.dataFinalized = true ∧ 0 ≤ min row col ∧
          max row col < s.finalizeData.getNData ∧ (row ≠ col ∨ 0 < value) ∧
          s.finalizeData.hasCov.getD (covSlot row col) false = false := by
        refine ⟨rfl, ?_, ?_, hne, hfree⟩
        · rw [min_eq_left hrc]; exact h0
        · rw [max_eq_right hrc]
          exact hcn
      rw [addCovariance_eq, if_pos hcond]
      refine ⟨_, rfl, rfl, ?_, ?_⟩
      · exact getD_set_self _ _ _ _ (by rw [hlc]; exact hlt)
      · exact getD_set_self _ _ _ _ (by rw [hlh]; exact hlt)
    · intro row' col' h0' hrc' _ he
      exact covSlot_inj h0 hrc h0' hrc' he

/-- C8 (amended), worked instance: the dataset built from the three
demonstration records gets a store of `6` zero, unfilled slots, and
`addCovariance(1,2,-2)` writes slot `1 + 2*3/2 = 4`. -/
theorem finalizeData_resizes_store_witness :
    addDataAll (LyaData.create demoLibm (demoBinning 2) (demoBinning 3) (demoBinning 2)
      demoCosmology) demoRecords = .done demoFilled ∧
    demoFilled.finalizeData.cov = [0, 0, 0, 0, 0, 0] ∧
    demoFilled.finalizeData.hasCov = [false, false, false, false, false, false] ∧
    covSlot 1 2 = 4 ∧
    ∃ t, demoFilled.finalizeData.addCovariance 1 2 (-2) = .done t ∧
      t.cov = [0, 0, 0, 0, -2, 0] := by
  obtain ⟨-, -, -, -, -, hfresh, hmain, hs⟩ := finalizeData_resizes_store demoFilled
  obtain ⟨-, hc0, hh0⟩ := hmain _ _ _ _ _ _ demo_addDataAll
  obtain ⟨hc, hh, -⟩ := hfresh hc0 hh0
  obtain ⟨-, -, hw, -⟩ := hs 1 2 (by norm_num) (by norm_num) (by decide)
  obtain ⟨t, ht, htc, -, -⟩ := hw (-2) (Or.inl (by norm_num)) (by decide)
  have e4 : covSlot 1 2 = 4 := by decide
  refine ⟨demo_addDataAll, hc, hh, e4, t, ht, ?_⟩
  rw [htc, hc, e4]
  rfl

end BaoFit
